import Mathlib

set_option maxHeartbeats 1000000
set_option maxRecDepth 4000

/-!
Verification development for the endge-raph reactive engine.

The definitions below are shallow embeddings of the TypeScript/JavaScript
sources of the repository:

  - src/domain/entities/DataPath.ts   (path parser and pair matcher)
  - src/domain/core/RaphRouter.js     (pattern trie router)
  - src/domain/core/RaphRouterNode.ts (trie node)
  - src/utils/path.ts                 (trie key encodings)
  - src/domain/entities/MinHeap.js    (integer min-heap)
  - src/domain/entities/DepGraph.ts   (dependency DAG)
  - src/domain/core/RaphApp.ts        (dirty buckets and drain)
  - src/domain/entities/DataAdapter.ts (hierarchical data adapter)

Modelling conventions:
  - JS strings are Lean String; JS numbers appearing as parsed path tokens
    are Nat (the parser only accepts digit runs); priorities and weights are
    Int.
  - JS Map / plain-object records are association lists in insertion order;
    JS Set is a duplicate-free list in insertion order.
  - Loops that consume at least one character or element per step are
    written with an explicit fuel argument whose value at every call site
    is large enough by construction, so that all definitions stay
    kernel-computable.
  - The memoisation caches of DataPath and RaphRouter only cache results
    keyed by a version counter; they are bypassed here since every cached
    read returns the value the uncached computation produces.
-/

/-! ### Path segment model (src/domain/types/path.types.ts) -/

/-- ParamValue = string | number. Parsed numeric tokens are digit runs. -/
inductive PVal where
  | str (s : String)
  | num (n : Nat)
deriving DecidableEq, Repr

/-- DataPathSegment with its SegKind tag. `wc true` is the index wildcard
written as brackets, `wc false` is the dot wildcard. -/
inductive Seg where
  | key (k : String)
  | idx (n : Nat)
  | wc (asIndex : Bool)
  | param (pkey : String) (pval : PVal)
deriving DecidableEq, Repr

/-! ### Character helpers mirroring the JS string functions used by the
parser (trim, digit tests, identifier classes). -/

def jsIsSpace (c : Char) : Bool :=
  c = ' ' || c = '\t' || c = '\n' || c = '\r' || c = '\x0b' || c = '\x0c'

/-- String.prototype.trim on a character list. -/
def jsTrim (l : List Char) : List Char :=
  ((l.dropWhile jsIsSpace).reverse.dropWhile jsIsSpace).reverse

/-- Test for the anchored digit-run pattern used for indices and numeric
param values. -/
def isDigitsNE (l : List Char) : Bool :=
  !l.isEmpty && l.all Char.isDigit

/-- Decimal value of a digit run (Number(inner) on a digit run). -/
def digitsVal (l : List Char) : Nat :=
  l.foldl (fun a c => a * 10 + (c.toNat - Char.toNat (Char.ofNat 48))) 0

/-- Anchored test for an index placeholder token: a dollar sign, an ASCII
letter or underscore, then word characters. -/
def isPlaceholderTok : List Char → Bool
  | '$' :: c :: rest => (c.isAlpha || c = '_') && rest.all (fun ch => ch.isAlphanum || ch = '_')
  | _ => false

def kvIdentStart (c : Char) : Bool := c.isAlpha || c = '_' || c = '$'

def kvIdentChar (c : Char) : Bool := c.isAlphanum || c = '_' || c = '$'

/-- The key=value split performed by the bracket-content pattern of
DataPath._parseSegments: an identifier, optional whitespace, an equals
sign, optional whitespace, then a non-empty value free of newlines. -/
def splitKV (l : List Char) : Option (List Char × List Char) :=
  match l with
  | [] => none
  | c :: rest =>
    if kvIdentStart c then
      let ident := c :: rest.takeWhile kvIdentChar
      let after := (rest.dropWhile kvIdentChar).dropWhile jsIsSpace
      match after with
      | '=' :: rest2 =>
        let v := rest2.dropWhile jsIsSpace
        if !v.isEmpty && v.all (fun ch => ch != '\n') then some (ident, v) else none
      | _ => none
    else none

/-- Whether a raw param value token is wrapped in matching quotes
(DataPath.ts lines 304-307). -/
def isQuotedTok (l : List Char) : Bool :=
  (l.head? = some '"' && l.getLast? = some '"') ||
  (l.head? = some '\x27' && l.getLast? = some '\x27')

/-- The classification of a raw key=value value token into a stored
ParamValue (DataPath.ts lines 303-316): strip matching quotes; an
unquoted dollar-token stays a string with its dollar sign (the
placeholder convention); an unquoted digit run becomes a number;
everything else stays a string. -/
def classifyParamValue (rawVal : List Char) : PVal :=
  let quoted := isQuotedTok rawVal
  let core := if quoted then (rawVal.drop 1).dropLast else rawVal
  if !quoted && core.head? = some '$' then PVal.str (String.mk core)
  else if !quoted && isDigitsNE core then PVal.num (digitsVal core)
  else PVal.str (String.mk core)

/-- Classification of a trimmed bracket block (DataPath.ts lines 278-322). -/
def classifyBracket (inner : List Char) : List Seg :=
  if inner.isEmpty then []
  else if isDigitsNE inner then [.idx (digitsVal inner)]
  else if inner = ['*'] then [.wc true]
  else if isPlaceholderTok inner then [.param "$index" (.str (String.mk inner))]
  else
    match splitKV inner with
    | some (ident, v) => [.param (String.mk ident) (classifyParamValue v)]
    | none => [.key (String.mk inner)]

/-- Classification of a trimmed dot segment (DataPath.ts lines 325-339):
a star or a dollar-leading name is a key wildcard, else a key. -/
def classifyDot (raw : List Char) : List Seg :=
  if raw.isEmpty then []
  else if raw = ['*'] then [.wc false]
  else
    match raw with
    | '$' :: _ => [.wc false]
    | _ => [.key (String.mk raw)]

/-- Scanner state for the balanced-bracket block reader of
DataPath._parseSegments: plain mode with the current depth, or inside a
quoted literal. -/
inductive BMode where
  | norm (depth : Nat)
  | quo (q : Char) (depth : Nat)

/-- Balanced bracket scan (DataPath.ts lines 228-277). Consumes characters
after the opening bracket; returns the collected block content and the
rest of the input. Escapes inside quotes are preserved verbatim. -/
def scanBracketAux : BMode → List Char → List Char × List Char
  | _, [] => ([], [])
  | .quo q d, c :: rest =>
    if c = '\\' then
      match rest with
      | [] => ([c], [])
      | e :: rest2 =>
        let r := scanBracketAux (.quo q d) rest2
        (c :: e :: r.1, r.2)
    else if c = q then
      let r := scanBracketAux (.norm d) rest
      (c :: r.1, r.2)
    else
      let r := scanBracketAux (.quo q d) rest
      (c :: r.1, r.2)
  | .norm d, c :: rest =>
    if c = '"' || c = '\x27' then
      let r := scanBracketAux (.quo c d) rest
      (c :: r.1, r.2)
    else if c = '[' then
      let r := scanBracketAux (.norm (d+1)) rest
      (c :: r.1, r.2)
    else if c = ']' then
      if d ≤ 1 then ([], rest)
      else
        let r := scanBracketAux (.norm (d-1)) rest
        (c :: r.1, r.2)
    else
      let r := scanBracketAux (.norm d) rest
      (c :: r.1, r.2)

/-- Main loop of DataPath._parseSegments. The fuel is one more than the
number of remaining characters; every branch consumes at least one
character, so the fuel never runs out at the call site below. -/
def parseSegsAux : Nat → List Char → List Seg
  | 0, _ => []
  | _, [] => []
  | fuel+1, c :: rest =>
    if c = '.' then parseSegsAux fuel rest
    else if c = '[' then
      let r := scanBracketAux (.norm 1) rest
      classifyBracket (jsTrim r.1) ++ parseSegsAux fuel r.2
    else
      let seg := (c :: rest).takeWhile (fun ch => ch != '.' && ch != '[')
      let rem := (c :: rest).dropWhile (fun ch => ch != '.' && ch != '[')
      classifyDot (jsTrim seg) ++ parseSegsAux fuel rem

/-- DataPath.fromString composed with segments(): the segment list of a
path string (no variable interpolation; the string-keyed caches are
bypassed). -/
def parseSegs (path : String) : List Seg :=
  parseSegsAux (path.length + 1) path.toList

/-! ### DataPath.match (DataPath.ts lines 446-491) -/

/-- One step of the mask/target comparison in DataPath.match: the switch
over the mask segment kind. A mask wildcard consumes any one target
segment. -/
def segStep : Seg → Seg → Bool
  | .key k, .key k2 => k == k2
  | .key _, _ => false
  | .idx n, .idx n2 => n == n2
  | .idx _, _ => false
  | .wc _, _ => true
  | .param pk pv, .param pk2 pv2 => pk == pk2 && pv == pv2
  | .param _ _, _ => false

/-- The deep-wildcard test of DataPath.match: a trailing dot wildcard
(not an index wildcard). -/
def isDeepTailSeg : Seg → List Seg → Bool
  | .wc false, [] => true
  | _, _ => false

/-- DataPath.match over parsed segment lists. -/
def DataPath_match : List Seg → List Seg → Bool
  | [], t => t.isEmpty
  | m :: ms, t =>
    if isDeepTailSeg m ms then true
    else
      match t with
      | [] => false
      | th :: tt => segStep m th && DataPath_match ms tt

/-! ### Router trie (RaphRouterNode.ts, utils/path.ts) -/

/-- Encoded exact-transition key: keyLiteralStr prefixes strings, keyIndex
prefixes indices, so the two spaces never collide. -/
inductive EKey where
  | kstr (s : String)
  | kidx (n : Nat)
deriving DecidableEq, Repr

/-- RouterNode. Children records are association lists in insertion
order; `param` is keyed by param key then by param value (the value side
of keyParam distinguishes numbers from strings, which PVal does
natively); `paramAny` maps a param key to its variable name and child.
`ends` and `deeps` are the payload sets `end` and `deep`. -/
inductive RNode (P : Type) where
  | mk (exact : List (EKey × RNode P))
       (wc : Option (RNode P))
       (param : List (String × List (PVal × RNode P)))
       (paramAny : List (String × String × RNode P))
       (ends : List P)
       (deeps : List P)

def RNode.empty {P : Type} : RNode P := .mk [] none [] [] [] []

/-- Update-or-insert on an association list: the JS get-or-create idiom
(an existing key keeps its position, a new key is appended). -/
def updateAList {α β : Type} [BEq α] (k : α) (f : Option β → β) : List (α × β) → List (α × β)
  | [] => [(k, f none)]
  | (k2, v) :: rest =>
    if k == k2 then (k2, f (some v)) :: rest else (k2, v) :: updateAList k f rest

/-- JS Set.prototype.add: append when absent. -/
def pushSet {P : Type} [BEq P] (l : List P) (p : P) : List P :=
  if l.contains p then l else l ++ [p]

/-- The placeholder test of RaphRouter.add (RaphRouter.js line 93): the
stored param value is a string that starts with a dollar sign. -/
def pvalIsPlaceholder : PVal → Bool
  | .str s => s.toList.head? = some '$'
  | .num _ => false

/-- RaphRouter.add (RaphRouter.js lines 69-106) on one mask. Any trailing
wildcard segment attaches the payload to `deep` of the current node;
otherwise the walk steps through exact / wildcard / param / paramAny
children and attaches the payload to `end` of the terminal node. -/
def RaphRouter_add {P : Type} [BEq P] : RNode P → List Seg → P → RNode P
  | .mk ex w pr pa e d, [], p => .mk ex w pr pa (pushSet e p) d
  | .mk ex w pr pa e d, s :: rest, p =>
    match s, rest with
    | .wc _, [] => .mk ex w pr pa e (pushSet d p)
    | .key k, _ =>
      .mk (updateAList (.kstr k) (fun c => RaphRouter_add (c.getD .empty) rest p) ex) w pr pa e d
    | .idx n, _ =>
      .mk (updateAList (.kidx n) (fun c => RaphRouter_add (c.getD .empty) rest p) ex) w pr pa e d
    | .wc _, _ =>
      .mk ex (some (RaphRouter_add (w.getD .empty) rest p)) pr pa e d
    | .param pk pv, _ =>
      if pvalIsPlaceholder pv then
        .mk ex w pr
          (updateAList pk (fun entry =>
            match entry with
            | none => ((match pv with | .str sv => sv.drop 1 | .num _ => ""),
                       RaphRouter_add RNode.empty rest p)
            | some (vn, c) => (vn, RaphRouter_add c rest p)) pa)
          e d
      else
        .mk ex w
          (updateAList pk (fun b =>
            updateAList pv (fun c => RaphRouter_add (c.getD .empty) rest p) (b.getD [])) pr)
          pa e d

/-- RaphRouter.match (RaphRouter.js lines 216-284), result as the list of
payloads accumulated over all matching trie descents (the JS Set is used
for membership only). At each visited node the deep payloads are
collected; at the end of the target also the end payloads; transitions
follow the exact child for keys and indices, the single wildcard child,
the literal param child, the paramAny child for a param target, and the
synthetic index paramAny child for an index target. -/
def RaphRouter_match {P : Type} : RNode P → List Seg → List P
  | .mk _ _ _ _ e d, [] => d ++ e
  | .mk ex w pr pa _ d, s :: rest =>
    d
    ++ (match s with
        | .key k =>
          (match ex.lookup (.kstr k) with
           | some c => RaphRouter_match c rest
           | none => [])
        | .idx n =>
          (match ex.lookup (.kidx n) with
           | some c => RaphRouter_match c rest
           | none => [])
        | _ => [])
    ++ (match w with
        | some c => RaphRouter_match c rest
        | none => [])
    ++ (match s with
        | .param pk pv =>
          (match pr.lookup pk with
           | some b =>
             (match b.lookup pv with
              | some c => RaphRouter_match c rest
              | none => [])
           | none => [])
        | _ => [])
    ++ (match s with
        | .param pk _ =>
          (match pa.lookup pk with
           | some (_, c) => RaphRouter_match c rest
           | none => [])
        | _ => [])
    ++ (match s with
        | .idx _ =>
          (match pa.lookup "$index" with
           | some (_, c) => RaphRouter_match c rest
           | none => [])
        | _ => [])

/-- RaphRouter.matchWithParams (RaphRouter.js lines 285-349). The capture
map uses the JS object-spread semantics: overwriting a key keeps its
position, a fresh key is appended. A param transition through paramAny
captures the target param value, an index transition through the
synthetic index entry captures the index. -/
def RaphRouter_matchWithParams {P : Type} :
    RNode P → List Seg → List (String × PVal) → List (P × List (String × PVal))
  | .mk _ _ _ _ e d, [], caps => d.map (fun p => (p, caps)) ++ e.map (fun p => (p, caps))
  | .mk ex w pr pa _ d, s :: rest, caps =>
    d.map (fun p => (p, caps))
    ++ (match s with
        | .key k =>
          (match ex.lookup (.kstr k) with
           | some c => RaphRouter_matchWithParams c rest caps
           | none => [])
        | .idx n =>
          (match ex.lookup (.kidx n) with
           | some c => RaphRouter_matchWithParams c rest caps
           | none => [])
        | _ => [])
    ++ (match w with
        | some c => RaphRouter_matchWithParams c rest caps
        | none => [])
    ++ (match s with
        | .param pk pv =>
          (match pr.lookup pk with
           | some b =>
             (match b.lookup pv with
              | some c => RaphRouter_matchWithParams c rest caps
              | none => [])
           | none => [])
        | _ => [])
    ++ (match s with
        | .param pk pv =>
          (match pa.lookup pk with
           | some (vn, c) =>
             RaphRouter_matchWithParams c rest (updateAList vn (fun _ => pv) caps)
           | none => [])
        | _ => [])
    ++ (match s with
        | .idx n =>
          (match pa.lookup "$index" with
           | some (vn, c) =>
             RaphRouter_matchWithParams c rest (updateAList vn (fun _ => .num n) caps)
           | none => [])
        | _ => [])

/-- RaphRouter.removePayload (RaphRouter.js lines 107-145), fuelled DFS.
The walk removes the payload from `end` and `deep` of the visited node
and recurses into the exact children, the wildcard child and the literal
param children. Exactly as in the source, it does NOT recurse into the
paramAny children. -/
def RaphRouter_removePayloadAux {P : Type} [BEq P] (p : P) : Nat → RNode P → RNode P
  | 0, node => node
  | fuel+1, .mk ex w pr pa e d =>
    .mk (ex.map (fun kc => (kc.1, RaphRouter_removePayloadAux p fuel kc.2)))
        (match w with
         | some c => some (RaphRouter_removePayloadAux p fuel c)
         | none => none)
        (pr.map (fun b => (b.1, b.2.map (fun kc => (kc.1, RaphRouter_removePayloadAux p fuel kc.2)))))
        pa
        (e.filter (fun q => !(q == p)))
        (d.filter (fun q => !(q == p)))

/-- removePayload with caller-supplied fuel; any fuel at least the depth
of the trie gives the result of the complete DFS, and the tries appearing
in the theorems below are of concrete small depth. -/
def RaphRouter_removePayload {P : Type} [BEq P] (fuel : Nat) (p : P) (n : RNode P) : RNode P :=
  RaphRouter_removePayloadAux p fuel n

/-! ### Claim C1: trie versus pair-matcher agreement -/

/-- A segment that RaphRouter.add treats as a placeholder transition. -/
def segIsPlaceholder : Seg → Bool
  | .param _ pv => pvalIsPlaceholder pv
  | _ => false

/-- A mask without placeholder params (only keys, indices, literal params
and wildcards). -/
def maskLiteral (m : List Seg) : Bool :=
  m.all (fun s => !segIsPlaceholder s)

/-- The mask does not end in an index wildcard. -/
def noTrailingIndexWc (m : List Seg) : Bool :=
  m.getLast? != some (.wc true)

/-- A concrete target path: no wildcards, every param literal. -/
def concreteTarget (t : List Seg) : Bool :=
  t.all (fun s =>
    match s with
    | .wc _ => false
    | .param _ pv => !pvalIsPlaceholder pv
    | _ => true)
theorem lookup_singleton {α β : Type} [DecidableEq α] (a k : α) (v : β) :
    List.lookup a [(k, v)] = if a = k then some v else none := by
  by_cases h : a = k
  · subst h; simp [List.lookup]
  · simp [List.lookup, beq_eq_decide, h]

theorem c1_main {P : Type} [DecidableEq P] (p : P) :
    ∀ m : List Seg, maskLiteral m = true → noTrailingIndexWc m = true →
    ∀ t : List Seg,
      ((p ∈ RaphRouter_match (RaphRouter_add RNode.empty m p) t) ↔ DataPath_match m t = true) := by
  intro m
  induction m with
  | nil =>
    intro _ _ t
    cases t with
    | nil =>
      simp [RaphRouter_add, RaphRouter_match, pushSet, RNode.empty, DataPath_match]
    | cons th tt =>
      cases th <;>
        simp [RaphRouter_add, RaphRouter_match, pushSet, RNode.empty, DataPath_match,
          List.lookup]
  | cons s ms ih =>
    intro hm hl t
    have hmS : segIsPlaceholder s = false := by
      have := (List.all_eq_true.mp hm) s (by simp)
      simpa using this
    have hmMs : maskLiteral ms = true := by
      simp only [maskLiteral, List.all_cons, Bool.and_eq_true] at hm
      exact hm.2
    cases s with
    | wc b =>
      cases ms with
      | nil =>
        have hb : b = false := by
          cases b
          · rfl
          · simp [noTrailingIndexWc] at hl
        subst hb
        cases t with
        | nil =>
          simp [RaphRouter_add, RaphRouter_match, pushSet, RNode.empty, DataPath_match,
            isDeepTailSeg]
        | cons th tt =>
          cases th <;>
            simp [RaphRouter_add, RaphRouter_match, pushSet, RNode.empty, DataPath_match,
              isDeepTailSeg, List.lookup]
      | cons m2 ms2 =>
        have hlMs : noTrailingIndexWc (m2 :: ms2) = true := by
          simpa [noTrailingIndexWc, List.getLast?_cons_cons] using hl
        cases t with
        | nil =>
          simp [RaphRouter_add, RaphRouter_match, RNode.empty, DataPath_match, isDeepTailSeg]
        | cons th tt =>
          have hIH := ih hmMs hlMs tt
          cases th <;>
            simpa [RaphRouter_add, RaphRouter_match, RNode.empty, DataPath_match,
              isDeepTailSeg, segStep, List.lookup] using hIH
    | key k =>
      have hlMs : noTrailingIndexWc ms = true := by
        cases ms with
        | nil => simp [noTrailingIndexWc]
        | cons m2 ms2 => simpa [noTrailingIndexWc, List.getLast?_cons_cons] using hl
      cases t with
      | nil =>
        simp [RaphRouter_add, RaphRouter_match, RNode.empty, DataPath_match, isDeepTailSeg]
      | cons th tt =>
        have hIH := ih hmMs hlMs tt
        cases th with
        | key k2 =>
          by_cases hk : k2 = k
          · subst hk
            simpa [RaphRouter_add, RaphRouter_match, RNode.empty, DataPath_match,
              isDeepTailSeg, segStep, lookup_singleton, updateAList] using hIH
          · simp [RaphRouter_add, RaphRouter_match, RNode.empty, DataPath_match,
              isDeepTailSeg, segStep, lookup_singleton, updateAList, hk, Ne.symm hk]
        | idx n =>
          simp [RaphRouter_add, RaphRouter_match, RNode.empty, DataPath_match,
            isDeepTailSeg, segStep, lookup_singleton, updateAList]
        | wc b =>
          simp [RaphRouter_add, RaphRouter_match, RNode.empty, DataPath_match,
            isDeepTailSeg, segStep, lookup_singleton, updateAList]
        | param pk2 pv2 =>
          simp [RaphRouter_add, RaphRouter_match, RNode.empty, DataPath_match,
            isDeepTailSeg, segStep, lookup_singleton, updateAList]
    | idx n =>
      have hlMs : noTrailingIndexWc ms = true := by
        cases ms with
        | nil => simp [noTrailingIndexWc]
        | cons m2 ms2 => simpa [noTrailingIndexWc, List.getLast?_cons_cons] using hl
      cases t with
      | nil =>
        simp [RaphRouter_add, RaphRouter_match, RNode.empty, DataPath_match, isDeepTailSeg]
      | cons th tt =>
        have hIH := ih hmMs hlMs tt
        cases th with
        | key k2 =>
          simp [RaphRouter_add, RaphRouter_match, RNode.empty, DataPath_match,
            isDeepTailSeg, segStep, lookup_singleton, updateAList]
        | idx n2 =>
          by_cases hn : n2 = n
          · subst hn
            simpa [RaphRouter_add, RaphRouter_match, RNode.empty, DataPath_match,
              isDeepTailSeg, segStep, lookup_singleton, updateAList] using hIH
          · simp [RaphRouter_add, RaphRouter_match, RNode.empty, DataPath_match,
              isDeepTailSeg, segStep, lookup_singleton, updateAList, hn, Ne.symm hn]
        | wc b =>
          simp [RaphRouter_add, RaphRouter_match, RNode.empty, DataPath_match,
            isDeepTailSeg, segStep, lookup_singleton, updateAList]
        | param pk2 pv2 =>
          simp [RaphRouter_add, RaphRouter_match, RNode.empty, DataPath_match,
            isDeepTailSeg, segStep, lookup_singleton, updateAList]
    | param pk pv =>
      have hpl : pvalIsPlaceholder pv = false := by simpa [segIsPlaceholder] using hmS
      have hlMs : noTrailingIndexWc ms = true := by
        cases ms with
        | nil => simp [noTrailingIndexWc]
        | cons m2 ms2 => simpa [noTrailingIndexWc, List.getLast?_cons_cons] using hl
      cases t with
      | nil =>
        simp [RaphRouter_add, RaphRouter_match, RNode.empty, DataPath_match, isDeepTailSeg, hpl]
      | cons th tt =>
        have hIH := ih hmMs hlMs tt
        cases th with
        | key k2 =>
          simp [RaphRouter_add, RaphRouter_match, RNode.empty, DataPath_match,
            isDeepTailSeg, segStep, lookup_singleton, updateAList, hpl]
        | idx n2 =>
          simp [RaphRouter_add, RaphRouter_match, RNode.empty, DataPath_match,
            isDeepTailSeg, segStep, lookup_singleton, updateAList, hpl]
        | wc b =>
          simp [RaphRouter_add, RaphRouter_match, RNode.empty, DataPath_match,
            isDeepTailSeg, segStep, lookup_singleton, updateAList, hpl]
        | param pk2 pv2 =>
          by_cases hk : pk2 = pk
          · subst hk
            by_cases hv : pv2 = pv
            · subst hv
              simpa [RaphRouter_add, RaphRouter_match, RNode.empty, DataPath_match,
                isDeepTailSeg, segStep, lookup_singleton, updateAList, hpl] using hIH
            · simp [RaphRouter_add, RaphRouter_match, RNode.empty, DataPath_match,
                isDeepTailSeg, segStep, lookup_singleton, updateAList, hpl, hv, Ne.symm hv]
          · simp [RaphRouter_add, RaphRouter_match, RNode.empty, DataPath_match,
              isDeepTailSeg, segStep, lookup_singleton, updateAList, hpl, hk, Ne.symm hk]

/-- C1 (amended): on a fresh router, for a mask without placeholder
params whose final segment is not an index wildcard, and a concrete
target path, the payload registered by add is found by RaphRouter.match
exactly when DataPath.match accepts the mask against the target. -/
theorem c1_trie_pair_agreement {P : Type} [DecidableEq P] (m : List Seg) (p : P)
    (hm : maskLiteral m = true) (hl : noTrailingIndexWc m = true)
    (t : List Seg) (_ht : concreteTarget t = true) :
    (p ∈ RaphRouter_match (RaphRouter_add RNode.empty m p) t) ↔ DataPath_match m t = true :=
  c1_main p m hm hl t

/-- Witness for C1 at the mask and target rows[3].x. -/
theorem c1_trie_pair_agreement_witness :
    (maskLiteral (parseSegs "rows[3].x") = true ∧
     noTrailingIndexWc (parseSegs "rows[3].x") = true ∧
     concreteTarget (parseSegs "rows[3].x") = true) ∧
    (("p" ∈ RaphRouter_match (RaphRouter_add RNode.empty (parseSegs "rows[3].x") "p")
        (parseSegs "rows[3].x")) ↔
      DataPath_match (parseSegs "rows[3].x") (parseSegs "rows[3].x") = true) :=
  ⟨⟨by decide, by decide, by decide⟩,
   c1_trie_pair_agreement (parseSegs "rows[3].x") "p" (by decide) (by decide)
     (parseSegs "rows[3].x") (by decide)⟩

/-- C1 counterexample: the mask a[*] ends in an index wildcard, which
RaphRouter.add registers as a deep subscription while DataPath.match
treats it as a single mandatory segment; on target a the trie matches
but the pair matcher does not. The mask is literal and the target
concrete, so the claim as stated fails. -/
theorem c1_counterexample :
    maskLiteral (parseSegs "a[*]") = true ∧
    concreteTarget (parseSegs "a") = true ∧
    ("p" ∈ RaphRouter_match (RaphRouter_add RNode.empty (parseSegs "a[*]") "p")
      (parseSegs "a")) ∧
    DataPath_match (parseSegs "a[*]") (parseSegs "a") = false := by
  refine ⟨by decide, by decide, by decide, by decide⟩

/-- C2: removePayload does not traverse paramAny children, so a payload
registered under the placeholder mask a[id=$x] survives removePayload
and is still returned by match on the target a[id=1]. The fuel 10
strictly exceeds the depth 2 of this trie, so the DFS runs to
completion. -/
theorem c2_removePayload_misses_placeholder_subtrees :
    ("p" ∈ RaphRouter_match
      (RaphRouter_removePayload 10 "p"
        (RaphRouter_add RNode.empty (parseSegs "a[id=$x]") "p"))
      (parseSegs "a[id=1]")) := by decide

/-- C6: after registering orders[id=$oid].items[id=$iid].price on a fresh
router, matchWithParams on orders[id=42].items[id=7].price returns
exactly one entry with the registered payload and the captured numeric
params oid = 42 and iid = 7. -/
theorem c6_placeholder_capture :
    RaphRouter_matchWithParams
      (RaphRouter_add RNode.empty (parseSegs "orders[id=$oid].items[id=$iid].price") "P")
      (parseSegs "orders[id=42].items[id=7].price") []
      = [("P", [("oid", PVal.num 42), ("iid", PVal.num 7)])] := by decide

/-- C9 counterexample: the quoted literal param a[k="$name"] parses to a
stored string value that begins with a dollar sign, so the dollar-prefix
test of RaphRouter.add treats it as a placeholder: after add of this
mask the router matches the unrelated literal target a[k=99]. -/
theorem c9_counterexample :
    parseSegs "a[k=\"$name\"]" = [.key "a", .param "k" (.str "$name")] ∧
    pvalIsPlaceholder (.str "$name") = true ∧
    ("p" ∈ RaphRouter_match
      (RaphRouter_add RNode.empty (parseSegs "a[k=\"$name\"]") "p")
      (parseSegs "a[k=99]")) := by
  refine ⟨by decide, by decide, by decide⟩

/-- C9 (amended): the stored value of a parsed param is treated as a
placeholder by the dollar-prefix test exactly when the raw value token,
after stripping matching quotes, begins with a dollar sign; so quoted
string literals beginning with a dollar sign are indistinguishable from
placeholders. -/
theorem c9_dollar_prefix_characterization (rawVal : List Char) :
    pvalIsPlaceholder (classifyParamValue rawVal) =
      ((if isQuotedTok rawVal then (rawVal.drop 1).dropLast else rawVal).head? == some '$') := by
  unfold classifyParamValue pvalIsPlaceholder
  by_cases hq : isQuotedTok rawVal = true
  · simp [hq, String.toList, beq_eq_decide]
  · simp only [Bool.not_eq_true] at hq
    by_cases hd : ((rawVal.drop 1).dropLast.head? == some '$') = true
    all_goals by_cases hd2 : (rawVal.head? = some '$')
    all_goals by_cases hdig : isDigitsNE rawVal = true
    all_goals simp_all [String.toList]

/-! ### MinHeap (src/domain/entities/MinHeap.js) -/

/-- The _siftUp loop. x is the value saved from the start position; the
loop moves larger parents down and finally writes x. The fuel only needs
to exceed the start index because the index strictly decreases. -/
def MinHeap_siftUpAux (x : Int) : Nat → List Int → Nat → List Int
  | 0, a, i => a.set i x
  | fuel+1, a, i =>
    if 0 < i then
      let p := (i - 1) / 2
      let y := a.getD p 0
      if y ≤ x then a.set i x
      else MinHeap_siftUpAux x fuel (a.set i y) p
    else a.set i x

/-- MinHeap.push: place the element at the end and sift it up. The heap
is modelled as the live prefix of the backing array. -/
def MinHeap_push (a : List Int) (x : Int) : List Int :=
  MinHeap_siftUpAux x (a.length + 1) (a ++ [x]) a.length

/-- The _siftDown loop with explicit size n; fuel n - i suffices because
the index strictly increases. -/
def MinHeap_siftDownAux (x : Int) (n : Nat) : Nat → List Int → Nat → List Int
  | 0, a, i => a.set i x
  | fuel+1, a, i =>
    if i < n / 2 then
      let l := 2 * i + 1
      let r := l + 1
      let ch := if r < n && a.getD r 0 < a.getD l 0 then r else l
      let y := a.getD ch 0
      if x ≤ y then a.set i x
      else MinHeap_siftDownAux x n fuel (a.set i y) ch
    else a.set i x

/-- MinHeap.peek: undefined on the empty heap. -/
def MinHeap_peek (a : List Int) : Option Int :=
  a.head?

/-- MinHeap.pop: return the root, move the last element to the root and
sift it down over the shrunk size; undefined on the empty heap. -/
def MinHeap_pop (a : List Int) : Option Int × List Int :=
  match a with
  | [] => (none, [])
  | _ :: _ =>
    let n := a.length
    let mn := a.getD 0 0
    let last := a.getD (n - 1) 0
    if 1 < n then
      (some mn, MinHeap_siftDownAux last (n - 1) (n - 1) ((a.dropLast).set 0 last) 0)
    else (some mn, [])

/-- The binary-heap ordering invariant on the live prefix. The bounded
quantifier shape keeps the predicate decidable on concrete heaps. -/
def heapInv (a : List Int) : Prop :=
  ∀ i, i < a.length → 0 < i → a.getD ((i - 1) / 2) 0 ≤ a.getD i 0


/-! Heap proof toolkit: getD over set and append, multiset content of set. -/

theorem getD_set_eq (a : List Int) (i : Nat) (v d : Int) (h : i < a.length) :
    (a.set i v).getD i d = v := by
  simp [List.getD_eq_getElem?_getD, List.getElem?_set_self h]

theorem getD_set_ne (a : List Int) {i j : Nat} (v d : Int) (h : j ≠ i) :
    (a.set i v).getD j d = a.getD j d := by
  simp [List.getD_eq_getElem?_getD, List.getElem?_set_ne (Ne.symm h)]

theorem getD_append_lt (a b : List Int) (j : Nat) (d : Int) (h : j < a.length) :
    (a ++ b).getD j d = a.getD j d := by
  simp [List.getD_eq_getElem?_getD, List.getElem?_append, h]

theorem getD_append_right (a : List Int) (x d : Int) :
    (a ++ [x]).getD a.length d = x := by
  simp [List.getD_eq_getElem?_getD, List.getElem?_append]

theorem multiset_set (a : List Int) (i : Nat) (v : Int) (h : i < a.length) :
    ((a.set i v : List Int) : Multiset Int) + {a.getD i 0} = (a : Multiset Int) + {v} := by
  induction a generalizing i with
  | nil => simp at h
  | cons hd tl ih =>
    cases i with
    | zero =>
      show ((v :: tl : List Int) : Multiset Int) + {hd} = ((hd :: tl : List Int) : Multiset Int) + {v}
      have l1 : ((v :: tl : List Int) : Multiset Int) = v ::ₘ (tl : Multiset Int) := rfl
      have l2 : ((hd :: tl : List Int) : Multiset Int) = hd ::ₘ (tl : Multiset Int) := rfl
      rw [l1, l2, Multiset.cons_add, Multiset.cons_add,
        add_comm (tl : Multiset Int) ({hd} : Multiset Int),
        add_comm (tl : Multiset Int) ({v} : Multiset Int),
        Multiset.singleton_add, Multiset.singleton_add, Multiset.cons_swap]
    | succ m =>
      have hm : m < tl.length := by simpa using h
      have ihm := ih m hm
      have e1 : ((hd :: tl).set (m+1) v) = hd :: tl.set m v := rfl
      have e2 : (hd :: tl).getD (m+1) 0 = tl.getD m 0 := rfl
      rw [e1, e2]
      have l1 : ((hd :: tl.set m v : List Int) : Multiset Int)
          = hd ::ₘ ((tl.set m v : List Int) : Multiset Int) := rfl
      have l2 : ((hd :: tl : List Int) : Multiset Int) = hd ::ₘ (tl : Multiset Int) := rfl
      rw [l1, l2, Multiset.cons_add, Multiset.cons_add, ihm]

/-- Saving the value at position j into position i and then writing x at
position j leaves the same multiset as writing x at position i. -/
theorem multiset_set_swap (a : List Int) (i j : Nat) (x : Int)
    (hi : i < a.length) (hj : j < a.length) (hij : j ≠ i) :
    (((a.set i (a.getD j 0)).set j x : List Int) : Multiset Int)
      = ((a.set i x : List Int) : Multiset Int) := by
  have e1 := multiset_set (a.set i (a.getD j 0)) j x (by rw [List.length_set]; exact hj)
  have e2 := multiset_set a i (a.getD j 0) hi
  have e3 := multiset_set a i x hi
  have egd : (a.set i (a.getD j 0)).getD j 0 = a.getD j 0 := getD_set_ne a _ 0 hij
  rw [egd] at e1
  have cancel :
      (((a.set i (a.getD j 0)).set j x : List Int) : Multiset Int) + ({a.getD j 0} + {a.getD i 0})
        = ((a.set i x : List Int) : Multiset Int) + ({a.getD j 0} + {a.getD i 0}) := by
    calc (((a.set i (a.getD j 0)).set j x : List Int) : Multiset Int) + ({a.getD j 0} + {a.getD i 0})
        = ((((a.set i (a.getD j 0)).set j x : List Int) : Multiset Int) + {a.getD j 0}) + {a.getD i 0} := by
          rw [add_assoc]
      _ = (((a.set i (a.getD j 0) : List Int) : Multiset Int) + {x}) + {a.getD i 0} := by rw [e1]
      _ = (((a.set i (a.getD j 0) : List Int) : Multiset Int) + {a.getD i 0}) + {x} := by
          rw [add_assoc, add_comm ({x} : Multiset Int), ← add_assoc]
      _ = ((a : Multiset Int) + {a.getD j 0}) + {x} := by rw [e2]
      _ = ((a : Multiset Int) + {x}) + {a.getD j 0} := by
          rw [add_assoc, add_comm ({a.getD j 0} : Multiset Int), ← add_assoc]
      _ = (((a.set i x : List Int) : Multiset Int) + {a.getD i 0}) + {a.getD j 0} := by rw [e3]
      _ = ((a.set i x : List Int) : Multiset Int) + ({a.getD j 0} + {a.getD i 0}) := by
          rw [add_assoc, add_comm ({a.getD i 0} : Multiset Int)]
  exact add_right_cancel cancel

theorem length_siftUpAux (x : Int) :
    ∀ fuel a i, (MinHeap_siftUpAux x fuel a i).length = a.length := by
  intro fuel
  induction fuel with
  | zero => intro a i; simp [MinHeap_siftUpAux]
  | succ f ih =>
    intro a i
    simp only [MinHeap_siftUpAux]
    repeat' split
    all_goals simp [ih]

theorem length_siftDownAux (x : Int) (n : Nat) :
    ∀ fuel a i, (MinHeap_siftDownAux x n fuel a i).length = a.length := by
  intro fuel
  induction fuel with
  | zero => intro a i; simp [MinHeap_siftDownAux]
  | succ f ih =>
    intro a i
    simp only [MinHeap_siftDownAux]
    repeat' split
    all_goals simp [ih]

/-! Sift-up loop invariants: the array is a heap except around the hole
position, the pending value fits below the children of the hole, and the
grandparent bound holds across the hole. -/

def upA (a : List Int) (i : Nat) : Prop :=
  ∀ j, 0 < j → j < a.length → j ≠ i → a.getD ((j-1)/2) 0 ≤ a.getD j 0

def upB (a : List Int) (x : Int) (i : Nat) : Prop :=
  ∀ c, 0 < c → c < a.length → (c-1)/2 = i → x ≤ a.getD c 0

def upC (a : List Int) (i : Nat) : Prop :=
  0 < i → ∀ c, 0 < c → c < a.length → (c-1)/2 = i → a.getD ((i-1)/2) 0 ≤ a.getD c 0

/-- Writing a fitting value into the hole yields a heap. -/
theorem heapInv_of_hole (a : List Int) (x : Int) (i : Nat) (hi : i < a.length)
    (hA : upA a i) (hB : upB a x i)
    (hPar : 0 < i → a.getD ((i-1)/2) 0 ≤ x) :
    heapInv (a.set i x) := by
  intro j hjlen hj
  rw [List.length_set] at hjlen
  by_cases hji : j = i
  · subst hji
    have hpar_ne : (j-1)/2 ≠ j := by omega
    rw [getD_set_ne a x 0 hpar_ne, getD_set_eq a j x 0 hi]
    exact hPar hj
  · rw [getD_set_ne a x 0 hji]
    by_cases hpj : (j-1)/2 = i
    · rw [hpj, getD_set_eq a i x 0 hi]
      exact hB j hj hjlen hpj
    · rw [getD_set_ne a x 0 hpj]
      exact hA j hj hjlen hji

/-- One sift-up swap preserves the loop invariants at the parent hole. -/
theorem up_step (a : List Int) (x : Int) (i : Nat) (hi : i < a.length) (hpos : 0 < i)
    (hA : upA a i) (hB : upB a x i) (hC : upC a i)
    (hxy : x < a.getD ((i-1)/2) 0) :
    upA (a.set i (a.getD ((i-1)/2) 0)) ((i-1)/2) ∧
    upB (a.set i (a.getD ((i-1)/2) 0)) x ((i-1)/2) ∧
    upC (a.set i (a.getD ((i-1)/2) 0)) ((i-1)/2) := by
  have hplt : (i-1)/2 < i := by omega
  set p := (i-1)/2 with hp
  set y := a.getD p 0 with hy
  have hpne : p ≠ i := by omega
  refine ⟨?_, ?_, ?_⟩
  · -- upA at the new hole p
    intro j hj hjlen hjp
    rw [List.length_set] at hjlen
    by_cases hji : j = i
    · subst hji
      have : (j-1)/2 = p := hp.symm
      rw [this, getD_set_ne a y 0 hpne, getD_set_eq a j y 0 hi]
    · rw [getD_set_ne a y 0 hji]
      by_cases hpj : (j-1)/2 = i
      · rw [hpj, getD_set_eq a i y 0 hi]
        exact hC hpos j hj hjlen hpj
      · rw [getD_set_ne a y 0 hpj]
        exact hA j hj hjlen hji
  · -- upB at the new hole p
    intro c hc hclen hcp
    rw [List.length_set] at hclen
    by_cases hci : c = i
    · subst hci
      rw [getD_set_eq a c y 0 hi]
      exact le_of_lt hxy
    · rw [getD_set_ne a y 0 hci]
      have : a.getD p 0 ≤ a.getD c 0 := by
        have := hA c hc hclen hci
        rw [hcp] at this
        exact this
      exact le_trans (le_of_lt hxy) this
  · -- upC at the new hole p
    intro hppos c hc hclen hcp
    rw [List.length_set] at hclen
    have hgne : (p-1)/2 ≠ i := by omega
    rw [getD_set_ne a y 0 hgne]
    have hgp : a.getD ((p-1)/2) 0 ≤ a.getD p 0 := hA p hppos (lt_trans hplt hi) hpne
    by_cases hci : c = i
    · subst hci
      rw [getD_set_eq a c y 0 hi]
      exact hgp
    · rw [getD_set_ne a y 0 hci]
      have hpc : a.getD p 0 ≤ a.getD c 0 := by
        have := hA c hc hclen hci
        rw [hcp] at this
        exact this
      exact le_trans hgp hpc

/-- Correctness of the fuelled sift-up loop: from a hole configuration it
produces a heap holding the same multiset as writing the value directly
into the hole. -/
theorem siftUpAux_spec (x : Int) :
    ∀ fuel (a : List Int) (i : Nat), i < a.length → i < fuel →
      upA a i → upB a x i → upC a i →
      heapInv (MinHeap_siftUpAux x fuel a i) ∧
      ((MinHeap_siftUpAux x fuel a i : List Int) : Multiset Int)
        = ((a.set i x : List Int) : Multiset Int) := by
  intro fuel
  induction fuel with
  | zero => intro a i _ hf; omega
  | succ f ih =>
    intro a i hi hf hA hB hC
    simp only [MinHeap_siftUpAux]
    by_cases hpos : 0 < i
    · rw [if_pos hpos]
      by_cases hxy : a.getD ((i-1)/2) 0 ≤ x
      · rw [if_pos hxy]
        exact ⟨heapInv_of_hole a x i hi hA hB (fun _ => hxy), rfl⟩
      · rw [if_neg hxy]
        have hlt : x < a.getD ((i-1)/2) 0 := lt_of_not_le hxy
        have hplt : (i-1)/2 < i := by omega
        obtain ⟨hA2, hB2, hC2⟩ := up_step a x i hi hpos hA hB hC hlt
        have hlen2 : (i-1)/2 < (a.set i (a.getD ((i-1)/2) 0)).length := by
          rw [List.length_set]; omega
        have hf2 : (i-1)/2 < f := by omega
        obtain ⟨h1, h2⟩ := ih (a.set i (a.getD ((i-1)/2) 0)) ((i-1)/2) hlen2 hf2 hA2 hB2 hC2
        refine ⟨h1, ?_⟩
        rw [h2]
        have hpne : (i-1)/2 ≠ i := by omega
        exact multiset_set_swap a i ((i-1)/2) x hi (lt_trans hplt hi) hpne
    · rw [if_neg hpos]
      have hzero : i = 0 := by omega
      subst hzero
      exact ⟨heapInv_of_hole a x 0 hi hA hB (fun h => absurd h (by omega)), rfl⟩

/-! Sift-down loop invariants: all parent-child pairs hold except those
whose parent is the hole; the hole value fits below its parent. -/

def dnA (a : List Int) (i : Nat) : Prop :=
  ∀ j, 0 < j → j < a.length → (j-1)/2 ≠ i → a.getD ((j-1)/2) 0 ≤ a.getD j 0

def dnB (a : List Int) (x : Int) (i : Nat) : Prop :=
  0 < i → a.getD ((i-1)/2) 0 ≤ x

def dnC (a : List Int) (i : Nat) : Prop :=
  0 < i → ∀ c, 0 < c → c < a.length → (c-1)/2 = i → a.getD ((i-1)/2) 0 ≤ a.getD c 0

/-- Writing a value into a sift-down hole yields a heap when the value
fits under the hole parent and above the hole children. -/
theorem heapInv_of_hole_down (a : List Int) (x : Int) (i : Nat) (hi : i < a.length)
    (hA : dnA a i) (hB : dnB a x i)
    (hChild : ∀ c, 0 < c → c < a.length → (c-1)/2 = i → x ≤ a.getD c 0) :
    heapInv (a.set i x) := by
  intro j hjlen hj
  rw [List.length_set] at hjlen
  by_cases hji : j = i
  · subst hji
    have hpar_ne : (j-1)/2 ≠ j := by omega
    rw [getD_set_ne a x 0 hpar_ne, getD_set_eq a j x 0 hi]
    exact hB hj
  · rw [getD_set_ne a x 0 hji]
    by_cases hpj : (j-1)/2 = i
    · rw [hpj, getD_set_eq a i x 0 hi]
      exact hChild j hj hjlen hpj
    · rw [getD_set_ne a x 0 hpj]
      exact hA j hj hjlen hpj

/-- One sift-down swap preserves the loop invariants at the chosen child
hole. ch is the selected child (left or right), with the minimality
facts established from the selection. -/
theorem down_step (a : List Int) (i ch : Nat) (hilen : i < a.length)
    (hch : ch = 2*i+1 ∨ ch = 2*i+2) (hchlen : ch < a.length)
    (hyl : 2*i+1 < a.length → a.getD ch 0 ≤ a.getD (2*i+1) 0)
    (hyr : 2*i+2 < a.length → a.getD ch 0 ≤ a.getD (2*i+2) 0)
    (hA : dnA a i) (hC : dnC a i) :
    dnA (a.set i (a.getD ch 0)) ch ∧ dnC (a.set i (a.getD ch 0)) ch := by
  have hchi : ch ≠ i := by omega
  have hpch : (ch-1)/2 = i := by omega
  constructor
  · intro j hj hjlen hpj
    rw [List.length_set] at hjlen
    by_cases hji : j = i
    · subst hji
      have hipos : 0 < j := hj
      have hpar_ne : (j-1)/2 ≠ j := by omega
      rw [getD_set_ne a _ 0 hpar_ne, getD_set_eq a j _ 0 hilen]
      exact hC hipos ch (by omega) hchlen hpch
    · rw [getD_set_ne a _ 0 hji]
      by_cases hpji : (j-1)/2 = i
      · rw [hpji, getD_set_eq a i _ 0 hilen]
        have : j = 2*i+1 ∨ j = 2*i+2 := by omega
        rcases this with hjl | hjr
        · rw [hjl]; exact hyl (by omega)
        · rw [hjr]; exact hyr (by omega)
      · rw [getD_set_ne a _ 0 hpji]
        exact hA j hj hjlen hpji
  · intro _ c hc hclen hcp
    rw [List.length_set] at hclen
    have hcne : c ≠ i := by omega
    rw [hpch, getD_set_eq a i _ 0 hilen, getD_set_ne a _ 0 hcne]
    have := hA c hc hclen (by omega)
    rw [hcp] at this
    exact this

/-- Correctness of the fuelled sift-down loop. -/
theorem siftDownAux_spec (x : Int) (n : Nat) :
    ∀ fuel (a : List Int) (i : Nat), n = a.length → i < n → n - i ≤ fuel →
      dnA a i → dnB a x i → dnC a i →
      heapInv (MinHeap_siftDownAux x n fuel a i) ∧
      ((MinHeap_siftDownAux x n fuel a i : List Int) : Multiset Int)
        = ((a.set i x : List Int) : Multiset Int) := by
  intro fuel
  induction fuel with
  | zero => intro a i _ hi hf; omega
  | succ f ih =>
    intro a i hn hi hf hA hB hC
    simp only [MinHeap_siftDownAux]
    by_cases hhalf : i < n / 2
    · rw [if_pos hhalf]
      have hllen : 2*i+1 < n := by omega
      -- the selected child and its minimality facts
      by_cases hcond : (decide (2*i+1+1 < n) && decide (a.getD (2*i+1+1) 0 < a.getD (2*i+1) 0)) = true
      · rw [if_pos hcond]
        simp only [Bool.and_eq_true, decide_eq_true_eq] at hcond
        have hch : (2*i+1+1) = 2*i+2 := by omega
        have hchlen : 2*i+1+1 < a.length := by omega
        have hyl : 2*i+1 < a.length → a.getD (2*i+1+1) 0 ≤ a.getD (2*i+1) 0 :=
          fun _ => le_of_lt hcond.2
        have hyr : 2*i+2 < a.length → a.getD (2*i+1+1) 0 ≤ a.getD (2*i+2) 0 := by
          intro _; rw [hch]
        by_cases hxy : x ≤ a.getD (2*i+1+1) 0
        · rw [if_pos hxy]
          refine ⟨heapInv_of_hole_down a x i (by omega) hA hB ?_, rfl⟩
          intro c hc hclen hcp
          have : c = 2*i+1 ∨ c = 2*i+2 := by omega
          rcases this with hc1 | hc2
          · rw [hc1]; exact le_trans hxy (hyl (by omega))
          · rw [hc2]; exact le_trans hxy (hyr (by omega))
        · rw [if_neg hxy]
          obtain ⟨hA2, hC2⟩ := down_step a i (2*i+1+1) (by omega) (by omega) hchlen hyl hyr hA hC
          have hB2 : dnB (a.set i (a.getD (2*i+1+1) 0)) x (2*i+1+1) := by
            intro _
            have heq : (2*i+1+1-1)/2 = i := by omega
            rw [heq, getD_set_eq a i (a.getD (2*i+1+1) 0) 0 (by omega)]
            omega
          have hres := ih (a.set i (a.getD (2*i+1+1) 0)) (2*i+1+1)
            (by rw [List.length_set]; exact hn) (by omega) (by omega) hA2 hB2 hC2
          refine ⟨hres.1, ?_⟩
          rw [hres.2]
          exact multiset_set_swap a i (2*i+1+1) x (by omega) (by omega) (by omega)
      · rw [if_neg hcond]
        simp only [Bool.and_eq_true, decide_eq_true_eq, not_and, not_lt] at hcond
        have hyl : 2*i+1 < a.length → a.getD (2*i+1) 0 ≤ a.getD (2*i+1) 0 := fun _ => le_refl _
        have hyr : 2*i+2 < a.length → a.getD (2*i+1) 0 ≤ a.getD (2*i+2) 0 := by
          intro h2
          exact hcond (by omega)
        by_cases hxy : x ≤ a.getD (2*i+1) 0
        · rw [if_pos hxy]
          refine ⟨heapInv_of_hole_down a x i (by omega) hA hB ?_, rfl⟩
          intro c hc hclen hcp
          have : c = 2*i+1 ∨ c = 2*i+2 := by omega
          rcases this with hc1 | hc2
          · rw [hc1]; exact hxy
          · rw [hc2]; exact le_trans hxy (hyr (by omega))
        · rw [if_neg hxy]
          obtain ⟨hA2, hC2⟩ := down_step a i (2*i+1) (by omega) (by omega) (by omega) hyl hyr hA hC
          have hB2 : dnB (a.set i (a.getD (2*i+1) 0)) x (2*i+1) := by
            intro _
            have heq : (2*i+1-1)/2 = i := by omega
            rw [heq, getD_set_eq a i (a.getD (2*i+1) 0) 0 (by omega)]
            omega
          have hres := ih (a.set i (a.getD (2*i+1) 0)) (2*i+1)
            (by rw [List.length_set]; exact hn) (by omega) (by omega) hA2 hB2 hC2
          refine ⟨hres.1, ?_⟩
          rw [hres.2]
          exact multiset_set_swap a i (2*i+1) x (by omega) (by omega) (by omega)
    · rw [if_neg hhalf]
      refine ⟨heapInv_of_hole_down a x i (by omega) hA hB ?_, rfl⟩
      intro c hc hclen hcp
      omega

theorem getD_dropLast_lt (a : List Int) (j : Nat) (d : Int) (h : j < a.length - 1) :
    (a.dropLast).getD j d = a.getD j d := by
  rw [List.getD_eq_getElem?_getD, List.getD_eq_getElem?_getD, List.getElem?_dropLast, if_pos h]

/-- The root of a heap is a lower bound for every slot. -/
theorem heapInv_root_le (a : List Int) (h : heapInv a) :
    ∀ j, j < a.length → a.getD 0 0 ≤ a.getD j 0 := by
  intro j
  induction j using Nat.strong_induction_on with
  | _ j ih =>
    intro hj
    by_cases h0 : j = 0
    · subst h0; exact le_refl _
    · have hpar : (j-1)/2 < j := by omega
      exact le_trans (ih ((j-1)/2) hpar (by omega)) (h j hj (by omega))

theorem heapInv_root_min (a : List Int) (h : heapInv a) :
    ∀ y ∈ a, a.getD 0 0 ≤ y := by
  intro y hy
  obtain ⟨j, hj, rfl⟩ := List.mem_iff_getElem.mp hy
  have := heapInv_root_le a h j hj
  simpa [List.getD_eq_getElem?_getD, List.getElem?_eq_getElem hj] using this

/-- Dropping the last element and re-adding it keeps the multiset. -/
theorem multiset_dropLast (a : List Int) (hne : a ≠ []) :
    ((a.dropLast : List Int) : Multiset Int) + {a.getD (a.length - 1) 0} = (a : Multiset Int) := by
  induction a with
  | nil => exact absurd rfl hne
  | cons hd tl ih =>
    cases tl with
    | nil =>
      show (([] : List Int) : Multiset Int) + {hd} = (([hd] : List Int) : Multiset Int)
      simp
    | cons y rest =>
      have hne2 : y :: rest ≠ [] := by simp
      have ih2 := ih hne2
      have e1 : (hd :: y :: rest).dropLast = hd :: (y :: rest).dropLast := rfl
      have e2 : (hd :: y :: rest).getD ((hd :: y :: rest).length - 1) 0
          = (y :: rest).getD ((y :: rest).length - 1) 0 := by
        simp [List.getD_eq_getElem?_getD]
      rw [e1, e2]
      have l1 : ((hd :: (y :: rest).dropLast : List Int) : Multiset Int)
          = hd ::ₘ (((y :: rest).dropLast : List Int) : Multiset Int) := rfl
      have l2 : ((hd :: y :: rest : List Int) : Multiset Int)
          = hd ::ₘ ((y :: rest : List Int) : Multiset Int) := rfl
      rw [l1, l2, Multiset.cons_add, ih2]

/-- The coercion of an append to a multiset. -/
theorem multiset_append (a b : List Int) :
    ((a ++ b : List Int) : Multiset Int) = (a : Multiset Int) + (b : Multiset Int) := rfl

/-- MinHeap.push preserves the heap invariant and adds exactly the pushed
element to the stored multiset. -/
theorem MinHeap_push_spec (a : List Int) (x : Int) (h : heapInv a) :
    heapInv (MinHeap_push a x) ∧
    ((MinHeap_push a x : List Int) : Multiset Int) = (a : Multiset Int) + {x} ∧
    (MinHeap_push a x).length = a.length + 1 := by
  have hlen : a.length < (a ++ [x]).length := by simp
  have hA : upA (a ++ [x]) a.length := by
    intro j hj hjlen hne
    have hjlt : j < a.length := by simp at hjlen; omega
    have hplt : (j-1)/2 < a.length := by omega
    rw [getD_append_lt a [x] j 0 hjlt, getD_append_lt a [x] _ 0 hplt]
    exact h j hjlt hj
  have hB : upB (a ++ [x]) x a.length := by
    intro c hc hclen hcp
    simp at hclen
    omega
  have hC : upC (a ++ [x]) a.length := by
    intro _ c hc hclen hcp
    simp at hclen
    omega
  obtain ⟨h1, h2⟩ := siftUpAux_spec x (a.length + 1) (a ++ [x]) a.length hlen (by omega) hA hB hC
  refine ⟨h1, ?_, ?_⟩
  · show ((MinHeap_siftUpAux x (a.length + 1) (a ++ [x]) a.length : List Int) : Multiset Int) = _
    rw [h2]
    have e := multiset_set (a ++ [x]) a.length x hlen
    rw [getD_append_right a x 0] at e
    have e2 : (((a ++ [x]).set a.length x : List Int) : Multiset Int)
        = ((a ++ [x] : List Int) : Multiset Int) := add_right_cancel e
    rw [e2, multiset_append]
    rfl
  · show (MinHeap_siftUpAux x (a.length + 1) (a ++ [x]) a.length).length = _
    rw [length_siftUpAux]
    simp

/-- The sift-down phase of pop, stated over the un-destructed heap. -/
theorem pop_sift_spec (a : List Int) (h : heapInv a) (hlen : 1 < a.length) :
    heapInv (MinHeap_siftDownAux (a.getD (a.length - 1) 0) (a.length - 1) (a.length - 1)
      ((a.dropLast).set 0 (a.getD (a.length - 1) 0)) 0) ∧
    ((MinHeap_siftDownAux (a.getD (a.length - 1) 0) (a.length - 1) (a.length - 1)
      ((a.dropLast).set 0 (a.getD (a.length - 1) 0)) 0 : List Int) : Multiset Int)
      + {a.getD 0 0} = (a : Multiset Int) ∧
    (MinHeap_siftDownAux (a.getD (a.length - 1) 0) (a.length - 1) (a.length - 1)
      ((a.dropLast).set 0 (a.getD (a.length - 1) 0)) 0).length = a.length - 1 := by
  have hne : a ≠ [] := by intro hh; rw [hh] at hlen; simp at hlen
  have hdllen : (a.dropLast).length = a.length - 1 := by simp
  have hblen : ((a.dropLast).set 0 (a.getD (a.length - 1) 0)).length = a.length - 1 := by
    rw [List.length_set, hdllen]
  have hbA : dnA ((a.dropLast).set 0 (a.getD (a.length - 1) 0)) 0 := by
    intro j hj hjlen hpj
    rw [hblen] at hjlen
    have hj0 : j ≠ 0 := by omega
    rw [getD_set_ne _ _ 0 hj0, getD_set_ne _ _ 0 hpj,
      getD_dropLast_lt _ j 0 (by omega), getD_dropLast_lt _ _ 0 (by omega)]
    exact h j (by omega) hj
  have hspec := siftDownAux_spec (a.getD (a.length - 1) 0) (a.length - 1) (a.length - 1)
    ((a.dropLast).set 0 (a.getD (a.length - 1) 0)) 0
    hblen.symm (by omega) (by omega) hbA (by intro hc; omega) (by intro hc; omega)
  have hset : ((a.dropLast).set 0 (a.getD (a.length - 1) 0)).set 0 (a.getD (a.length - 1) 0)
      = (a.dropLast).set 0 (a.getD (a.length - 1) 0) := List.set_set _ _ _ _
  rw [hset] at hspec
  refine ⟨hspec.1, ?_, ?_⟩
  · rw [hspec.2]
    have e := multiset_set (a.dropLast) 0 (a.getD (a.length - 1) 0)
      (by rw [hdllen]; omega)
    rw [getD_dropLast_lt _ 0 0 (by omega)] at e
    rw [e]
    exact multiset_dropLast a hne
  · rw [length_siftDownAux, hblen]

/-- MinHeap.pop returns the heap minimum, removes exactly one occurrence
of it, and preserves the heap invariant. -/
theorem MinHeap_pop_spec (a : List Int) (h : heapInv a) (hne : a ≠ []) :
    (MinHeap_pop a).1 = some (a.getD 0 0) ∧
    heapInv (MinHeap_pop a).2 ∧
    (((MinHeap_pop a).2 : List Int) : Multiset Int) + {a.getD 0 0} = (a : Multiset Int) ∧
    (MinHeap_pop a).2.length = a.length - 1 := by
  cases a with
  | nil => exact absurd rfl hne
  | cons hd tl =>
    by_cases h2 : 1 < (hd :: tl).length
    · have hpop : MinHeap_pop (hd :: tl) = (some ((hd :: tl).getD 0 0),
          MinHeap_siftDownAux ((hd :: tl).getD ((hd :: tl).length - 1) 0) ((hd :: tl).length - 1)
            ((hd :: tl).length - 1)
            (((hd :: tl).dropLast).set 0 ((hd :: tl).getD ((hd :: tl).length - 1) 0)) 0) := by
        simp only [MinHeap_pop]
        rw [if_pos h2]
      obtain ⟨s1, s2, s3⟩ := pop_sift_spec (hd :: tl) h h2
      rw [hpop]
      exact ⟨rfl, s1, s2, s3⟩
    · have htl : tl = [] := by
        cases tl with
        | nil => rfl
        | cons y r => simp at h2
      subst htl
      have hpop : MinHeap_pop [hd] = (some (([hd] : List Int).getD 0 0), []) := by
        simp only [MinHeap_pop]
        rw [if_neg h2]
      rw [hpop]
      refine ⟨rfl, ?_, ?_, ?_⟩
      · intro j hj
        simp at hj
      · show (([] : List Int) : Multiset Int) + {(([hd] : List Int)).getD 0 0}
            = (([hd] : List Int) : Multiset Int)
        simp [List.getD]
      · rfl

/-- C10: minimal-heap correctness for every push/pop sequence: the
states reachable from the empty heap are exactly those satisfying the
heap invariant (true of the empty heap and preserved by push and pop,
as stated), each pop returns the minimum of the stored elements and
removes exactly that one occurrence, and pop and peek on the empty heap
return undefined. -/
theorem c10_minheap_correct (a : List Int) (x : Int) (h : heapInv a) :
    (MinHeap_pop ([] : List Int) = (none, []) ∧ MinHeap_peek ([] : List Int) = none) ∧
    heapInv ([] : List Int) ∧
    (heapInv (MinHeap_push a x) ∧
      ((MinHeap_push a x : List Int) : Multiset Int) = (a : Multiset Int) + {x}) ∧
    (a ≠ [] →
      (MinHeap_pop a).1 = some (a.getD 0 0) ∧
      (∀ y ∈ a, a.getD 0 0 ≤ y) ∧
      heapInv (MinHeap_pop a).2 ∧
      (((MinHeap_pop a).2 : List Int) : Multiset Int) + {a.getD 0 0} = (a : Multiset Int)) := by
  refine ⟨⟨rfl, rfl⟩, ?_, ⟨(MinHeap_push_spec a x h).1, (MinHeap_push_spec a x h).2.1⟩, ?_⟩
  · intro j hj
    simp at hj
  · intro hne
    obtain ⟨p1, p2, p3, _⟩ := MinHeap_pop_spec a h hne
    exact ⟨p1, heapInv_root_min a h, p2, p3⟩

/-- Witness for C10 at the heap 3, 5, 4 pushing 1. -/
theorem c10_minheap_correct_witness :
    heapInv ([3, 5, 4] : List Int) ∧
    ((MinHeap_pop ([] : List Int) = (none, []) ∧ MinHeap_peek ([] : List Int) = none) ∧
     heapInv ([] : List Int) ∧
     (heapInv (MinHeap_push [3, 5, 4] 1) ∧
       ((MinHeap_push [3, 5, 4] 1 : List Int) : Multiset Int)
         = (([3, 5, 4] : List Int) : Multiset Int) + {1}) ∧
     (([3, 5, 4] : List Int) ≠ [] →
       (MinHeap_pop [3, 5, 4]).1 = some (([3, 5, 4] : List Int).getD 0 0) ∧
       (∀ y ∈ ([3, 5, 4] : List Int), ([3, 5, 4] : List Int).getD 0 0 ≤ y) ∧
       heapInv (MinHeap_pop [3, 5, 4]).2 ∧
       (((MinHeap_pop [3, 5, 4]).2 : List Int) : Multiset Int)
         + {([3, 5, 4] : List Int).getD 0 0} = (([3, 5, 4] : List Int) : Multiset Int))) :=
  ⟨by unfold heapInv; decide, c10_minheap_correct [3, 5, 4] 1 (by unfold heapInv; decide)⟩

/-! ### DepGraph (src/domain/entities/DepGraph.ts)

Nodes are identified by their string ids (the stored RaphNode values are
irrelevant to the graph logic). The four Maps of the class become
association lists in insertion order; the Sets stored as values become
duplicate-free lists in insertion order. The JS array used as the DFS /
cascade work stack pops from its end, so pushing a child list appends it
reversed to the head-popped model stack. -/

structure DepGraph where
  nodes : List String
  children : List (String × List String)
  parents : List (String × List String)
  depth : List (String × Nat)
  roots : List String
deriving DecidableEq, Repr

def DepGraph.emptyG : DepGraph :=
  { nodes := [], children := [], parents := [], depth := [], roots := [] }

def childrenOf (g : DepGraph) (id : String) : List String :=
  (g.children.lookup id).getD []

def parentsOf (g : DepGraph) (id : String) : List String :=
  (g.parents.lookup id).getD []

/-- getDepth (DepGraph.ts lines 145-148): absent entries read as 0. -/
def DepGraph_getDepth (g : DepGraph) (id : String) : Nat :=
  (g.depth.lookup id).getD 0

/-- _calcDepth (DepGraph.ts lines 286-295). -/
def DepGraph_calcDepth (pa : List (String × List String)) (dm : List (String × Nat))
    (id : String) : Nat :=
  match pa.lookup id with
  | none => 0
  | some ps => ps.foldl (fun maxd p => max maxd ((dm.lookup p).getD 0 + 1)) 0

/-- The work loop of _recomputeDepthCascade (DepGraph.ts lines 270-281):
pop an id, recompute its depth, and on change push its children. -/
def cascadeLoop (ch pa : List (String × List String)) :
    Nat → List String → List (String × Nat) → List (String × Nat)
  | 0, _, dm => dm
  | fuel+1, stack, dm =>
    match stack with
    | [] => dm
    | id :: rest =>
      let nd := DepGraph_calcDepth pa dm id
      if nd = (dm.lookup id).getD 0 then cascadeLoop ch pa fuel rest dm
      else cascadeLoop ch pa fuel (((ch.lookup id).getD []).reverse ++ rest)
        (updateAList id (fun _ => nd) dm)

/-- Fuel that dominates the cascade and cycle-check work on any acyclic
graph of this size (proved below); both loops stop on an empty stack, so
oversizing it is harmless. -/
def graphFuel (g : DepGraph) : Nat :=
  (g.nodes.length + 2) ^ (g.nodes.length + 2)

/-- _recomputeDepthCascade (DepGraph.ts lines 262-281). -/
def DepGraph_recomputeDepthCascade (g : DepGraph) (startId : String) (fuel : Nat) : DepGraph :=
  let nd := DepGraph_calcDepth g.parents g.depth startId
  if nd = (g.depth.lookup startId).getD 0 then g
  else
    let dm := cascadeLoop g.children g.parents fuel
      (((g.children.lookup startId).getD []).reverse)
      (updateAList startId (fun _ => nd) g.depth)
    { g with depth := dm }

/-- The DFS loop of _wouldCreateCycle (DepGraph.ts lines 248-260). The
`seen` set of the source is dead code (Set.add returns the set, which is
always truthy, so the dedup branch never fires); the loop is a plain DFS
without memoisation. -/
def wccLoop (ch : List (String × List String)) (parentId : String) :
    Nat → List String → Bool
  | 0, _ => false
  | fuel+1, stack =>
    match stack with
    | [] => false
    | id :: rest =>
      if id = parentId then true
      else wccLoop ch parentId fuel (((ch.lookup id).getD []).reverse ++ rest)

def DepGraph_wouldCreateCycle (g : DepGraph) (p c : String) (fuel : Nat) : Bool :=
  if p = c then true else wccLoop g.children p fuel [c]

/-- JS Set.prototype.add on a string list. -/
def addUnique (l : List String) (x : String) : List String :=
  if x ∈ l then l else l ++ [x]

/-- addNode (DepGraph.ts lines 24-32), keyed by id. -/
def DepGraph_addNode (g : DepGraph) (id : String) : DepGraph :=
  if id ∈ g.nodes then g
  else
    { nodes := g.nodes ++ [id],
      children := updateAList id (fun _ => []) g.children,
      parents := updateAList id (fun _ => []) g.parents,
      depth := updateAList id (fun _ => 0) g.depth,
      roots := addUnique g.roots id }

/-- addEdge (DepGraph.ts lines 76-98). -/
def DepGraph_addEdge (g : DepGraph) (p c : String) : Bool × DepGraph :=
  if p = c then (false, g)
  else if ¬(p ∈ g.nodes ∧ c ∈ g.nodes) then (false, g)
  else if DepGraph_wouldCreateCycle g p c (graphFuel g) then (false, g)
  else
    let ch := (g.children.lookup p).getD []
    if c ∈ ch then (true, g)
    else
      let g1 := { g with children := updateAList p (fun _ => ch ++ [c]) g.children }
      let ps := (g1.parents.lookup c).getD []
      let g2 := { g1 with parents := updateAList c (fun _ => ps ++ [p]) g1.parents }
      let g3 := if ps.isEmpty then { g2 with roots := g2.roots.filter (fun r => r ≠ c) } else g2
      (true, DepGraph_recomputeDepthCascade g3 c (graphFuel g3))

/-- removeEdge (DepGraph.ts lines 100-110). -/
def DepGraph_removeEdge (g : DepGraph) (p c : String) : DepGraph :=
  match g.children.lookup p with
  | none => g
  | some ch =>
    if c ∈ ch then
      let g1 := { g with children := updateAList p (fun _ => ch.filter (fun x => x ≠ c)) g.children }
      let ps := ((g1.parents.lookup c).getD []).filter (fun x => x ≠ p)
      let g2 := { g1 with parents := updateAList c (fun _ => ps) g1.parents }
      let g3 := if ps.isEmpty then { g2 with roots := addUnique g2.roots c } else g2
      DepGraph_recomputeDepthCascade g3 c (graphFuel g3)
    else g

/-- removeNode (DepGraph.ts lines 36-61). -/
def DepGraph_removeNode (g : DepGraph) (id : String) : DepGraph :=
  if id ∈ g.nodes then
    let parentsOfId := (g.parents.lookup id).getD []
    let newChildren := parentsOfId.foldl
      (fun chm p => updateAList p (fun cur => (cur.getD []).filter (fun x => x ≠ id)) chm)
      g.children
    let g1 := { g with children := newChildren }
    let childIds := (g1.children.lookup id).getD []
    let g2 := childIds.foldl (fun acc chId =>
      let ps := ((acc.parents.lookup chId).getD []).filter (fun x => x ≠ id)
      let acc1 := { acc with parents := updateAList chId (fun _ => ps) acc.parents }
      let acc2 := if ps.isEmpty then { acc1 with roots := addUnique acc1.roots chId } else acc1
      DepGraph_recomputeDepthCascade acc2 chId (graphFuel acc2)) g1
    { nodes := g2.nodes.filter (fun x => x ≠ id),
      children := g2.children.filter (fun e => e.1 ≠ id),
      parents := g2.parents.filter (fun e => e.1 ≠ id),
      depth := g2.depth.filter (fun e => e.1 ≠ id),
      roots := g2.roots.filter (fun x => x ≠ id) }
  else g


/-! Association-list toolkit for the graph proofs. -/

def keysOf {α β : Type} (m : List (α × β)) : List α := m.map Prod.fst

theorem lookup_updateAList_eq {α β : Type} [DecidableEq α] (m : List (α × β)) (k : α)
    (f : Option β → β) : (updateAList k f m).lookup k = some (f (m.lookup k)) := by
  induction m with
  | nil => simp [updateAList, List.lookup]
  | cons hd rest ih =>
    obtain ⟨k2, v⟩ := hd
    by_cases h : k = k2
    · subst h
      simp [updateAList, List.lookup]
    · simp [updateAList, List.lookup, beq_eq_decide, h, ih]

theorem lookup_updateAList_ne {α β : Type} [DecidableEq α] (m : List (α × β)) (k k2 : α)
    (f : Option β → β) (h : k2 ≠ k) : (updateAList k f m).lookup k2 = m.lookup k2 := by
  induction m with
  | nil => simp [updateAList, List.lookup, beq_eq_decide, h]
  | cons hd rest ih =>
    obtain ⟨k3, v⟩ := hd
    by_cases h3 : k = k3
    · subst h3
      simp [updateAList, List.lookup, beq_eq_decide, h]
    · by_cases h4 : k2 = k3
      · subst h4
        simp [updateAList, List.lookup, beq_eq_decide, h3]
      · simp [updateAList, List.lookup, beq_eq_decide, h3, h4, ih]

theorem keysOf_updateAList_mem {α β : Type} [DecidableEq α] (m : List (α × β)) (k : α)
    (f : Option β → β) (h : k ∈ keysOf m) : keysOf (updateAList k f m) = keysOf m := by
  induction m with
  | nil => simp [keysOf] at h
  | cons hd rest ih =>
    obtain ⟨k2, v⟩ := hd
    by_cases h2 : k = k2
    · subst h2
      simp [updateAList, keysOf]
    · have hmem : k ∈ keysOf rest := by
        simp only [keysOf, List.map_cons, List.mem_cons] at h
        rcases h with h | h
        · exact absurd h h2
        · exact h
      have hstep : updateAList k f ((k2, v) :: rest) = (k2, v) :: updateAList k f rest := by
        simp [updateAList, beq_eq_decide, h2]
      rw [hstep]
      simp only [keysOf, List.map_cons]
      exact congrArg (List.cons k2) (ih hmem)

theorem lookup_none_of_not_mem_keys {α β : Type} [DecidableEq α] (m : List (α × β)) (k : α)
    (h : k ∉ keysOf m) : m.lookup k = none := by
  induction m with
  | nil => simp [List.lookup]
  | cons hd rest ih =>
    obtain ⟨k2, v⟩ := hd
    have h1 : k ≠ k2 := by
      intro he
      exact h (by simp [keysOf, he])
    have h2 : k ∉ keysOf rest := by
      intro hm
      exact h (by simp only [keysOf, List.map_cons, List.mem_cons]; exact Or.inr hm)
    simp [List.lookup, beq_eq_decide, h1, ih h2]

theorem mem_keys_of_lookup_some {α β : Type} [DecidableEq α] {m : List (α × β)} {k : α} {v : β}
    (h : m.lookup k = some v) : k ∈ keysOf m := by
  by_cases hk : k ∈ keysOf m
  · exact hk
  · rw [lookup_none_of_not_mem_keys m k hk] at h
    cases h

theorem lookup_mem {α β : Type} [DecidableEq α] {m : List (α × β)} {k : α} {v : β}
    (h : m.lookup k = some v) : (k, v) ∈ m := by
  induction m with
  | nil => cases h
  | cons hd rest ih =>
    obtain ⟨k2, w⟩ := hd
    by_cases h2 : k = k2
    · subst h2
      simp [List.lookup] at h
      simp [h]
    · simp [List.lookup, beq_eq_decide, h2] at h
      simp [ih h]

theorem keysOf_filter_key {α β : Type} [DecidableEq α] (m : List (α × β)) (id : α) :
    keysOf (m.filter (fun e => e.1 ≠ id)) = (keysOf m).filter (fun x => x ≠ id) := by
  induction m with
  | nil => rfl
  | cons hd rest ih =>
    obtain ⟨k, v⟩ := hd
    by_cases h : k = id
    · subst h
      simp [keysOf, List.filter] at ih ⊢
      exact ih
    · simp [keysOf, List.filter, h] at ih ⊢
      exact ih

theorem lookup_filter_key_ne {α β : Type} [DecidableEq α] (m : List (α × β)) (id k : α)
    (h : k ≠ id) : (m.filter (fun e => e.1 ≠ id)).lookup k = m.lookup k := by
  induction m with
  | nil => rfl
  | cons hd rest ih =>
    obtain ⟨k2, v⟩ := hd
    by_cases h2 : k2 = id
    · subst h2
      have hdrop : ((k2, v) :: rest).filter (fun e => e.1 ≠ k2)
          = rest.filter (fun e => e.1 ≠ k2) := by
        simp [List.filter_cons]
      rw [hdrop, ih]
      simp [List.lookup, beq_eq_decide, h]
    · have hkeep : ((k2, v) :: rest).filter (fun e => e.1 ≠ id)
          = (k2, v) :: rest.filter (fun e => e.1 ≠ id) := by
        simp [List.filter_cons, h2]
      rw [hkeep]
      by_cases h3 : k = k2
      · subst h3
        simp [List.lookup]
      · have hk : (k == k2) = false := by simp [beq_eq_decide, h3]
        simp only [List.lookup, hk]
        exact ih

/-! The children-step relation and acyclicity. -/

def childStep (ch : List (String × List String)) (a b : String) : Prop :=
  b ∈ (ch.lookup a).getD []

def AcyclicCh (ch : List (String × List String)) : Prop :=
  ∀ v, ¬ Relation.TransGen (childStep ch) v v

theorem acyclic_mono {ch1 ch2 : List (String × List String)}
    (hsub : ∀ a b, childStep ch1 a b → childStep ch2 a b)
    (h : AcyclicCh ch2) : AcyclicCh ch1 := by
  intro v hv
  exact h v (Relation.TransGen.mono hsub hv)

/-- Any acyclic finite children map admits a strictly decreasing natural
rank along edges, bounded by the size of any closed vertex universe. -/
theorem exists_rank (ch : List (String × List String)) (U : List String)
    (hU : ∀ a b, childStep ch a b → a ∈ U ∧ b ∈ U) (hacy : AcyclicCh ch) :
    ∃ rank : String → Nat,
      (∀ a b, childStep ch a b → rank b < rank a) ∧ (∀ v, rank v ≤ U.length + 1) := by
  classical
  refine ⟨fun v => Set.ncard {w | Relation.ReflTransGen (childStep ch) v w}, ?_, ?_⟩
  · intro a b hab
    have hsub : {w | Relation.ReflTransGen (childStep ch) b w}
        ⊆ {w | Relation.ReflTransGen (childStep ch) a w} := by
      intro w hw
      exact Relation.ReflTransGen.head hab hw
    have hafin : {w | Relation.ReflTransGen (childStep ch) a w}.Finite := by
      apply Set.Finite.subset (Set.Finite.insert a (List.finite_toSet U))
      intro w hw
      rcases (Relation.reflTransGen_iff_eq_or_transGen.mp hw) with h | h
      · subst h; exact Set.mem_insert _ _
      · obtain ⟨x, _, hlast⟩ := Relation.TransGen.tail'_iff.mp h
        exact Set.mem_insert_of_mem _ ((hU x w hlast).2)
    have hmem : a ∈ {w | Relation.ReflTransGen (childStep ch) a w} := Relation.ReflTransGen.refl
    have hnot : a ∉ {w | Relation.ReflTransGen (childStep ch) b w} := by
      intro hab2
      exact hacy a (Relation.TransGen.head' hab hab2)
    have hss : {w | Relation.ReflTransGen (childStep ch) b w}
        ⊂ {w | Relation.ReflTransGen (childStep ch) a w} := by
      rw [Set.ssubset_def]
      exact ⟨hsub, fun hcon => hnot (hcon hmem)⟩
    exact Set.ncard_lt_ncard hss hafin
  · intro v
    have hsub : {w | Relation.ReflTransGen (childStep ch) v w} ⊆ insert v {x | x ∈ U} := by
      intro w hw
      rcases (Relation.reflTransGen_iff_eq_or_transGen.mp hw) with h | h
      · subst h; exact Set.mem_insert _ _
      · obtain ⟨x, _, hlast⟩ := Relation.TransGen.tail'_iff.mp h
        exact Set.mem_insert_of_mem _ ((hU x w hlast).2)
    have h1 : Set.ncard {w | Relation.ReflTransGen (childStep ch) v w}
        ≤ Set.ncard (insert v {x | x ∈ U}) :=
      Set.ncard_le_ncard hsub (Set.Finite.insert v (List.finite_toSet U))
    have h2 : Set.ncard (insert v {x | x ∈ U}) ≤ Set.ncard {x | x ∈ U} + 1 :=
      Set.ncard_insert_le v _
    have h3 : Set.ncard {x | x ∈ U} ≤ U.length := by
      have : {x | x ∈ U} = ↑U.toFinset := by
        ext x; simp
      rw [this, Set.ncard_coe_Finset]
      exact U.toFinset_card_le
    show Set.ncard {w | Relation.ReflTransGen (childStep ch) v w} ≤ U.length + 1
    omega

/-! Potential function bounding the DFS / cascade work on graded graphs. -/

def phiStack (rank : String → Nat) (B : Nat) (stack : List String) : Nat :=
  (stack.map (fun id => B ^ rank id)).sum

theorem phiStack_append (rank : String → Nat) (B : Nat) (l1 l2 : List String) :
    phiStack rank B (l1 ++ l2) = phiStack rank B l1 + phiStack rank B l2 := by
  simp [phiStack]

theorem phiStack_reverse (rank : String → Nat) (B : Nat) (l : List String) :
    phiStack rank B l.reverse = phiStack rank B l := by
  simp [phiStack, List.sum_reverse]

theorem phiStack_cons (rank : String → Nat) (B : Nat) (x : String) (l : List String) :
    phiStack rank B (x :: l) = B ^ rank x + phiStack rank B l := by
  simp [phiStack]

theorem phi_children_lt (rank : String → Nat) (B : Nat) (v : String) (l : List String)
    (hB1 : 2 ≤ B) (hlen : l.length < B) (hl : ∀ c ∈ l, rank c < rank v) :
    phiStack rank B l < B ^ rank v := by
  cases l with
  | nil =>
    have : 0 < B ^ rank v := Nat.pos_pow_of_pos _ (by omega)
    simpa [phiStack]
  | cons c cs =>
    have hrv : 1 ≤ rank v := by
      have := hl c (by simp)
      omega
    have hbound : ∀ x ∈ (c :: cs).map (fun id => B ^ rank id), x ≤ B ^ (rank v - 1) := by
      intro x hx
      obtain ⟨id, hid, rfl⟩ := List.mem_map.mp hx
      exact Nat.pow_le_pow_right (by omega) (by have := hl id hid; omega)
    have hsum : ((c :: cs).map (fun id => B ^ rank id)).sum
        ≤ ((c :: cs).map (fun id => B ^ rank id)).length * B ^ (rank v - 1) := by
      have := List.sum_le_card_nsmul ((c :: cs).map (fun id => B ^ rank id))
        (B ^ (rank v - 1)) hbound
      simpa [smul_eq_mul] using this
    have hlt : ((c :: cs).map (fun id => B ^ rank id)).length * B ^ (rank v - 1)
        < B * B ^ (rank v - 1) := by
      apply Nat.mul_lt_mul_of_lt_of_le
      · simpa using hlen
      · exact Nat.le_refl _
      · exact Nat.pos_pow_of_pos _ (by omega)
    have heq : B * B ^ (rank v - 1) = B ^ rank v := by
      conv_rhs => rw [show rank v = (rank v - 1) + 1 from by omega]
      rw [pow_succ]
      ring
    calc phiStack rank B (c :: cs)
        ≤ ((c :: cs).map (fun id => B ^ rank id)).length * B ^ (rank v - 1) := hsum
      _ < B * B ^ (rank v - 1) := hlt
      _ = B ^ rank v := heq

/-- The cycle-check DFS answers reachability whenever the fuel dominates
the potential of the start stack. -/
theorem wccLoop_correct (ch : List (String × List String)) (p : String)
    (rank : String → Nat) (B : Nat) (hB1 : 2 ≤ B)
    (hgr : ∀ a b, childStep ch a b → rank b < rank a)
    (hB : ∀ v, ((ch.lookup v).getD []).length < B) :
    ∀ fuel stack, phiStack rank B stack < fuel →
      (wccLoop ch p fuel stack = true ↔
        ∃ id ∈ stack, Relation.ReflTransGen (childStep ch) id p) := by
  intro fuel
  induction fuel with
  | zero => intro stack h; exact absurd h (Nat.not_lt_zero _)
  | succ f ih =>
    intro stack hphi
    match stack with
    | [] => simp [wccLoop]
    | id :: rest =>
      by_cases hid : id = p
      · have hstep : wccLoop ch p (f+1) (id :: rest) = true := by
          simp [wccLoop, hid]
        rw [hstep]
        constructor
        · intro _
          exact ⟨id, by simp, hid ▸ Relation.ReflTransGen.refl⟩
        · intro _
          rfl
      · have hstep : wccLoop ch p (f+1) (id :: rest)
            = wccLoop ch p f (((ch.lookup id).getD []).reverse ++ rest) := by
          simp [wccLoop, hid]
        have hch : ∀ c ∈ (ch.lookup id).getD [], rank c < rank id :=
          fun c hc => hgr id c hc
        have h2 : phiStack rank B ((ch.lookup id).getD []) < B ^ rank id :=
          phi_children_lt rank B id _ hB1 (hB id) hch
        have hphi2 : phiStack rank B (((ch.lookup id).getD []).reverse ++ rest) < f := by
          have h1 : phiStack rank B (((ch.lookup id).getD []).reverse ++ rest)
              = phiStack rank B ((ch.lookup id).getD []) + phiStack rank B rest := by
            rw [phiStack_append, phiStack_reverse]
          have h3 : phiStack rank B (id :: rest) = B ^ rank id + phiStack rank B rest :=
            phiStack_cons rank B id rest
          omega
        rw [hstep, ih _ hphi2]
        constructor
        · rintro ⟨w, hw, hreach⟩
          rcases List.mem_append.mp hw with hw | hw
          · exact ⟨id, by simp,
              Relation.ReflTransGen.head (List.mem_reverse.mp hw) hreach⟩
          · exact ⟨w, by simp [hw], hreach⟩
        · rintro ⟨w, hw, hreach⟩
          rcases List.mem_cons.mp hw with rfl | hw
          · rcases Relation.ReflTransGen.cases_head hreach with heq | ⟨c, hc, hreach2⟩
            · exact absurd heq hid
            · exact ⟨c, List.mem_append.mpr (Or.inl (List.mem_reverse.mpr hc)), hreach2⟩
          · exact ⟨w, List.mem_append.mpr (Or.inr hw), hreach⟩

/-! Correctness of the depth cascade. -/

/-- The stored depth of v agrees with the depth recomputed from its parents. -/
def depthOkAt (pa : List (String × List String)) (dm : List (String × Nat))
    (v : String) : Prop :=
  (dm.lookup v).getD 0 = DepGraph_calcDepth pa dm v

theorem foldl_max_congr (dm1 dm2 : List (String × Nat)) (ps : List String)
    (h : ∀ p ∈ ps, dm1.lookup p = dm2.lookup p) :
    ∀ acc, ps.foldl (fun maxd p => max maxd ((dm1.lookup p).getD 0 + 1)) acc
      = ps.foldl (fun maxd p => max maxd ((dm2.lookup p).getD 0 + 1)) acc := by
  induction ps with
  | nil => intro acc; rfl
  | cons q qs ih =>
    intro acc
    simp only [List.foldl_cons]
    rw [h q (by simp)]
    exact ih (fun p hp => h p (by simp [hp])) _

theorem calcDepth_congr (pa : List (String × List String)) (dm1 dm2 : List (String × Nat))
    (v : String) (h : ∀ p ∈ (pa.lookup v).getD [], dm1.lookup p = dm2.lookup p) :
    DepGraph_calcDepth pa dm1 v = DepGraph_calcDepth pa dm2 v := by
  unfold DepGraph_calcDepth
  cases hv : pa.lookup v with
  | none => rfl
  | some ps =>
    rw [hv] at h
    exact foldl_max_congr dm1 dm2 ps (by simpa using h) 0

/-- The cascade work loop restores the depth equation at every vertex
outside the exception set, and never changes the key set of the depth
map, provided the fuel dominates the stack potential, the stack and all
child lists stay inside the key set, and every non-excepted vertex either
already satisfies the equation or sits on the stack.  The exception set
covers a vertex whose parent links may be ahead of the child links during
removeNode. -/
theorem cascadeLoop_spec (ch pa : List (String × List String))
    (rank : String → Nat) (B : Nat) (hB1 : 2 ≤ B)
    (hgr : ∀ a b, childStep ch a b → rank b < rank a)
    (hB : ∀ v, ((ch.lookup v).getD []).length < B)
    (ex : String → Prop)
    (hmirror : ∀ w v, ¬ ex w → v ∈ (pa.lookup w).getD [] → w ∈ (ch.lookup v).getD []) :
    ∀ fuel stack dm,
      phiStack rank B stack < fuel →
      (∀ s ∈ stack, s ∈ keysOf dm) →
      (∀ a c, c ∈ (ch.lookup a).getD [] → c ∈ keysOf dm) →
      (∀ v, ¬ ex v → (depthOkAt pa dm v ∨ v ∈ stack)) →
      keysOf (cascadeLoop ch pa fuel stack dm) = keysOf dm ∧
      (∀ v, ¬ ex v → depthOkAt pa (cascadeLoop ch pa fuel stack dm) v) := by
  intro fuel
  induction fuel with
  | zero => intro stack dm h; exact absurd h (Nat.not_lt_zero _)
  | succ f ih =>
    intro stack dm hphi hsk hck hinv
    match stack with
    | [] =>
      refine ⟨by simp [cascadeLoop], ?_⟩
      intro v hv
      rcases hinv v hv with h | h
      · simpa [cascadeLoop] using h
      · cases h
    | id :: rest =>
      have hone : 1 ≤ B ^ rank id := Nat.one_le_pow _ _ (by omega)
      have hphic : phiStack rank B (id :: rest) = B ^ rank id + phiStack rank B rest :=
        phiStack_cons rank B id rest
      by_cases hcase : DepGraph_calcDepth pa dm id = (dm.lookup id).getD 0
      · have hstep : cascadeLoop ch pa (f+1) (id :: rest) dm = cascadeLoop ch pa f rest dm := by
          simp [cascadeLoop, hcase]
        rw [hstep]
        apply ih rest dm (by omega) (fun s hs => hsk s (by simp [hs])) hck
        intro v hv
        rcases hinv v hv with h | h
        · exact Or.inl h
        · rcases List.mem_cons.mp h with rfl | h
          · exact Or.inl hcase.symm
          · exact Or.inr h
      · have hstep : cascadeLoop ch pa (f+1) (id :: rest) dm
            = cascadeLoop ch pa f (((ch.lookup id).getD []).reverse ++ rest)
              (updateAList id (fun _ => DepGraph_calcDepth pa dm id) dm) := by
          simp [cascadeLoop, hcase]
        rw [hstep]
        have hidk : id ∈ keysOf dm := hsk id (by simp)
        have hkeys : keysOf (updateAList id (fun _ => DepGraph_calcDepth pa dm id) dm)
            = keysOf dm := keysOf_updateAList_mem dm id _ hidk
        have hphi2 : phiStack rank B (((ch.lookup id).getD []).reverse ++ rest) < f := by
          have h1 : phiStack rank B (((ch.lookup id).getD []).reverse ++ rest)
              = phiStack rank B ((ch.lookup id).getD []) + phiStack rank B rest := by
            rw [phiStack_append, phiStack_reverse]
          have h2 : phiStack rank B ((ch.lookup id).getD []) < B ^ rank id :=
            phi_children_lt rank B id _ hB1 (hB id) (fun c hc => hgr id c hc)
          omega
        have hlookid : (updateAList id (fun _ => DepGraph_calcDepth pa dm id) dm).lookup id
            = some (DepGraph_calcDepth pa dm id) :=
          lookup_updateAList_eq dm id _
        have hlookne : ∀ w, w ≠ id →
            (updateAList id (fun _ => DepGraph_calcDepth pa dm id) dm).lookup w
            = dm.lookup w :=
          fun w hw => lookup_updateAList_ne dm id w _ hw
        have hres := ih (((ch.lookup id).getD []).reverse ++ rest)
          (updateAList id (fun _ => DepGraph_calcDepth pa dm id) dm) hphi2
          (by
            intro s hs
            rw [hkeys]
            rcases List.mem_append.mp hs with hs | hs
            · exact hck id s (List.mem_reverse.mp hs)
            · exact hsk s (by simp [hs]))
          (by
            intro a c hc
            rw [hkeys]
            exact hck a c hc)
          (by
            intro v hv
            by_cases hvid : v = id
            · left
              rw [hvid]
              unfold depthOkAt
              rw [hlookid]
              have hvex : ¬ ex id := hvid ▸ hv
              have hpane : ∀ p ∈ (pa.lookup id).getD [], p ≠ id := by
                intro p hp hpv
                subst hpv
                have hvchild : p ∈ (ch.lookup p).getD [] := hmirror p p hvex hp
                exact absurd (hgr p p hvchild) (lt_irrefl _)
              have hcongr : DepGraph_calcDepth pa
                  (updateAList id (fun _ => DepGraph_calcDepth pa dm id) dm) id
                  = DepGraph_calcDepth pa dm id := by
                apply calcDepth_congr
                intro p hp
                exact hlookne p (hpane p hp)
              simp [hcongr]
            · by_cases hpar : id ∈ (pa.lookup v).getD []
              · right
                apply List.mem_append.mpr
                left
                exact List.mem_reverse.mpr (hmirror v id hv hpar)
              · rcases hinv v hv with h | h
                · left
                  unfold depthOkAt
                  rw [hlookne v hvid]
                  have hcongr : DepGraph_calcDepth pa
                      (updateAList id (fun _ => DepGraph_calcDepth pa dm id) dm) v
                      = DepGraph_calcDepth pa dm v := by
                    apply calcDepth_congr
                    intro p hp
                    apply hlookne p
                    intro hpid
                    exact hpar (hpid ▸ hp)
                  rw [hcongr]
                  exact h
                · rcases List.mem_cons.mp h with hvid2 | h
                  · exact absurd hvid2 hvid
                  · right
                    exact List.mem_append.mpr (Or.inr h))
        refine ⟨?_, hres.2⟩
        rw [hres.1, hkeys]

/-- _recomputeDepthCascade restores the depth equation everywhere outside
the exception set and leaves every other field and the depth key set
unchanged, under the same grading and mirroring side conditions. -/
theorem recompute_spec (g : DepGraph) (startId : String) (fuel : Nat)
    (rank : String → Nat) (B : Nat) (hB1 : 2 ≤ B)
    (hgr : ∀ a b, childStep g.children a b → rank b < rank a)
    (hB : ∀ v, ((g.children.lookup v).getD []).length < B)
    (ex : String → Prop)
    (hmirror : ∀ w v, ¬ ex w → v ∈ (g.parents.lookup w).getD []
      → w ∈ (g.children.lookup v).getD [])
    (hexs : ¬ ex startId)
    (hsk : startId ∈ keysOf g.depth)
    (hck : ∀ a c, c ∈ (g.children.lookup a).getD [] → c ∈ keysOf g.depth)
    (hphi : phiStack rank B ((g.children.lookup startId).getD []) < fuel)
    (hpre : ∀ v, ¬ ex v → v ≠ startId → depthOkAt g.parents g.depth v) :
    (DepGraph_recomputeDepthCascade g startId fuel).nodes = g.nodes ∧
    (DepGraph_recomputeDepthCascade g startId fuel).children = g.children ∧
    (DepGraph_recomputeDepthCascade g startId fuel).parents = g.parents ∧
    (DepGraph_recomputeDepthCascade g startId fuel).roots = g.roots ∧
    keysOf (DepGraph_recomputeDepthCascade g startId fuel).depth = keysOf g.depth ∧
    (∀ v, ¬ ex v →
      depthOkAt g.parents (DepGraph_recomputeDepthCascade g startId fuel).depth v) := by
  by_cases hc : DepGraph_calcDepth g.parents g.depth startId
      = (g.depth.lookup startId).getD 0
  · have hre : DepGraph_recomputeDepthCascade g startId fuel = g := by
      simp [DepGraph_recomputeDepthCascade, hc]
    rw [hre]
    refine ⟨rfl, rfl, rfl, rfl, rfl, ?_⟩
    intro v hv
    by_cases hvs : v = startId
    · subst hvs
      exact hc.symm
    · exact hpre v hv hvs
  · have hre : DepGraph_recomputeDepthCascade g startId fuel =
        { g with depth := (cascadeLoop g.children g.parents fuel
            (((g.children.lookup startId).getD []).reverse)
            (updateAList startId
              (fun _ => DepGraph_calcDepth g.parents g.depth startId) g.depth)) } := by
      simp [DepGraph_recomputeDepthCascade, hc]
    have hkeys0 : keysOf (updateAList startId
        (fun _ => DepGraph_calcDepth g.parents g.depth startId) g.depth)
        = keysOf g.depth := keysOf_updateAList_mem g.depth startId _ hsk
    have hlooks : (updateAList startId
        (fun _ => DepGraph_calcDepth g.parents g.depth startId) g.depth).lookup startId
        = some (DepGraph_calcDepth g.parents g.depth startId) :=
      lookup_updateAList_eq g.depth startId _
    have hlookn : ∀ w, w ≠ startId → (updateAList startId
        (fun _ => DepGraph_calcDepth g.parents g.depth startId) g.depth).lookup w
        = g.depth.lookup w :=
      fun w hw => lookup_updateAList_ne g.depth startId w _ hw
    have hspec := cascadeLoop_spec g.children g.parents rank B hB1 hgr hB ex hmirror
      fuel (((g.children.lookup startId).getD []).reverse)
      (updateAList startId (fun _ => DepGraph_calcDepth g.parents g.depth startId) g.depth)
      (by rw [phiStack_reverse]; exact hphi)
      (by
        intro s hs
        rw [hkeys0]
        exact hck startId s (List.mem_reverse.mp hs))
      (by
        intro a c hcm
        rw [hkeys0]
        exact hck a c hcm)
      (by
        intro v hv
        by_cases hvs : v = startId
        · left
          rw [hvs]
          unfold depthOkAt
          rw [hlooks]
          have hpane : ∀ p ∈ (g.parents.lookup startId).getD [], p ≠ startId := by
            intro p hp hpv
            subst hpv
            have hvchild : p ∈ (g.children.lookup p).getD [] := hmirror p p hexs hp
            exact absurd (hgr p p hvchild) (lt_irrefl _)
          have hcongr : DepGraph_calcDepth g.parents
              (updateAList startId
                (fun _ => DepGraph_calcDepth g.parents g.depth startId) g.depth) startId
              = DepGraph_calcDepth g.parents g.depth startId := by
            apply calcDepth_congr
            intro p hp
            exact hlookn p (hpane p hp)
          simp [hcongr]
        · by_cases hpar : startId ∈ (g.parents.lookup v).getD []
          · right
            exact List.mem_reverse.mpr (hmirror v startId hv hpar)
          · left
            unfold depthOkAt
            rw [hlookn v hvs]
            have hcongr : DepGraph_calcDepth g.parents
                (updateAList startId
                  (fun _ => DepGraph_calcDepth g.parents g.depth startId) g.depth) v
                = DepGraph_calcDepth g.parents g.depth v := by
              apply calcDepth_congr
              intro p hp
              apply hlookn p
              intro hpid
              exact hpar (hpid ▸ hp)
            rw [hcongr]
            exact hpre v hv hvs)
    rw [hre]
    refine ⟨rfl, rfl, rfl, rfl, ?_, ?_⟩
    · show keysOf (cascadeLoop g.children g.parents fuel
        (((g.children.lookup startId).getD []).reverse)
        (updateAList startId
          (fun _ => DepGraph_calcDepth g.parents g.depth startId) g.depth)) = keysOf g.depth
      rw [hspec.1, hkeys0]
    · intro v hv
      exact hspec.2 v hv

/-! Well-formedness of a DepGraph state, preserved by the four public
operations; it packages exactly the invariants the spec claims plus the
bookkeeping facts needed to push them through the cascades. -/

theorem keysOf_updateAList_not_mem {α β : Type} [DecidableEq α] (m : List (α × β)) (k : α)
    (f : Option β → β) (h : k ∉ keysOf m) : keysOf (updateAList k f m) = keysOf m ++ [k] := by
  induction m with
  | nil => simp [updateAList, keysOf]
  | cons hd rest ih =>
    obtain ⟨k2, v⟩ := hd
    have h1 : k ≠ k2 := by
      intro he
      exact h (by simp [keysOf, he])
    have h2 : k ∉ keysOf rest := by
      intro hm
      exact h (by simp only [keysOf, List.map_cons, List.mem_cons]; exact Or.inr hm)
    have hstep : updateAList k f ((k2, v) :: rest) = (k2, v) :: updateAList k f rest := by
      simp [updateAList, beq_eq_decide, h1]
    rw [hstep]
    simp only [keysOf, List.map_cons, List.cons_append]
    exact congrArg (List.cons k2) (ih h2)

theorem addUnique_nodup (l : List String) (x : String) (h : l.Nodup) :
    (addUnique l x).Nodup := by
  unfold addUnique
  by_cases hx : x ∈ l
  · simp [hx, h]
  · simp only [hx, if_false, List.nodup_append]
    refine ⟨h, by simp, ?_⟩
    intro a ha hax
    simp at hax
    exact hx (hax ▸ ha)

theorem mem_addUnique (l : List String) (x y : String) :
    y ∈ addUnique l x ↔ y ∈ l ∨ y = x := by
  unfold addUnique
  by_cases hx : x ∈ l
  · simp [hx]
    intro he
    exact he ▸ hx
  · simp [hx]

structure GraphWF (g : DepGraph) : Prop where
  nodesND : g.nodes.Nodup
  chKeys : keysOf g.children = g.nodes
  paKeys : keysOf g.parents = g.nodes
  dmKeys : keysOf g.depth = g.nodes
  chND : ∀ v, (childrenOf g v).Nodup
  chClosed : ∀ v c, c ∈ childrenOf g v → c ∈ g.nodes
  paND : ∀ v, (parentsOf g v).Nodup
  paClosed : ∀ v p, p ∈ parentsOf g v → p ∈ g.nodes
  mirror : ∀ p c, c ∈ childrenOf g p ↔ p ∈ parentsOf g c
  rootsND : g.roots.Nodup
  rootsChar : ∀ r, r ∈ g.roots ↔ (r ∈ g.nodes ∧ parentsOf g r = [])
  acyclic : AcyclicCh g.children
  depthOk : ∀ v, depthOkAt g.parents g.depth v

theorem emptyG_WF : GraphWF DepGraph.emptyG := by
  refine ⟨?_, ?_, ?_, ?_, ?_, ?_, ?_, ?_, ?_, ?_, ?_, ?_, ?_⟩
  · simp [DepGraph.emptyG]
  · simp [DepGraph.emptyG, keysOf]
  · simp [DepGraph.emptyG, keysOf]
  · simp [DepGraph.emptyG, keysOf]
  · intro v; simp [childrenOf, DepGraph.emptyG, List.lookup]
  · intro v c h; simp [childrenOf, DepGraph.emptyG, List.lookup] at h
  · intro v; simp [parentsOf, DepGraph.emptyG, List.lookup]
  · intro v p h; simp [parentsOf, DepGraph.emptyG, List.lookup] at h
  · intro p c
    simp [childrenOf, parentsOf, DepGraph.emptyG, List.lookup]
  · simp [DepGraph.emptyG]
  · intro r; simp [DepGraph.emptyG, parentsOf, List.lookup]
  · intro v hv
    rcases Relation.TransGen.head'_iff.mp hv with ⟨b, hb, _⟩
    simp [childStep, DepGraph.emptyG, List.lookup] at hb
  · intro v
    simp [depthOkAt, DepGraph.emptyG, DepGraph_calcDepth, List.lookup]

theorem wf_not_mem_children (g : DepGraph) (h : GraphWF g) (v : String)
    (hv : v ∉ g.nodes) : childrenOf g v = [] := by
  unfold childrenOf
  rw [lookup_none_of_not_mem_keys g.children v (by rw [h.chKeys]; exact hv)]
  rfl

theorem wf_not_mem_parents (g : DepGraph) (h : GraphWF g) (v : String)
    (hv : v ∉ g.nodes) : parentsOf g v = [] := by
  unfold parentsOf
  rw [lookup_none_of_not_mem_keys g.parents v (by rw [h.paKeys]; exact hv)]
  rfl

theorem wf_children_len (g : DepGraph) (h : GraphWF g) (v : String) :
    (childrenOf g v).length ≤ g.nodes.length :=
  List.Subperm.length_le ((h.chND v).subperm (fun c hc => h.chClosed v c hc))

/-- Every well-formed graph carries a rank function witnessing its grading. -/
theorem wf_rank (g : DepGraph) (h : GraphWF g) :
    ∃ rank : String → Nat,
      (∀ a b, childStep g.children a b → rank b < rank a) ∧
      (∀ v, rank v ≤ g.nodes.length + 1) := by
  apply exists_rank g.children g.nodes _ h.acyclic
  intro a b hab
  unfold childStep at hab
  constructor
  · rcases hl : g.children.lookup a with _ | l
    · rw [hl] at hab; simp at hab
    · rw [← h.chKeys]
      exact mem_keys_of_lookup_some hl
  · exact h.chClosed a b hab

theorem phi_lt_graphFuel (g : DepGraph) (rank : String → Nat) (l : List String)
    (hrank : ∀ v, rank v ≤ g.nodes.length + 1)
    (hlen : l.length ≤ g.nodes.length) :
    phiStack rank (g.nodes.length + 2) l < graphFuel g := by
  have hterm : ∀ x ∈ l.map (fun id => (g.nodes.length + 2) ^ rank id),
      x ≤ (g.nodes.length + 2) ^ (g.nodes.length + 1) := by
    intro x hx
    obtain ⟨id, _, rfl⟩ := List.mem_map.mp hx
    exact Nat.pow_le_pow_right (by omega) (hrank id)
  have h1 : phiStack rank (g.nodes.length + 2) l
      ≤ l.length * (g.nodes.length + 2) ^ (g.nodes.length + 1) := by
    have := List.sum_le_card_nsmul (l.map (fun id => (g.nodes.length + 2) ^ rank id))
      ((g.nodes.length + 2) ^ (g.nodes.length + 1)) hterm
    simpa [phiStack, smul_eq_mul] using this
  have h2 : l.length * (g.nodes.length + 2) ^ (g.nodes.length + 1)
      ≤ g.nodes.length * (g.nodes.length + 2) ^ (g.nodes.length + 1) :=
    Nat.mul_le_mul_right _ hlen
  have h3 : g.nodes.length * (g.nodes.length + 2) ^ (g.nodes.length + 1)
      < (g.nodes.length + 2) * (g.nodes.length + 2) ^ (g.nodes.length + 1) := by
    apply Nat.mul_lt_mul_of_lt_of_le (by omega) (Nat.le_refl _)
    exact Nat.pos_pow_of_pos _ (by omega)
  have h4 : (g.nodes.length + 2) * (g.nodes.length + 2) ^ (g.nodes.length + 1)
      = graphFuel g := by
    unfold graphFuel
    rw [pow_succ]
    ring
  omega

theorem calcDepth_ext (pa1 pa2 : List (String × List String))
    (dm1 dm2 : List (String × Nat)) (v : String)
    (hpa : pa1.lookup v = pa2.lookup v)
    (hdm : ∀ p ∈ (pa2.lookup v).getD [], dm1.lookup p = dm2.lookup p) :
    DepGraph_calcDepth pa1 dm1 v = DepGraph_calcDepth pa2 dm2 v := by
  unfold DepGraph_calcDepth
  rw [hpa]
  cases hv : pa2.lookup v with
  | none => rfl
  | some ps =>
    rw [hv] at hdm
    exact foldl_max_congr dm1 dm2 ps (by simpa using hdm) 0

theorem addNode_WF (g : DepGraph) (id : String) (h : GraphWF g) :
    GraphWF (DepGraph_addNode g id) := by
  by_cases hid : id ∈ g.nodes
  · simpa [DepGraph_addNode, hid] using h
  · have hre : DepGraph_addNode g id =
        { nodes := g.nodes ++ [id],
          children := updateAList id (fun _ => []) g.children,
          parents := updateAList id (fun _ => []) g.parents,
          depth := updateAList id (fun _ => 0) g.depth,
          roots := addUnique g.roots id } := by
      simp [DepGraph_addNode, hid]
    rw [hre]
    have hchid : (updateAList id (fun _ => ([] : List String)) g.children).lookup id
        = some [] := lookup_updateAList_eq g.children id _
    have hchne : ∀ v, v ≠ id → (updateAList id (fun _ => ([] : List String)) g.children).lookup v
        = g.children.lookup v := fun v hv => lookup_updateAList_ne g.children id v _ hv
    have hpaid : (updateAList id (fun _ => ([] : List String)) g.parents).lookup id
        = some [] := lookup_updateAList_eq g.parents id _
    have hpane : ∀ v, v ≠ id → (updateAList id (fun _ => ([] : List String)) g.parents).lookup v
        = g.parents.lookup v := fun v hv => lookup_updateAList_ne g.parents id v _ hv
    have hdmid : (updateAList id (fun _ => (0 : Nat)) g.depth).lookup id
        = some 0 := lookup_updateAList_eq g.depth id _
    have hdmne : ∀ v, v ≠ id → (updateAList id (fun _ => (0 : Nat)) g.depth).lookup v
        = g.depth.lookup v := fun v hv => lookup_updateAList_ne g.depth id v _ hv
    refine ⟨?_, ?_, ?_, ?_, ?_, ?_, ?_, ?_, ?_, ?_, ?_, ?_, ?_⟩
    · show (g.nodes ++ [id]).Nodup
      simp only [List.nodup_append]
      refine ⟨h.nodesND, by simp, ?_⟩
      intro a ha hax
      simp at hax
      exact hid (hax ▸ ha)
    · show keysOf (updateAList id (fun _ => []) g.children) = g.nodes ++ [id]
      rw [keysOf_updateAList_not_mem _ _ _ (by rw [h.chKeys]; exact hid), h.chKeys]
    · show keysOf (updateAList id (fun _ => []) g.parents) = g.nodes ++ [id]
      rw [keysOf_updateAList_not_mem _ _ _ (by rw [h.paKeys]; exact hid), h.paKeys]
    · show keysOf (updateAList id (fun _ => 0) g.depth) = g.nodes ++ [id]
      rw [keysOf_updateAList_not_mem _ _ _ (by rw [h.dmKeys]; exact hid), h.dmKeys]
    · intro v
      show (((updateAList id (fun _ => []) g.children).lookup v).getD []).Nodup
      by_cases hv : v = id
      · rw [hv, hchid]; simp
      · rw [hchne v hv]; exact h.chND v
    · intro v c hc
      show c ∈ g.nodes ++ [id]
      have hc2 : c ∈ ((updateAList id (fun _ => ([] : List String)) g.children).lookup v).getD []
        := hc
      by_cases hv : v = id
      · rw [hv, hchid] at hc2
        simp at hc2
      · rw [hchne v hv] at hc2
        exact List.mem_append.mpr (Or.inl (h.chClosed v c hc2))
    · intro v
      show (((updateAList id (fun _ => []) g.parents).lookup v).getD []).Nodup
      by_cases hv : v = id
      · rw [hv, hpaid]; simp
      · rw [hpane v hv]; exact h.paND v
    · intro v p hp
      show p ∈ g.nodes ++ [id]
      have hp2 : p ∈ ((updateAList id (fun _ => ([] : List String)) g.parents).lookup v).getD []
        := hp
      by_cases hv : v = id
      · rw [hv, hpaid] at hp2
        simp at hp2
      · rw [hpane v hv] at hp2
        exact List.mem_append.mpr (Or.inl (h.paClosed v p hp2))
    · intro p c
      show c ∈ ((updateAList id (fun _ => ([] : List String)) g.children).lookup p).getD []
        ↔ p ∈ ((updateAList id (fun _ => ([] : List String)) g.parents).lookup c).getD []
      by_cases hp : p = id
      · rw [hp, hchid]
        by_cases hc : c = id
        · rw [hc, hpaid]
        · rw [hpane c hc]
          simp only [Option.getD_some, List.not_mem_nil, false_iff]
          intro hmem
          exact hid (h.paClosed c id hmem)
      · rw [hchne p hp]
        by_cases hc : c = id
        · rw [hc, hpaid]
          simp only [Option.getD_some, List.not_mem_nil, iff_false]
          intro hmem
          exact hid (h.chClosed p id hmem)
        · rw [hpane c hc]
          exact h.mirror p c
    · exact addUnique_nodup _ _ h.rootsND
    · intro r
      show r ∈ addUnique g.roots id ↔ r ∈ g.nodes ++ [id]
        ∧ ((updateAList id (fun _ => ([] : List String)) g.parents).lookup r).getD [] = []
      rw [mem_addUnique]
      constructor
      · rintro (hr | rfl)
        · have hr2 := (h.rootsChar r).mp hr
          have hrne : r ≠ id := fun he => hid (he ▸ hr2.1)
          rw [hpane r hrne]
          exact ⟨List.mem_append.mpr (Or.inl hr2.1), hr2.2⟩
        · rw [hpaid]
          exact ⟨List.mem_append.mpr (Or.inr (by simp)), rfl⟩
      · rintro ⟨hn, hpar⟩
        by_cases hr : r = id
        · exact Or.inr hr
        · rw [hpane r hr] at hpar
          rcases List.mem_append.mp hn with hn | hn
          · exact Or.inl ((h.rootsChar r).mpr ⟨hn, hpar⟩)
          · simp at hn
            exact absurd hn hr
    · apply acyclic_mono _ h.acyclic
      intro a b hab
      unfold childStep at hab ⊢
      by_cases ha : a = id
      · rw [ha, hchid] at hab
        simp at hab
      · rwa [hchne a ha] at hab
    · intro v
      unfold depthOkAt
      by_cases hv : v = id
      · rw [hv, hdmid]
        have hcalc : DepGraph_calcDepth (updateAList id (fun _ => []) g.parents)
            (updateAList id (fun _ => 0) g.depth) id = 0 := by
          unfold DepGraph_calcDepth
          rw [hpaid]
          rfl
        rw [hcalc]
        rfl
      · rw [hdmne v hv]
        have hcalc : DepGraph_calcDepth (updateAList id (fun _ => []) g.parents)
            (updateAList id (fun _ => 0) g.depth) v
            = DepGraph_calcDepth g.parents g.depth v := by
          apply calcDepth_ext
          · exact hpane v hv
          · intro p hp
            have hpn : p ∈ g.nodes := h.paClosed v p hp
            exact hdmne p (fun he => hid (he ▸ hpn))
        rw [hcalc]
        exact h.depthOk v

theorem rank_of_parts (ch : List (String × List String)) (nodes : List String)
    (hk : keysOf ch = nodes) (hcl : ∀ v c, c ∈ (ch.lookup v).getD [] → c ∈ nodes)
    (hacy : AcyclicCh ch) :
    ∃ rank : String → Nat,
      (∀ a b, childStep ch a b → rank b < rank a) ∧ (∀ v, rank v ≤ nodes.length + 1) := by
  apply exists_rank ch nodes _ hacy
  intro a b hab
  unfold childStep at hab
  constructor
  · rcases hl : ch.lookup a with _ | l
    · rw [hl] at hab; simp at hab
    · rw [← hk]
      exact mem_keys_of_lookup_some hl
  · exact hcl a b hab

theorem len_le_of_nodup_subset (l u : List String) (hnd : l.Nodup)
    (hsub : ∀ x ∈ l, x ∈ u) : l.length ≤ u.length :=
  List.Subperm.length_le (hnd.subperm hsub)

/-- If a graph satisfies every well-formedness field except that the depth
equation may fail at one vertex, running the cascade from that vertex with
the standard fuel yields a fully well-formed graph. -/
theorem recompute_WF (g : DepGraph) (startId : String)
    (hnd : g.nodes.Nodup)
    (hchk : keysOf g.children = g.nodes)
    (hpak : keysOf g.parents = g.nodes)
    (hdmk : keysOf g.depth = g.nodes)
    (hcnd : ∀ v, (childrenOf g v).Nodup)
    (hccl : ∀ v c, c ∈ childrenOf g v → c ∈ g.nodes)
    (hpnd : ∀ v, (parentsOf g v).Nodup)
    (hpcl : ∀ v p, p ∈ parentsOf g v → p ∈ g.nodes)
    (hmir : ∀ p c, c ∈ childrenOf g p ↔ p ∈ parentsOf g c)
    (hrnd : g.roots.Nodup)
    (hrch : ∀ r, r ∈ g.roots ↔ (r ∈ g.nodes ∧ parentsOf g r = []))
    (hacy : AcyclicCh g.children)
    (hs : startId ∈ g.nodes)
    (hdok : ∀ v, v ≠ startId → depthOkAt g.parents g.depth v) :
    GraphWF (DepGraph_recomputeDepthCascade g startId (graphFuel g)) := by
  obtain ⟨rank, hgr, hbound⟩ := rank_of_parts g.children g.nodes hchk hccl hacy
  have hB : ∀ v, ((g.children.lookup v).getD []).length < g.nodes.length + 2 := by
    intro v
    have := len_le_of_nodup_subset (childrenOf g v) g.nodes (hcnd v) (hccl v)
    unfold childrenOf at this
    omega
  have hphi : phiStack rank (g.nodes.length + 2) ((g.children.lookup startId).getD [])
      < graphFuel g := by
    apply phi_lt_graphFuel g rank _ hbound
    exact len_le_of_nodup_subset (childrenOf g startId) g.nodes (hcnd startId) (hccl startId)
  have hspec := recompute_spec g startId (graphFuel g) rank (g.nodes.length + 2)
    (by omega) hgr hB (fun _ => False)
    (fun w v _ hv => (hmir v w).mpr hv)
    not_false
    (by rw [hdmk]; exact hs)
    (fun a c hc => by rw [hdmk]; exact hccl a c hc)
    hphi
    (fun v _ hvs => hdok v hvs)
  obtain ⟨hn, hch, hpa, hro, hdke, hdo⟩ := hspec
  have hcof : ∀ v, childrenOf (DepGraph_recomputeDepthCascade g startId (graphFuel g)) v
      = childrenOf g v := by
    intro v; unfold childrenOf; rw [hch]
  have hpof : ∀ v, parentsOf (DepGraph_recomputeDepthCascade g startId (graphFuel g)) v
      = parentsOf g v := by
    intro v; unfold parentsOf; rw [hpa]
  refine ⟨?_, ?_, ?_, ?_, ?_, ?_, ?_, ?_, ?_, ?_, ?_, ?_, ?_⟩
  · rw [hn]; exact hnd
  · rw [hch, hn]; exact hchk
  · rw [hpa, hn]; exact hpak
  · rw [hdke, hn]; exact hdmk
  · intro v; rw [hcof v]; exact hcnd v
  · intro v c hc; rw [hn]; exact hccl v c (by rwa [hcof v] at hc)
  · intro v; rw [hpof v]; exact hpnd v
  · intro v p hp; rw [hn]; exact hpcl v p (by rwa [hpof v] at hp)
  · intro p c; rw [hcof p, hpof c]; exact hmir p c
  · rw [hro]; exact hrnd
  · intro r; rw [hro, hn, hpof r]; exact hrch r
  · rw [hch]; exact hacy
  · intro v
    unfold depthOkAt
    have := hdo v not_false
    unfold depthOkAt at this
    rwa [hpa]

/-- Paths in a graph extended by the single edge p→c either avoid the new
edge or split into a prefix reaching p and a suffix from c. -/
theorem rtg_decompose (R R2 : String → String → Prop) (p c : String)
    (hstep : ∀ a b, R2 a b → R a b ∨ (a = p ∧ b = c)) :
    ∀ a b, Relation.ReflTransGen R2 a b →
      Relation.ReflTransGen R a b ∨
      (Relation.ReflTransGen R a p ∧ Relation.ReflTransGen R c b) := by
  intro a b hab
  induction hab with
  | refl => exact Or.inl Relation.ReflTransGen.refl
  | tail hab2 hlast ih =>
    rcases hstep _ _ hlast with hlast2 | ⟨rfl, rfl⟩
    · rcases ih with ih | ⟨ih1, ih2⟩
      · exact Or.inl (Relation.ReflTransGen.tail ih hlast2)
      · exact Or.inr ⟨ih1, Relation.ReflTransGen.tail ih2 hlast2⟩
    · rcases ih with ih | ⟨ih1, _⟩
      · exact Or.inr ⟨ih, Relation.ReflTransGen.refl⟩
      · exact Or.inr ⟨ih1, Relation.ReflTransGen.refl⟩

theorem acyclic_add_edge (ch ch2 : List (String × List String)) (p c : String)
    (hstep : ∀ a b, childStep ch2 a b ↔ (childStep ch a b ∨ (a = p ∧ b = c)))
    (hacy : AcyclicCh ch)
    (hnr : ¬ Relation.ReflTransGen (childStep ch) c p) :
    AcyclicCh ch2 := by
  intro v hv
  rcases Relation.TransGen.tail'_iff.mp hv with ⟨w, hw1, hw2⟩
  have hdec := rtg_decompose (childStep ch) (childStep ch2) p c
    (fun a b hab => (hstep a b).mp hab) v w hw1
  rcases (hstep w v).mp hw2 with hlast | ⟨rfl, rfl⟩
  · rcases hdec with hvw | ⟨hvp, hcw⟩
    · exact hacy v (Relation.TransGen.tail' hvw hlast)
    · exact hnr (Relation.ReflTransGen.trans
        (Relation.ReflTransGen.tail hcw hlast) hvp)
  · rcases hdec with hvw | ⟨hvp, _⟩
    · exact hnr hvw
    · exact hnr hvp

/-- wouldCreateCycle with the standard fuel decides `p = c ∨ c ⇝ p`. -/
theorem wcc_iff_reach (g : DepGraph) (h : GraphWF g) (p c : String) (hc : c ∈ g.nodes) :
    (DepGraph_wouldCreateCycle g p c (graphFuel g) = true)
      ↔ (p = c ∨ Relation.ReflTransGen (childStep g.children) c p) := by
  unfold DepGraph_wouldCreateCycle
  by_cases hpc : p = c
  · simp [hpc]
  · rw [if_neg hpc]
    obtain ⟨rank, hgr, hbound⟩ := wf_rank g h
    have hB : ∀ v, ((g.children.lookup v).getD []).length < g.nodes.length + 2 := by
      intro v
      have := len_le_of_nodup_subset (childrenOf g v) g.nodes (h.chND v) (h.chClosed v)
      unfold childrenOf at this
      omega
    have hphi : phiStack rank (g.nodes.length + 2) [c] < graphFuel g := by
      apply phi_lt_graphFuel g rank _ hbound
      have := List.length_pos_of_mem hc
      simp
      omega
    rw [wccLoop_correct g.children p rank (g.nodes.length + 2) (by omega) hgr hB
      (graphFuel g) [c] hphi]
    constructor
    · rintro ⟨id, hid, hr⟩
      simp at hid
      exact Or.inr (hid ▸ hr)
    · rintro (hx | hr)
      · exact absurd hx hpc
      · exact ⟨c, by simp, hr⟩

/-- A self-loop or cycle-creating addEdge is rejected and leaves the
graph unchanged. -/
theorem addEdge_reject (g : DepGraph) (h : GraphWF g) (p c : String)
    (hcyc : p = c ∨ Relation.ReflTransGen (childStep g.children) c p) :
    DepGraph_addEdge g p c = (false, g) := by
  unfold DepGraph_addEdge
  by_cases hpc : p = c
  · rw [if_pos hpc]
  · rw [if_neg hpc]
    by_cases hmem : p ∈ g.nodes ∧ c ∈ g.nodes
    · rw [if_neg (not_not_intro hmem)]
      have hwcc : DepGraph_wouldCreateCycle g p c (graphFuel g) = true :=
        (wcc_iff_reach g h p c hmem.2).mpr hcyc
      rw [if_pos hwcc]
    · rw [if_pos hmem]

/-- The state addEdge builds just before the depth cascade (DepGraph.ts
lines 85-96): the new child/parent links plus the roots update. -/
def addEdgeMut (g : DepGraph) (p c : String) : DepGraph :=
  let ch := (g.children.lookup p).getD []
  let g1 := { g with children := updateAList p (fun _ => ch ++ [c]) g.children }
  let ps := (g1.parents.lookup c).getD []
  let g2 := { g1 with parents := updateAList c (fun _ => ps ++ [p]) g1.parents }
  if ps.isEmpty then { g2 with roots := g2.roots.filter (fun r => r ≠ c) } else g2

theorem addEdgeMut_nodes (g : DepGraph) (p c : String) :
    (addEdgeMut g p c).nodes = g.nodes := by
  by_cases hps : ((g.parents.lookup c).getD []).isEmpty = true <;>
    simp [addEdgeMut, hps]

theorem addEdgeMut_children (g : DepGraph) (p c : String) :
    (addEdgeMut g p c).children
      = updateAList p (fun _ => (childrenOf g p) ++ [c]) g.children := by
  by_cases hps : ((g.parents.lookup c).getD []).isEmpty = true <;>
    simp [addEdgeMut, childrenOf, hps]

theorem addEdgeMut_parents (g : DepGraph) (p c : String) :
    (addEdgeMut g p c).parents
      = updateAList c (fun _ => (parentsOf g c) ++ [p]) g.parents := by
  by_cases hps : ((g.parents.lookup c).getD []).isEmpty = true <;>
    simp [addEdgeMut, parentsOf, hps]

theorem addEdgeMut_depth (g : DepGraph) (p c : String) :
    (addEdgeMut g p c).depth = g.depth := by
  by_cases hps : ((g.parents.lookup c).getD []).isEmpty = true <;>
    simp [addEdgeMut, hps]

theorem addEdgeMut_roots (g : DepGraph) (p c : String) :
    (addEdgeMut g p c).roots
      = if (parentsOf g c).isEmpty then g.roots.filter (fun r => r ≠ c) else g.roots := by
  by_cases hps : ((g.parents.lookup c).getD []).isEmpty = true <;>
    simp [addEdgeMut, parentsOf, hps]

theorem addEdgeMut_WF (g : DepGraph) (h : GraphWF g) (p c : String)
    (hpc : p ≠ c) (hp : p ∈ g.nodes) (hc : c ∈ g.nodes)
    (hnr : ¬ Relation.ReflTransGen (childStep g.children) c p)
    (hchm : c ∉ childrenOf g p) :
    GraphWF (DepGraph_recomputeDepthCascade (addEdgeMut g p c) c
      (graphFuel (addEdgeMut g p c))) := by
  have hn := addEdgeMut_nodes g p c
  have hchd := addEdgeMut_children g p c
  have hpad := addEdgeMut_parents g p c
  have hdmd := addEdgeMut_depth g p c
  have hrts := addEdgeMut_roots g p c
  have hchl_p : (addEdgeMut g p c).children.lookup p = some (childrenOf g p ++ [c]) := by
    rw [hchd]
    exact lookup_updateAList_eq g.children p _
  have hchl_ne : ∀ v, v ≠ p → (addEdgeMut g p c).children.lookup v = g.children.lookup v := by
    intro v hv
    rw [hchd]
    exact lookup_updateAList_ne g.children p v _ hv
  have hpal_c : (addEdgeMut g p c).parents.lookup c = some (parentsOf g c ++ [p]) := by
    rw [hpad]
    exact lookup_updateAList_eq g.parents c _
  have hpal_ne : ∀ v, v ≠ c → (addEdgeMut g p c).parents.lookup v = g.parents.lookup v := by
    intro v hv
    rw [hpad]
    exact lookup_updateAList_ne g.parents c v _ hv
  have hcof : ∀ v, childrenOf (addEdgeMut g p c) v
      = if v = p then childrenOf g p ++ [c] else childrenOf g v := by
    intro v
    unfold childrenOf
    by_cases hv : v = p
    · rw [if_pos hv, hv, hchl_p]; rfl
    · rw [if_neg hv, hchl_ne v hv]
  have hpof : ∀ v, parentsOf (addEdgeMut g p c) v
      = if v = c then parentsOf g c ++ [p] else parentsOf g v := by
    intro v
    unfold parentsOf
    by_cases hv : v = c
    · rw [if_pos hv, hv, hpal_c]; rfl
    · rw [if_neg hv, hpal_ne v hv]
  have hpnotin : p ∉ parentsOf g c := by
    intro hmem
    exact hchm ((h.mirror p c).mpr hmem)
  apply recompute_WF
  · rw [hn]; exact h.nodesND
  · rw [hchd, hn]
    rw [keysOf_updateAList_mem g.children p _ (by rw [h.chKeys]; exact hp)]
    exact h.chKeys
  · rw [hpad, hn]
    rw [keysOf_updateAList_mem g.parents c _ (by rw [h.paKeys]; exact hc)]
    exact h.paKeys
  · rw [hdmd, hn]; exact h.dmKeys
  · intro v
    rw [hcof v]
    by_cases hv : v = p
    · rw [if_pos hv]
      simp only [List.nodup_append]
      refine ⟨h.chND p, by simp, ?_⟩
      intro a ha hax
      simp at hax
      exact hchm (hax ▸ ha)
    · rw [if_neg hv]; exact h.chND v
  · intro v x hx
    rw [hn]
    rw [hcof v] at hx
    by_cases hv : v = p
    · rw [if_pos hv] at hx
      rcases List.mem_append.mp hx with hx | hx
      · exact h.chClosed p x hx
      · simp at hx
        exact hx ▸ hc
    · rw [if_neg hv] at hx
      exact h.chClosed v x hx
  · intro v
    rw [hpof v]
    by_cases hv : v = c
    · rw [if_pos hv]
      simp only [List.nodup_append]
      refine ⟨h.paND c, by simp, ?_⟩
      intro a ha hax
      simp at hax
      exact hpnotin (hax ▸ ha)
    · rw [if_neg hv]; exact h.paND v
  · intro v x hx
    rw [hn]
    rw [hpof v] at hx
    by_cases hv : v = c
    · rw [if_pos hv] at hx
      rcases List.mem_append.mp hx with hx | hx
      · exact h.paClosed c x hx
      · simp at hx
        exact hx ▸ hp
    · rw [if_neg hv] at hx
      exact h.paClosed v x hx
  · intro q d
    rw [hcof q, hpof d]
    by_cases hq : q = p
    · rw [if_pos hq]
      by_cases hd : d = c
      · rw [if_pos hd]
        constructor
        · intro _
          exact List.mem_append.mpr (Or.inr (by simp [hq]))
        · intro _
          exact List.mem_append.mpr (Or.inr (by simp [hd]))
      · rw [if_neg hd]
        constructor
        · intro hx
          rcases List.mem_append.mp hx with hx | hx
          · exact (h.mirror q d).mp (hq ▸ hx)
          · simp at hx
            exact absurd hx hd
        · intro hx
          exact List.mem_append.mpr (Or.inl (hq ▸ (h.mirror q d).mpr hx))
    · rw [if_neg hq]
      by_cases hd : d = c
      · rw [if_pos hd]
        constructor
        · intro hx
          exact List.mem_append.mpr (Or.inl (hd ▸ (h.mirror q d).mp hx))
        · intro hx
          rcases List.mem_append.mp hx with hx | hx
          · exact (h.mirror q d).mpr (hd ▸ hx)
          · simp at hx
            exact absurd hx hq
      · rw [if_neg hd]
        exact h.mirror q d
  · rw [hrts]
    by_cases hps : (parentsOf g c).isEmpty = true
    · rw [if_pos hps]
      exact h.rootsND.filter _
    · rw [if_neg hps]
      exact h.rootsND
  · intro r
    rw [hrts, hn, hpof r]
    by_cases hr : r = c
    · rw [if_pos hr]
      by_cases hps : (parentsOf g c).isEmpty = true
      · rw [if_pos hps]
        simp only [List.mem_filter, hr]
        constructor
        · rintro ⟨_, habs⟩
          simp at habs
        · rintro ⟨_, habs⟩
          simp at habs
      · rw [if_neg hps]
        constructor
        · intro hmem
          have := ((h.rootsChar r).mp hmem).2
          rw [hr] at this
          rw [List.isEmpty_iff] at hps
          exact absurd this hps
        · rintro ⟨_, habs⟩
          simp at habs
    · rw [if_neg hr]
      by_cases hps : (parentsOf g c).isEmpty = true
      · rw [if_pos hps]
        rw [List.mem_filter]
        constructor
        · rintro ⟨hmem, _⟩
          exact (h.rootsChar r).mp hmem
        · intro hx
          exact ⟨(h.rootsChar r).mpr hx, by simp [hr]⟩
      · rw [if_neg hps]
        exact h.rootsChar r
  · apply acyclic_add_edge g.children (addEdgeMut g p c).children p c _ h.acyclic hnr
    intro a b
    unfold childStep
    by_cases ha : a = p
    · rw [ha, hchl_p]
      simp only [Option.getD_some, List.mem_append, List.mem_singleton]
      constructor
      · rintro (hb | rfl)
        · exact Or.inl hb
        · exact Or.inr (by simp)
      · rintro (hb | hcon)
        · exact Or.inl hb
        · exact Or.inr hcon.2
    · rw [hchl_ne a ha]
      constructor
      · intro hb
        exact Or.inl hb
      · rintro (hb | ⟨rfl, _⟩)
        · exact hb
        · exact absurd rfl ha
  · rw [hn]; exact hc
  · intro v hv
    unfold depthOkAt
    rw [hdmd]
    have hcalc : DepGraph_calcDepth (addEdgeMut g p c).parents g.depth v
        = DepGraph_calcDepth g.parents g.depth v := by
      apply calcDepth_ext
      · exact hpal_ne v hv
      · intro q _
        rfl
    rw [hcalc]
    exact h.depthOk v

theorem addEdge_WF (g : DepGraph) (h : GraphWF g) (p c : String) :
    GraphWF (DepGraph_addEdge g p c).2 := by
  by_cases hpc : p = c
  · have hre : DepGraph_addEdge g p c = (false, g) := by
      unfold DepGraph_addEdge
      rw [if_pos hpc]
    rw [hre]
    exact h
  · by_cases hmem : p ∈ g.nodes ∧ c ∈ g.nodes
    · by_cases hwcc : DepGraph_wouldCreateCycle g p c (graphFuel g) = true
      · have hre : DepGraph_addEdge g p c = (false, g) := by
          unfold DepGraph_addEdge
          rw [if_neg hpc, if_neg (not_not_intro hmem), if_pos hwcc]
        rw [hre]
        exact h
      · have hnr : ¬ Relation.ReflTransGen (childStep g.children) c p := by
          intro hr
          exact hwcc ((wcc_iff_reach g h p c hmem.2).mpr (Or.inr hr))
        by_cases hchm : c ∈ (g.children.lookup p).getD []
        · have hre : DepGraph_addEdge g p c = (true, g) := by
            unfold DepGraph_addEdge
            rw [if_neg hpc, if_neg (not_not_intro hmem), if_neg hwcc]
            simp [hchm]
          rw [hre]
          exact h
        · have hre : (DepGraph_addEdge g p c).2
              = DepGraph_recomputeDepthCascade (addEdgeMut g p c) c
                (graphFuel (addEdgeMut g p c)) := by
            unfold DepGraph_addEdge addEdgeMut
            rw [if_neg hpc, if_neg (not_not_intro hmem), if_neg hwcc]
            simp [hchm]
          rw [hre]
          exact addEdgeMut_WF g h p c hpc hmem.1 hmem.2 hnr
            (by unfold childrenOf; exact hchm)
    · have hre : DepGraph_addEdge g p c = (false, g) := by
        unfold DepGraph_addEdge
        rw [if_neg hpc, if_pos hmem]
      rw [hre]
      exact h

/-- The state removeEdge builds just before the depth cascade
(DepGraph.ts lines 101-108). -/
def removeEdgeMut (g : DepGraph) (p c : String) : DepGraph :=
  let ch := (g.children.lookup p).getD []
  let g1 := { g with children := updateAList p (fun _ => ch.filter (fun x => x ≠ c)) g.children }
  let ps := ((g1.parents.lookup c).getD []).filter (fun x => x ≠ p)
  let g2 := { g1 with parents := updateAList c (fun _ => ps) g1.parents }
  if ps.isEmpty then { g2 with roots := addUnique g2.roots c } else g2

theorem removeEdgeMut_nodes (g : DepGraph) (p c : String) :
    (removeEdgeMut g p c).nodes = g.nodes := by
  simp only [removeEdgeMut]
  by_cases hps : (((g.parents.lookup c).getD []).filter (fun x => x ≠ p)).isEmpty = true
  · rw [if_pos hps]
  · rw [if_neg hps]

theorem removeEdgeMut_children (g : DepGraph) (p c : String) :
    (removeEdgeMut g p c).children
      = updateAList p (fun _ => (childrenOf g p).filter (fun x => x ≠ c)) g.children := by
  unfold childrenOf
  simp only [removeEdgeMut]
  by_cases hps : (((g.parents.lookup c).getD []).filter (fun x => x ≠ p)).isEmpty = true
  · rw [if_pos hps]
  · rw [if_neg hps]

theorem removeEdgeMut_parents (g : DepGraph) (p c : String) :
    (removeEdgeMut g p c).parents
      = updateAList c (fun _ => (parentsOf g c).filter (fun x => x ≠ p)) g.parents := by
  unfold parentsOf
  simp only [removeEdgeMut]
  by_cases hps : (((g.parents.lookup c).getD []).filter (fun x => x ≠ p)).isEmpty = true
  · rw [if_pos hps]
  · rw [if_neg hps]

theorem removeEdgeMut_depth (g : DepGraph) (p c : String) :
    (removeEdgeMut g p c).depth = g.depth := by
  simp only [removeEdgeMut]
  by_cases hps : (((g.parents.lookup c).getD []).filter (fun x => x ≠ p)).isEmpty = true
  · rw [if_pos hps]
  · rw [if_neg hps]

theorem removeEdgeMut_roots (g : DepGraph) (p c : String) :
    (removeEdgeMut g p c).roots
      = if ((parentsOf g c).filter (fun x => x ≠ p)).isEmpty
        then addUnique g.roots c else g.roots := by
  unfold parentsOf
  simp only [removeEdgeMut]
  by_cases hps : (((g.parents.lookup c).getD []).filter (fun x => x ≠ p)).isEmpty = true
  · rw [if_pos hps, if_pos hps]
  · rw [if_neg hps, if_neg hps]

theorem removeEdgeMut_WF (g : DepGraph) (h : GraphWF g) (p c : String)
    (hchm : c ∈ childrenOf g p) :
    GraphWF (DepGraph_recomputeDepthCascade (removeEdgeMut g p c) c
      (graphFuel (removeEdgeMut g p c))) := by
  have hp : p ∈ g.nodes := by
    rw [← h.chKeys]
    unfold childrenOf at hchm
    rcases hl : g.children.lookup p with _ | l
    · rw [hl] at hchm; simp at hchm
    · exact mem_keys_of_lookup_some hl
  have hc : c ∈ g.nodes := h.chClosed p c hchm
  have hn := removeEdgeMut_nodes g p c
  have hchd := removeEdgeMut_children g p c
  have hpad := removeEdgeMut_parents g p c
  have hdmd := removeEdgeMut_depth g p c
  have hrts := removeEdgeMut_roots g p c
  have hcof : ∀ v, childrenOf (removeEdgeMut g p c) v
      = if v = p then (childrenOf g p).filter (fun x => x ≠ c) else childrenOf g v := by
    intro v
    unfold childrenOf
    rw [hchd]
    by_cases hv : v = p
    · rw [if_pos hv, hv, lookup_updateAList_eq g.children p _]
      rfl
    · rw [if_neg hv, lookup_updateAList_ne g.children p v _ hv]
  have hpof : ∀ v, parentsOf (removeEdgeMut g p c) v
      = if v = c then (parentsOf g c).filter (fun x => x ≠ p) else parentsOf g v := by
    intro v
    unfold parentsOf
    rw [hpad]
    by_cases hv : v = c
    · rw [if_pos hv, hv, lookup_updateAList_eq g.parents c _]
      rfl
    · rw [if_neg hv, lookup_updateAList_ne g.parents c v _ hv]
  apply recompute_WF
  · rw [hn]; exact h.nodesND
  · rw [hchd, hn]
    rw [keysOf_updateAList_mem g.children p _ (by rw [h.chKeys]; exact hp)]
    exact h.chKeys
  · rw [hpad, hn]
    rw [keysOf_updateAList_mem g.parents c _ (by rw [h.paKeys]; exact hc)]
    exact h.paKeys
  · rw [hdmd, hn]; exact h.dmKeys
  · intro v
    rw [hcof v]
    by_cases hv : v = p
    · rw [if_pos hv]
      exact (h.chND p).filter _
    · rw [if_neg hv]; exact h.chND v
  · intro v x hx
    rw [hn]
    rw [hcof v] at hx
    by_cases hv : v = p
    · rw [if_pos hv] at hx
      exact h.chClosed p x (List.mem_of_mem_filter hx)
    · rw [if_neg hv] at hx
      exact h.chClosed v x hx
  · intro v
    rw [hpof v]
    by_cases hv : v = c
    · rw [if_pos hv]
      exact (h.paND c).filter _
    · rw [if_neg hv]; exact h.paND v
  · intro v x hx
    rw [hn]
    rw [hpof v] at hx
    by_cases hv : v = c
    · rw [if_pos hv] at hx
      exact h.paClosed c x (List.mem_of_mem_filter hx)
    · rw [if_neg hv] at hx
      exact h.paClosed v x hx
  · intro q d
    rw [hcof q, hpof d]
    by_cases hq : q = p
    · rw [if_pos hq]
      by_cases hd : d = c
      · rw [if_pos hd]
        rw [hq, hd]
        simp [List.mem_filter]
      · rw [if_neg hd]
        rw [List.mem_filter]
        constructor
        · rintro ⟨hmem, _⟩
          exact (h.mirror q d).mp (hq ▸ hmem)
        · intro hmem
          refine ⟨hq ▸ (h.mirror q d).mpr hmem, by simp [hd]⟩
    · rw [if_neg hq]
      by_cases hd : d = c
      · rw [if_pos hd]
        rw [List.mem_filter]
        constructor
        · intro hmem
          have h1 : q ∈ parentsOf g d := (h.mirror q d).mp hmem
          exact ⟨hd ▸ h1, by simp [hq]⟩
        · rintro ⟨hmem, _⟩
          have h1 : q ∈ parentsOf g d := hd.symm ▸ hmem
          exact (h.mirror q d).mpr h1
      · rw [if_neg hd]
        exact h.mirror q d
  · rw [hrts]
    by_cases hps : ((parentsOf g c).filter (fun x => x ≠ p)).isEmpty = true
    · rw [if_pos hps]
      exact addUnique_nodup _ _ h.rootsND
    · rw [if_neg hps]
      exact h.rootsND
  · intro r
    rw [hrts, hn, hpof r]
    by_cases hr : r = c
    · rw [if_pos hr]
      by_cases hps : ((parentsOf g c).filter (fun x => x ≠ p)).isEmpty = true
      · rw [if_pos hps]
        rw [List.isEmpty_iff] at hps
        constructor
        · intro _
          exact ⟨hr ▸ hc, hr ▸ hps⟩
        · intro _
          rw [mem_addUnique]
          exact Or.inr hr
      · rw [if_neg hps]
        rw [List.isEmpty_iff] at hps
        constructor
        · intro hmem
          have h2 := ((h.rootsChar r).mp hmem).2
          have : (parentsOf g c).filter (fun x => x ≠ p) = [] := by
            rw [← hr, h2]
            rfl
          exact absurd this hps
        · rintro ⟨_, h2⟩
          exact absurd (hr ▸ h2) hps
    · rw [if_neg hr]
      by_cases hps : ((parentsOf g c).filter (fun x => x ≠ p)).isEmpty = true
      · rw [if_pos hps]
        rw [mem_addUnique]
        constructor
        · rintro (hmem | hcon)
          · exact (h.rootsChar r).mp hmem
          · exact absurd hcon hr
        · intro hx
          exact Or.inl ((h.rootsChar r).mpr hx)
      · rw [if_neg hps]
        exact h.rootsChar r
  · apply acyclic_mono _ h.acyclic
    intro a b hab
    unfold childStep at hab ⊢
    have hab2 : b ∈ childrenOf (removeEdgeMut g p c) a := hab
    rw [hcof a] at hab2
    by_cases ha : a = p
    · rw [if_pos ha] at hab2
      exact ha ▸ List.mem_of_mem_filter hab2
    · rw [if_neg ha] at hab2
      exact hab2
  · rw [hn]; exact hc
  · intro v hv
    unfold depthOkAt
    rw [hdmd]
    have hcalc : DepGraph_calcDepth (removeEdgeMut g p c).parents g.depth v
        = DepGraph_calcDepth g.parents g.depth v := by
      apply calcDepth_ext
      · rw [hpad]
        exact lookup_updateAList_ne g.parents c v _ hv
      · intro q _
        rfl
    rw [hcalc]
    exact h.depthOk v

theorem removeEdge_WF (g : DepGraph) (h : GraphWF g) (p c : String) :
    GraphWF (DepGraph_removeEdge g p c) := by
  rcases hl : g.children.lookup p with _ | ch
  · have hre : DepGraph_removeEdge g p c = g := by
      unfold DepGraph_removeEdge
      rw [hl]
    rw [hre]
    exact h
  · by_cases hchm : c ∈ ch
    · have hre : DepGraph_removeEdge g p c
          = DepGraph_recomputeDepthCascade (removeEdgeMut g p c) c
            (graphFuel (removeEdgeMut g p c)) := by
        unfold DepGraph_removeEdge removeEdgeMut
        rw [hl]
        simp [hchm, hl]
      rw [hre]
      apply removeEdgeMut_WF g h p c
      unfold childrenOf
      rw [hl]
      exact hchm
    · have hre : DepGraph_removeEdge g p c = g := by
        unfold DepGraph_removeEdge
        rw [hl]
        simp [hchm]
      rw [hre]
      exact h

theorem filter_idem {α : Type} (pr : α → Bool) (l : List α) :
    (l.filter pr).filter pr = l.filter pr := by
  rw [List.filter_filter]
  apply List.filter_congr
  intro a _
  exact Bool.and_self _

/-- The parents-loop of removeNode (DepGraph.ts lines 40-45) only rewrites
entries at keys it visits, so the key set is stable. -/
theorem foldl_removeChild_keys (id : String) (ps : List String)
    (chm : List (String × List String)) (hks : ∀ p ∈ ps, p ∈ keysOf chm) :
    keysOf (ps.foldl (fun chm2 p =>
      updateAList p (fun cur => (cur.getD []).filter (fun x => x ≠ id)) chm2) chm)
      = keysOf chm := by
  induction ps generalizing chm with
  | nil => rfl
  | cons q qs ih =>
    simp only [List.foldl_cons]
    have hk : keysOf (updateAList q
        (fun cur => (cur.getD []).filter (fun x => x ≠ id)) chm) = keysOf chm :=
      keysOf_updateAList_mem chm q _ (hks q (by simp))
    rw [ih _ (fun p hp => by rw [hk]; exact hks p (by simp [hp]))]
    exact hk

theorem foldl_removeChild_getD (id : String) (ps : List String)
    (chm : List (String × List String)) (v : String) :
    (((ps.foldl (fun chm2 p =>
        updateAList p (fun cur => (cur.getD []).filter (fun x => x ≠ id)) chm2) chm).lookup
        v).getD [])
      = if v ∈ ps then ((chm.lookup v).getD []).filter (fun x => x ≠ id)
        else (chm.lookup v).getD [] := by
  induction ps generalizing chm with
  | nil => simp
  | cons q qs ih =>
    simp only [List.foldl_cons]
    rw [ih]
    by_cases hq : v = q
    · have hlk : ((updateAList q
          (fun cur => (cur.getD []).filter (fun x => x ≠ id)) chm).lookup v).getD []
          = ((chm.lookup v).getD []).filter (fun x => x ≠ id) := by
        rw [hq, lookup_updateAList_eq chm q _]
        rfl
      by_cases hqs : v ∈ qs
      · rw [if_pos hqs, if_pos (by simp [hq]), hlk, filter_idem]
      · rw [if_neg hqs, if_pos (by simp [hq]), hlk]
    · have hlk : (updateAList q
          (fun cur => (cur.getD []).filter (fun x => x ≠ id)) chm).lookup v
          = chm.lookup v := lookup_updateAList_ne chm q v _ hq
      by_cases hqs : v ∈ qs
      · rw [if_pos hqs, if_pos (by simp [hqs]), hlk]
      · rw [if_neg hqs, if_neg (by simp [hq, hqs]), hlk]

theorem recompute_proj (g : DepGraph) (s : String) (f : Nat) :
    (DepGraph_recomputeDepthCascade g s f).nodes = g.nodes ∧
    (DepGraph_recomputeDepthCascade g s f).children = g.children ∧
    (DepGraph_recomputeDepthCascade g s f).parents = g.parents ∧
    (DepGraph_recomputeDepthCascade g s f).roots = g.roots := by
  by_cases hc : DepGraph_calcDepth g.parents g.depth s = (g.depth.lookup s).getD 0
  · simp [DepGraph_recomputeDepthCascade, hc]
  · simp [DepGraph_recomputeDepthCascade, hc]

/-- One iteration of removeNode's child loop (DepGraph.ts lines 48-55). -/
def removeNodeStep (id : String) (acc : DepGraph) (chId : String) : DepGraph :=
  let ps := ((acc.parents.lookup chId).getD []).filter (fun x => x ≠ id)
  let acc1 := { acc with parents := updateAList chId (fun _ => ps) acc.parents }
  let acc2 := if ps.isEmpty then { acc1 with roots := addUnique acc1.roots chId } else acc1
  DepGraph_recomputeDepthCascade acc2 chId (graphFuel acc2)

theorem removeNodeStep_nodes (id : String) (acc : DepGraph) (chId : String) :
    (removeNodeStep id acc chId).nodes = acc.nodes := by
  simp only [removeNodeStep]
  by_cases hps : (((acc.parents.lookup chId).getD []).filter (fun x => x ≠ id)).isEmpty = true
  · rw [if_pos hps]
    exact (recompute_proj _ _ _).1
  · rw [if_neg hps]
    exact (recompute_proj _ _ _).1

theorem removeNodeStep_children (id : String) (acc : DepGraph) (chId : String) :
    (removeNodeStep id acc chId).children = acc.children := by
  simp only [removeNodeStep]
  by_cases hps : (((acc.parents.lookup chId).getD []).filter (fun x => x ≠ id)).isEmpty = true
  · rw [if_pos hps]
    exact (recompute_proj _ _ _).2.1
  · rw [if_neg hps]
    exact (recompute_proj _ _ _).2.1

theorem removeNodeStep_parents (id : String) (acc : DepGraph) (chId : String) :
    (removeNodeStep id acc chId).parents
      = updateAList chId
        (fun _ => (parentsOf acc chId).filter (fun x => x ≠ id)) acc.parents := by
  unfold parentsOf
  simp only [removeNodeStep]
  by_cases hps : (((acc.parents.lookup chId).getD []).filter (fun x => x ≠ id)).isEmpty = true
  · rw [if_pos hps]
    exact (recompute_proj _ _ _).2.2.1
  · rw [if_neg hps]
    exact (recompute_proj _ _ _).2.2.1

theorem removeNodeStep_roots (id : String) (acc : DepGraph) (chId : String) :
    (removeNodeStep id acc chId).roots
      = if ((parentsOf acc chId).filter (fun x => x ≠ id)).isEmpty
        then addUnique acc.roots chId else acc.roots := by
  unfold parentsOf
  simp only [removeNodeStep]
  by_cases hps : (((acc.parents.lookup chId).getD []).filter (fun x => x ≠ id)).isEmpty = true
  · rw [if_pos hps, if_pos hps]
    exact (recompute_proj _ _ _).2.2.2
  · rw [if_neg hps, if_neg hps]
    exact (recompute_proj _ _ _).2.2.2

/-- Invariant carried through removeNode's child loop: `g` is the graph
before the removal, `gch` the children map with `id` already scrubbed
from its parents' lists, `todo` the children of `id` still to process. -/
structure RNInv (g : DepGraph) (gch : List (String × List String)) (id : String)
    (todo : List String) (acc : DepGraph) : Prop where
  nodesEq : acc.nodes = g.nodes
  chEq : acc.children = gch
  paKeys : keysOf acc.parents = g.nodes
  dmKeys : keysOf acc.depth = g.nodes
  paND : ∀ v, (parentsOf acc v).Nodup
  paCl : ∀ v q, q ∈ parentsOf acc v → q ∈ g.nodes
  todoPar : ∀ w, w ∈ todo → parentsOf acc w = parentsOf g w
  donePar : ∀ w, w ∉ todo → id ∉ parentsOf acc w
  parIff : ∀ w v, v ≠ id → (v ∈ parentsOf acc w ↔ v ∈ parentsOf g w)
  rootsND : acc.roots.Nodup
  rootsCh : ∀ r, r ∈ acc.roots ↔ (r ∈ g.nodes ∧ parentsOf acc r = [])
  dOk : ∀ v, v ≠ id → depthOkAt acc.parents acc.depth v

theorem removeNodeStep_core (g : DepGraph) (gch : List (String × List String)) (id : String)
    (hgWF : GraphWF g)
    (hgchKeys : keysOf gch = g.nodes)
    (hgchND : ∀ v, ((gch.lookup v).getD []).Nodup)
    (hgchCl : ∀ v c, c ∈ (gch.lookup v).getD [] → c ∈ g.nodes)
    (hgchAcy : AcyclicCh gch)
    (hgchId : (gch.lookup id).getD [] = childrenOf g id)
    (hmirrCh : ∀ w v, w ≠ id → v ∈ parentsOf g w → w ∈ (gch.lookup v).getD [])
    (chId : String) (todo : List String) (acc : DepGraph)
    (hchIdn : chId ∈ g.nodes) (hchIdne : chId ≠ id) (hnotodo : chId ∉ todo)
    (hinv : RNInv g gch id (chId :: todo) acc)
    (acc2 : DepGraph)
    (h2n : acc2.nodes = acc.nodes)
    (h2c : acc2.children = acc.children)
    (h2p : acc2.parents = updateAList chId
      (fun _ => (parentsOf acc chId).filter (fun x => x ≠ id)) acc.parents)
    (h2d : acc2.depth = acc.depth)
    (h2rnd : acc2.roots.Nodup)
    (h2rch : ∀ r, r ∈ acc2.roots ↔ (r ∈ g.nodes ∧ parentsOf acc2 r = [])) :
    RNInv g gch id todo
      (DepGraph_recomputeDepthCascade acc2 chId (graphFuel acc2)) := by
  have hpacc : parentsOf acc chId = parentsOf g chId := hinv.todoPar chId (by simp)
  have hpof2 : ∀ v, parentsOf acc2 v
      = if v = chId then (parentsOf acc chId).filter (fun x => x ≠ id)
        else parentsOf acc v := by
    intro v
    unfold parentsOf
    rw [h2p]
    by_cases hv : v = chId
    · rw [if_pos hv, hv, lookup_updateAList_eq acc.parents chId _]
      rfl
    · rw [if_neg hv, lookup_updateAList_ne acc.parents chId v _ hv]
  obtain ⟨rank, hgr, hbound⟩ := rank_of_parts gch g.nodes hgchKeys hgchCl hgchAcy
  have hgr2 : ∀ a b, childStep acc2.children a b → rank b < rank a := by
    intro a b hab
    apply hgr
    unfold childStep at hab ⊢
    rw [h2c, hinv.chEq] at hab
    exact hab
  have hB2 : ∀ v, ((acc2.children.lookup v).getD []).length < acc2.nodes.length + 2 := by
    intro v
    rw [h2c, hinv.chEq, h2n, hinv.nodesEq]
    have := len_le_of_nodup_subset ((gch.lookup v).getD []) g.nodes (hgchND v) (hgchCl v)
    omega
  have hbound2 : ∀ v, rank v ≤ acc2.nodes.length + 1 := by
    intro v
    rw [h2n, hinv.nodesEq]
    exact hbound v
  have hmirror2 : ∀ w v, ¬(w = id) → v ∈ (acc2.parents.lookup w).getD []
      → w ∈ (acc2.children.lookup v).getD [] := by
    intro w v hwid hv
    have hv2 : v ∈ parentsOf acc2 w := hv
    rw [hpof2 w] at hv2
    have hgoal : w ∈ (gch.lookup v).getD [] → w ∈ (acc2.children.lookup v).getD [] := by
      intro hx
      have : w ∈ (acc2.children.lookup v).getD [] := by
        rw [h2c, hinv.chEq]
        exact hx
      exact this
    apply hgoal
    by_cases hw : w = chId
    · rw [if_pos hw] at hv2
      rw [List.mem_filter] at hv2
      obtain ⟨hv3, hv4⟩ := hv2
      rw [hpacc] at hv3
      exact hw ▸ hmirrCh chId v hchIdne (hw ▸ hv3)
    · rw [if_neg hw] at hv2
      by_cases hvid : v = id
      · subst hvid
        by_cases hwt : w ∈ chId :: todo
        · rw [hinv.todoPar w hwt] at hv2
          have := (hgWF.mirror v w).mpr hv2
          rw [← hgchId] at this
          exact this
        · exact absurd hv2 (hinv.donePar w hwt)
      · have := (hinv.parIff w v hvid).mp hv2
        exact hmirrCh w v hwid this
  have hsk2 : chId ∈ keysOf acc2.depth := by
    rw [h2d, hinv.dmKeys]
    exact hchIdn
  have hck2 : ∀ a c, c ∈ (acc2.children.lookup a).getD [] → c ∈ keysOf acc2.depth := by
    intro a c hc
    rw [h2d, hinv.dmKeys]
    rw [h2c, hinv.chEq] at hc
    exact hgchCl a c hc
  have hphi2 : phiStack rank (acc2.nodes.length + 2) ((acc2.children.lookup chId).getD [])
      < graphFuel acc2 := by
    apply phi_lt_graphFuel acc2 rank _ hbound2
    rw [h2c, hinv.chEq, h2n, hinv.nodesEq]
    exact len_le_of_nodup_subset _ g.nodes (hgchND chId) (hgchCl chId)
  have hpre2 : ∀ v, ¬(v = id) → v ≠ chId → depthOkAt acc2.parents acc2.depth v := by
    intro v hvid hvch
    unfold depthOkAt
    rw [h2d]
    have hcalc : DepGraph_calcDepth acc2.parents acc.depth v
        = DepGraph_calcDepth acc.parents acc.depth v := by
      apply calcDepth_ext
      · rw [h2p]
        exact lookup_updateAList_ne acc.parents chId v _ hvch
      · intro q _
        rfl
    rw [hcalc]
    exact hinv.dOk v hvid
  have hspec := recompute_spec acc2 chId (graphFuel acc2) rank (acc2.nodes.length + 2)
    (by omega) hgr2 hB2 (fun w => w = id) hmirror2 hchIdne hsk2 hck2 hphi2 hpre2
  obtain ⟨hn3, hch3, hpa3, hro3, hdk3, hdo3⟩ := hspec
  have hpofr : ∀ v, parentsOf (DepGraph_recomputeDepthCascade acc2 chId (graphFuel acc2)) v
      = parentsOf acc2 v := by
    intro v
    unfold parentsOf
    rw [hpa3]
  refine ⟨?_, ?_, ?_, ?_, ?_, ?_, ?_, ?_, ?_, ?_, ?_, ?_⟩
  · rw [hn3, h2n, hinv.nodesEq]
  · rw [hch3, h2c, hinv.chEq]
  · rw [hpa3, h2p]
    rw [keysOf_updateAList_mem acc.parents chId _ (by rw [hinv.paKeys]; exact hchIdn)]
    exact hinv.paKeys
  · rw [hdk3, h2d]
    exact hinv.dmKeys
  · intro v
    rw [hpofr v, hpof2 v]
    by_cases hv : v = chId
    · rw [if_pos hv]
      exact (hinv.paND chId).filter _
    · rw [if_neg hv]
      exact hinv.paND v
  · intro v q hq
    rw [hpofr v, hpof2 v] at hq
    by_cases hv : v = chId
    · rw [if_pos hv] at hq
      exact hinv.paCl chId q (List.mem_of_mem_filter hq)
    · rw [if_neg hv] at hq
      exact hinv.paCl v q hq
  · intro w hw
    rw [hpofr w, hpof2 w]
    have hwch : w ≠ chId := fun he => hnotodo (he ▸ hw)
    rw [if_neg hwch]
    exact hinv.todoPar w (by simp [hw])
  · intro w hw
    rw [hpofr w, hpof2 w]
    by_cases hwch : w = chId
    · rw [if_pos hwch]
      intro hmem
      rw [List.mem_filter] at hmem
      simp at hmem
    · rw [if_neg hwch]
      apply hinv.donePar w
      intro hmem
      rcases List.mem_cons.mp hmem with h1 | h1
      · exact hwch h1
      · exact hw h1
  · intro w v hvid
    rw [hpofr w, hpof2 w]
    by_cases hwch : w = chId
    · rw [if_pos hwch]
      rw [List.mem_filter]
      constructor
      · rintro ⟨hmem, _⟩
        rw [hpacc] at hmem
        exact hwch ▸ hmem
      · intro hmem
        refine ⟨by rw [hpacc]; exact hwch ▸ hmem, by simp [hvid]⟩
    · rw [if_neg hwch]
      exact hinv.parIff w v hvid
  · rw [hro3]
    exact h2rnd
  · intro r
    rw [hro3, hpofr r]
    exact h2rch r
  · intro v hvid
    have := hdo3 v hvid
    unfold depthOkAt at this ⊢
    rw [hpa3]
    exact this

theorem removeNodeStep_inv (g : DepGraph) (gch : List (String × List String)) (id : String)
    (hgWF : GraphWF g)
    (hgchKeys : keysOf gch = g.nodes)
    (hgchND : ∀ v, ((gch.lookup v).getD []).Nodup)
    (hgchCl : ∀ v c, c ∈ (gch.lookup v).getD [] → c ∈ g.nodes)
    (hgchAcy : AcyclicCh gch)
    (hgchId : (gch.lookup id).getD [] = childrenOf g id)
    (hmirrCh : ∀ w v, w ≠ id → v ∈ parentsOf g w → w ∈ (gch.lookup v).getD [])
    (chId : String) (todo : List String) (acc : DepGraph)
    (hchIdn : chId ∈ g.nodes) (hchIdne : chId ≠ id) (hnotodo : chId ∉ todo)
    (hinv : RNInv g gch id (chId :: todo) acc) :
    RNInv g gch id todo (removeNodeStep id acc chId) := by
  have hpacc : parentsOf acc chId = parentsOf g chId := hinv.todoPar chId (by simp)
  by_cases hps : (((acc.parents.lookup chId).getD []).filter (fun x => x ≠ id)).isEmpty = true
  · have hres : removeNodeStep id acc chId
        = DepGraph_recomputeDepthCascade
          { nodes := acc.nodes, children := acc.children,
            parents := updateAList chId
              (fun _ => ((acc.parents.lookup chId).getD []).filter (fun x => x ≠ id))
              acc.parents,
            depth := acc.depth, roots := addUnique acc.roots chId }
          chId (graphFuel
            { nodes := acc.nodes, children := acc.children,
              parents := updateAList chId
                (fun _ => ((acc.parents.lookup chId).getD []).filter (fun x => x ≠ id))
                acc.parents,
              depth := acc.depth, roots := addUnique acc.roots chId }) := by
      simp only [removeNodeStep]
      rw [if_pos hps]
    rw [hres]
    have hpsnil : (parentsOf acc chId).filter (fun x => x ≠ id) = [] := by
      rw [List.isEmpty_iff] at hps
      exact hps
    apply removeNodeStep_core g gch id hgWF hgchKeys hgchND hgchCl hgchAcy hgchId hmirrCh
      chId todo acc hchIdn hchIdne hnotodo hinv
      { nodes := acc.nodes, children := acc.children,
        parents := updateAList chId
          (fun _ => ((acc.parents.lookup chId).getD []).filter (fun x => x ≠ id))
          acc.parents,
        depth := acc.depth, roots := addUnique acc.roots chId }
      rfl rfl rfl rfl
      (addUnique_nodup _ _ hinv.rootsND)
    intro r
    rw [mem_addUnique]
    have hpof : parentsOf
        { nodes := acc.nodes, children := acc.children,
          parents := updateAList chId
            (fun _ => ((acc.parents.lookup chId).getD []).filter (fun x => x ≠ id))
            acc.parents,
          depth := acc.depth, roots := addUnique acc.roots chId } r
        = if r = chId then (parentsOf acc chId).filter (fun x => x ≠ id)
          else parentsOf acc r := by
      unfold parentsOf
      by_cases hv : r = chId
      · rw [if_pos hv, hv]
        show (((updateAList chId _ acc.parents).lookup chId).getD []) = _
        rw [lookup_updateAList_eq acc.parents chId _]
        rfl
      · rw [if_neg hv]
        show (((updateAList chId _ acc.parents).lookup r).getD []) = _
        rw [lookup_updateAList_ne acc.parents chId r _ hv]
    rw [hpof]
    by_cases hr : r = chId
    · rw [if_pos hr]
      constructor
      · intro _
        exact ⟨hr ▸ hchIdn, hpsnil⟩
      · intro _
        exact Or.inr hr
    · rw [if_neg hr]
      constructor
      · rintro (hmem | hcon)
        · exact (hinv.rootsCh r).mp hmem
        · exact absurd hcon hr
      · intro hx
        exact Or.inl ((hinv.rootsCh r).mpr hx)
  · have hres : removeNodeStep id acc chId
        = DepGraph_recomputeDepthCascade
          { nodes := acc.nodes, children := acc.children,
            parents := updateAList chId
              (fun _ => ((acc.parents.lookup chId).getD []).filter (fun x => x ≠ id))
              acc.parents,
            depth := acc.depth, roots := acc.roots }
          chId (graphFuel
            { nodes := acc.nodes, children := acc.children,
              parents := updateAList chId
                (fun _ => ((acc.parents.lookup chId).getD []).filter (fun x => x ≠ id))
                acc.parents,
              depth := acc.depth, roots := acc.roots }) := by
      simp only [removeNodeStep]
      rw [if_neg hps]
    rw [hres]
    have hpsne : (parentsOf acc chId).filter (fun x => x ≠ id) ≠ [] := by
      intro he
      rw [List.isEmpty_iff] at hps
      exact hps he
    apply removeNodeStep_core g gch id hgWF hgchKeys hgchND hgchCl hgchAcy hgchId hmirrCh
      chId todo acc hchIdn hchIdne hnotodo hinv
      { nodes := acc.nodes, children := acc.children,
        parents := updateAList chId
          (fun _ => ((acc.parents.lookup chId).getD []).filter (fun x => x ≠ id))
          acc.parents,
        depth := acc.depth, roots := acc.roots }
      rfl rfl rfl rfl hinv.rootsND
    intro r
    have hpof : parentsOf
        { nodes := acc.nodes, children := acc.children,
          parents := updateAList chId
            (fun _ => ((acc.parents.lookup chId).getD []).filter (fun x => x ≠ id))
            acc.parents,
          depth := acc.depth, roots := acc.roots } r
        = if r = chId then (parentsOf acc chId).filter (fun x => x ≠ id)
          else parentsOf acc r := by
      unfold parentsOf
      by_cases hv : r = chId
      · rw [if_pos hv, hv]
        show (((updateAList chId _ acc.parents).lookup chId).getD []) = _
        rw [lookup_updateAList_eq acc.parents chId _]
        rfl
      · rw [if_neg hv]
        show (((updateAList chId _ acc.parents).lookup r).getD []) = _
        rw [lookup_updateAList_ne acc.parents chId r _ hv]
    rw [hpof]
    by_cases hr : r = chId
    · rw [if_pos hr]
      constructor
      · intro hmem
        have h2 := ((hinv.rootsCh r).mp hmem).2
        have : (parentsOf acc chId).filter (fun x => x ≠ id) = [] := by
          rw [← hr] at hpacc ⊢
          rw [h2]
          rfl
        exact absurd this hpsne
      · rintro ⟨_, hcon⟩
        exact absurd hcon hpsne
    · rw [if_neg hr]
      constructor
      · intro hmem
        exact (hinv.rootsCh r).mp hmem
      · intro hx
        exact (hinv.rootsCh r).mpr hx

theorem removeNode_fold (g : DepGraph) (gch : List (String × List String)) (id : String)
    (hgWF : GraphWF g)
    (hgchKeys : keysOf gch = g.nodes)
    (hgchND : ∀ v, ((gch.lookup v).getD []).Nodup)
    (hgchCl : ∀ v c, c ∈ (gch.lookup v).getD [] → c ∈ g.nodes)
    (hgchAcy : AcyclicCh gch)
    (hgchId : (gch.lookup id).getD [] = childrenOf g id)
    (hmirrCh : ∀ w v, w ≠ id → v ∈ parentsOf g w → w ∈ (gch.lookup v).getD []) :
    ∀ todo acc, todo.Nodup → (∀ w ∈ todo, w ∈ g.nodes ∧ w ≠ id) →
      RNInv g gch id todo acc →
      RNInv g gch id [] (todo.foldl (removeNodeStep id) acc) := by
  intro todo
  induction todo with
  | nil =>
    intro acc _ _ hinv
    exact hinv
  | cons c cs ih =>
    intro acc hnd hmem hinv
    simp only [List.foldl_cons]
    rcases List.nodup_cons.mp hnd with ⟨hcm, hnd2⟩
    exact ih _ hnd2 (fun w hw => hmem w (by simp [hw]))
      (removeNodeStep_inv g gch id hgWF hgchKeys hgchND hgchCl hgchAcy hgchId hmirrCh
        c cs acc (hmem c (by simp)).1 (hmem c (by simp)).2 hcm hinv)

theorem lookup_filter_key_self {α β : Type} [DecidableEq α] (m : List (α × β)) (id : α) :
    (m.filter (fun e => e.1 ≠ id)).lookup id = none := by
  apply lookup_none_of_not_mem_keys
  rw [keysOf_filter_key]
  intro hmem
  rw [List.mem_filter] at hmem
  simp at hmem

theorem removeNode_cleanup_WF (g : DepGraph) (gch : List (String × List String)) (id : String)
    (hgWF : GraphWF g)
    (hgchKeys : keysOf gch = g.nodes)
    (hgchND : ∀ v, ((gch.lookup v).getD []).Nodup)
    (hgchCl : ∀ v c, c ∈ (gch.lookup v).getD [] → c ∈ g.nodes)
    (hgchAcy : AcyclicCh gch)
    (hidCh : ∀ v, id ∉ (gch.lookup v).getD [])
    (hgchIff : ∀ q d, d ≠ id → ((d ∈ (gch.lookup q).getD []) ↔ d ∈ childrenOf g q))
    (g2 : DepGraph) (hinv : RNInv g gch id [] g2) :
    GraphWF { nodes := g2.nodes.filter (fun x => x ≠ id),
              children := g2.children.filter (fun e => e.1 ≠ id),
              parents := g2.parents.filter (fun e => e.1 ≠ id),
              depth := g2.depth.filter (fun e => e.1 ≠ id),
              roots := g2.roots.filter (fun x => x ≠ id) } := by
  have hdone : ∀ w, id ∉ parentsOf g2 w := fun w => hinv.donePar w (by simp)
  have hnfin : ∀ x, x ∈ g2.nodes.filter (fun y => y ≠ id) ↔ (x ∈ g.nodes ∧ x ≠ id) := by
    intro x
    rw [List.mem_filter, hinv.nodesEq]
    simp
  have hcof : ∀ v, ((g2.children.filter (fun e => e.1 ≠ id)).lookup v).getD []
      = if v = id then [] else (gch.lookup v).getD [] := by
    intro v
    by_cases hv : v = id
    · rw [if_pos hv, hv, lookup_filter_key_self]
      rfl
    · rw [if_neg hv, lookup_filter_key_ne g2.children id v hv, hinv.chEq]
  have hpof : ∀ v, ((g2.parents.filter (fun e => e.1 ≠ id)).lookup v).getD []
      = if v = id then [] else parentsOf g2 v := by
    intro v
    by_cases hv : v = id
    · rw [if_pos hv, hv, lookup_filter_key_self]
      rfl
    · rw [if_neg hv, lookup_filter_key_ne g2.parents id v hv]
      rfl
  have hdof : ∀ v, v ≠ id → (g2.depth.filter (fun e => e.1 ≠ id)).lookup v
      = g2.depth.lookup v := fun v hv => lookup_filter_key_ne g2.depth id v hv
  refine ⟨?_, ?_, ?_, ?_, ?_, ?_, ?_, ?_, ?_, ?_, ?_, ?_, ?_⟩
  · exact (hinv.nodesEq ▸ hgWF.nodesND).filter _
  · show keysOf (g2.children.filter (fun e => e.1 ≠ id)) = g2.nodes.filter (fun x => x ≠ id)
    rw [keysOf_filter_key, hinv.chEq, hgchKeys, hinv.nodesEq]
  · show keysOf (g2.parents.filter (fun e => e.1 ≠ id)) = g2.nodes.filter (fun x => x ≠ id)
    rw [keysOf_filter_key, hinv.paKeys, hinv.nodesEq]
  · show keysOf (g2.depth.filter (fun e => e.1 ≠ id)) = g2.nodes.filter (fun x => x ≠ id)
    rw [keysOf_filter_key, hinv.dmKeys, hinv.nodesEq]
  · intro v
    show (((g2.children.filter (fun e => e.1 ≠ id)).lookup v).getD []).Nodup
    rw [hcof v]
    by_cases hv : v = id
    · rw [if_pos hv]
      exact List.nodup_nil
    · rw [if_neg hv]
      exact hgchND v
  · intro v c hc
    have hc2 : c ∈ ((g2.children.filter (fun e => e.1 ≠ id)).lookup v).getD [] := hc
    rw [hcof v] at hc2
    by_cases hv : v = id
    · rw [if_pos hv] at hc2
      cases hc2
    · rw [if_neg hv] at hc2
      show c ∈ g2.nodes.filter (fun x => x ≠ id)
      rw [hnfin c]
      refine ⟨hgchCl v c hc2, ?_⟩
      intro he
      exact hidCh v (he ▸ hc2)
  · intro v
    show (((g2.parents.filter (fun e => e.1 ≠ id)).lookup v).getD []).Nodup
    rw [hpof v]
    by_cases hv : v = id
    · rw [if_pos hv]
      exact List.nodup_nil
    · rw [if_neg hv]
      exact hinv.paND v
  · intro v q hq
    have hq2 : q ∈ ((g2.parents.filter (fun e => e.1 ≠ id)).lookup v).getD [] := hq
    rw [hpof v] at hq2
    by_cases hv : v = id
    · rw [if_pos hv] at hq2
      cases hq2
    · rw [if_neg hv] at hq2
      show q ∈ g2.nodes.filter (fun x => x ≠ id)
      rw [hnfin q]
      refine ⟨hinv.paCl v q hq2, ?_⟩
      intro he
      exact hdone v (he ▸ hq2)
  · intro q d
    show d ∈ ((g2.children.filter (fun e => e.1 ≠ id)).lookup q).getD []
      ↔ q ∈ ((g2.parents.filter (fun e => e.1 ≠ id)).lookup d).getD []
    rw [hcof q, hpof d]
    by_cases hq : q = id
    · rw [if_pos hq]
      by_cases hd : d = id
      · rw [if_pos hd]
        simp
      · rw [if_neg hd]
        simp only [List.not_mem_nil, false_iff]
        intro hmem
        exact hdone d (hq ▸ hmem)
    · rw [if_neg hq]
      by_cases hd : d = id
      · rw [if_pos hd]
        simp only [List.not_mem_nil, iff_false]
        intro hmem
        exact hidCh q (hd ▸ hmem)
      · rw [if_neg hd]
        rw [hgchIff q d hd]
        rw [hgWF.mirror q d]
        exact (hinv.parIff d q hq).symm
  · exact hinv.rootsND.filter _
  · intro r
    show r ∈ g2.roots.filter (fun x => x ≠ id)
      ↔ (r ∈ g2.nodes.filter (fun x => x ≠ id)
        ∧ ((g2.parents.filter (fun e => e.1 ≠ id)).lookup r).getD [] = [])
    rw [List.mem_filter, hpof r, hnfin r]
    by_cases hr : r = id
    · rw [if_pos hr]
      constructor
      · rintro ⟨_, hcon⟩
        simp [hr] at hcon
      · rintro ⟨⟨_, hcon⟩, _⟩
        exact absurd hr hcon
    · rw [if_neg hr]
      constructor
      · rintro ⟨hmem, _⟩
        have := (hinv.rootsCh r).mp hmem
        exact ⟨⟨this.1, hr⟩, this.2⟩
      · rintro ⟨⟨hn1, _⟩, hp1⟩
        exact ⟨(hinv.rootsCh r).mpr ⟨hn1, hp1⟩, by simp [hr]⟩
  · apply acyclic_mono _ hgchAcy
    intro a b hab
    unfold childStep at hab ⊢
    rw [hcof a] at hab
    by_cases ha : a = id
    · rw [if_pos ha] at hab
      cases hab
    · rw [if_neg ha] at hab
      exact hab
  · intro v
    unfold depthOkAt
    by_cases hv : v = id
    · rw [hv]
      show ((g2.depth.filter (fun e => e.1 ≠ id)).lookup id).getD 0 = _
      rw [lookup_filter_key_self]
      unfold DepGraph_calcDepth
      rw [show (g2.parents.filter (fun e => e.1 ≠ id)).lookup id = none from
        lookup_filter_key_self g2.parents id]
      rfl
    · show ((g2.depth.filter (fun e => e.1 ≠ id)).lookup v).getD 0 = _
      rw [hdof v hv]
      have hcalc : DepGraph_calcDepth (g2.parents.filter (fun e => e.1 ≠ id))
          (g2.depth.filter (fun e => e.1 ≠ id)) v
          = DepGraph_calcDepth g2.parents g2.depth v := by
        apply calcDepth_ext
        · exact lookup_filter_key_ne g2.parents id v hv
        · intro q hq
          apply hdof q
          intro he
          exact hdone v (he ▸ hq)
      rw [hcalc]
      exact hinv.dOk v hv

theorem removeNode_WF (g : DepGraph) (h : GraphWF g) (id : String) :
    GraphWF (DepGraph_removeNode g id) := by
  by_cases hid : id ∈ g.nodes
  · set gch := ((g.parents.lookup id).getD []).foldl (fun chm2 p =>
      updateAList p (fun cur => (cur.getD []).filter (fun x => x ≠ id)) chm2) g.children
      with hgchdef
    have hnotself : id ∉ (g.parents.lookup id).getD [] := by
      intro hmem
      have hmem2 : id ∈ parentsOf g id := hmem
      have := (h.mirror id id).mpr hmem2
      exact h.acyclic id (Relation.TransGen.single this)
    have hpidK : ∀ p ∈ (g.parents.lookup id).getD [], p ∈ keysOf g.children := by
      intro p hp
      rw [h.chKeys]
      exact h.paClosed id p hp
    have hgchKeys : keysOf gch = g.nodes := by
      rw [hgchdef, foldl_removeChild_keys id _ g.children hpidK]
      exact h.chKeys
    have hget : ∀ v, (gch.lookup v).getD []
        = if v ∈ (g.parents.lookup id).getD []
          then ((g.children.lookup v).getD []).filter (fun x => x ≠ id)
          else (g.children.lookup v).getD [] := by
      intro v
      rw [hgchdef]
      exact foldl_removeChild_getD id _ g.children v
    have hgchId : (gch.lookup id).getD [] = childrenOf g id := by
      rw [hget id, if_neg hnotself]
      rfl
    have hgchND : ∀ v, ((gch.lookup v).getD []).Nodup := by
      intro v
      rw [hget v]
      by_cases hv : v ∈ (g.parents.lookup id).getD []
      · rw [if_pos hv]
        exact (h.chND v).filter _
      · rw [if_neg hv]
        exact h.chND v
    have hgchCl : ∀ v c, c ∈ (gch.lookup v).getD [] → c ∈ g.nodes := by
      intro v c hc
      rw [hget v] at hc
      by_cases hv : v ∈ (g.parents.lookup id).getD []
      · rw [if_pos hv] at hc
        exact h.chClosed v c (List.mem_of_mem_filter hc)
      · rw [if_neg hv] at hc
        exact h.chClosed v c hc
    have hgchAcy : AcyclicCh gch := by
      apply acyclic_mono _ h.acyclic
      intro a b hab
      unfold childStep at hab ⊢
      rw [hget a] at hab
      by_cases ha : a ∈ (g.parents.lookup id).getD []
      · rw [if_pos ha] at hab
        exact List.mem_of_mem_filter hab
      · rw [if_neg ha] at hab
        exact hab
    have hidCh : ∀ v, id ∉ (gch.lookup v).getD [] := by
      intro v hmem
      rw [hget v] at hmem
      by_cases hv : v ∈ (g.parents.lookup id).getD []
      · rw [if_pos hv] at hmem
        rw [List.mem_filter] at hmem
        simp at hmem
      · rw [if_neg hv] at hmem
        have := (h.mirror v id).mp hmem
        exact hv this
    have hgchIff : ∀ q d, d ≠ id → ((d ∈ (gch.lookup q).getD []) ↔ d ∈ childrenOf g q) := by
      intro q d hd
      rw [hget q]
      unfold childrenOf
      by_cases hv : q ∈ (g.parents.lookup id).getD []
      · rw [if_pos hv]
        rw [List.mem_filter]
        constructor
        · rintro ⟨hmem, _⟩
          exact hmem
        · intro hmem
          exact ⟨hmem, by simp [hd]⟩
      · rw [if_neg hv]
    have hmirrCh : ∀ w v, w ≠ id → v ∈ parentsOf g w → w ∈ (gch.lookup v).getD [] := by
      intro w v hw hv
      exact (hgchIff v w hw).mpr ((h.mirror v w).mpr hv)
    have htodo : ∀ w ∈ (gch.lookup id).getD [], w ∈ g.nodes ∧ w ≠ id := by
      intro w hw
      refine ⟨hgchCl id w hw, ?_⟩
      intro he
      exact hidCh id (he ▸ hw)
    have hinv0 : RNInv g gch id ((gch.lookup id).getD []) { g with children := gch } := by
      refine ⟨rfl, rfl, h.paKeys, h.dmKeys, h.paND, h.paClosed, fun w _ => rfl, ?_,
        fun w v _ => Iff.rfl, h.rootsND, h.rootsChar, fun v _ => h.depthOk v⟩
      intro w hw hmem
      have hw2 : w ∈ childrenOf g id := (h.mirror id w).mpr hmem
      rw [← hgchId] at hw2
      exact hw hw2
    have hfold := removeNode_fold g gch id h hgchKeys hgchND hgchCl hgchAcy hgchId hmirrCh
      ((gch.lookup id).getD []) { g with children := gch } (hgchND id) htodo hinv0
    have hfin := removeNode_cleanup_WF g gch id h hgchKeys hgchND hgchCl hgchAcy hidCh hgchIff
      (((gch.lookup id).getD []).foldl (removeNodeStep id) { g with children := gch }) hfold
    have hre : DepGraph_removeNode g id
        = { nodes := (((gch.lookup id).getD []).foldl (removeNodeStep id)
              { g with children := gch }).nodes.filter (fun x => x ≠ id),
            children := (((gch.lookup id).getD []).foldl (removeNodeStep id)
              { g with children := gch }).children.filter (fun e => e.1 ≠ id),
            parents := (((gch.lookup id).getD []).foldl (removeNodeStep id)
              { g with children := gch }).parents.filter (fun e => e.1 ≠ id),
            depth := (((gch.lookup id).getD []).foldl (removeNodeStep id)
              { g with children := gch }).depth.filter (fun e => e.1 ≠ id),
            roots := (((gch.lookup id).getD []).foldl (removeNodeStep id)
              { g with children := gch }).roots.filter (fun x => x ≠ id) } := by
      simp only [DepGraph_removeNode, removeNodeStep]
      rw [if_pos hid]
      rfl
    rw [hre]
    exact hfin
  · have hre : DepGraph_removeNode g id = g := by
      simp only [DepGraph_removeNode]
      rw [if_neg hid]
    rw [hre]
    exact h

/-- The public DepGraph operations. -/
inductive GraphOp where
  | addNode (id : String)
  | removeNode (id : String)
  | addEdge (p c : String)
  | removeEdge (p c : String)
deriving DecidableEq, Repr

def applyOp (g : DepGraph) : GraphOp → DepGraph
  | .addNode id => DepGraph_addNode g id
  | .removeNode id => DepGraph_removeNode g id
  | .addEdge p c => (DepGraph_addEdge g p c).2
  | .removeEdge p c => DepGraph_removeEdge g p c

def applyOps (ops : List GraphOp) : DepGraph :=
  ops.foldl applyOp DepGraph.emptyG

theorem applyOps_WF (ops : List GraphOp) : GraphWF (applyOps ops) := by
  suffices hgen : ∀ g, GraphWF g → GraphWF (ops.foldl applyOp g) by
    exact hgen _ emptyG_WF
  induction ops with
  | nil =>
    intro g hg
    exact hg
  | cons op rest ih =>
    intro g hg
    simp only [List.foldl_cons]
    apply ih
    cases op with
    | addNode id => exact addNode_WF g id hg
    | removeNode id => exact removeNode_WF g hg id
    | addEdge p c => exact addEdge_WF g hg p c
    | removeEdge p c => exact removeEdge_WF g hg p c

theorem calc_eq_foldl (pa : List (String × List String)) (dm : List (String × Nat))
    (v : String) : DepGraph_calcDepth pa dm v
      = ((pa.lookup v).getD []).foldl
          (fun maxd p => max maxd ((dm.lookup p).getD 0 + 1)) 0 := by
  unfold DepGraph_calcDepth
  cases h : pa.lookup v <;> simp

theorem foldl_max_shift (dm : List (String × Nat)) (ps : List String) :
    ∀ a, ps.foldl (fun maxd p => max maxd ((dm.lookup p).getD 0 + 1)) (a + 1)
      = 1 + (ps.map (fun p => (dm.lookup p).getD 0)).foldl max a := by
  induction ps with
  | nil =>
    intro a
    simp [Nat.add_comm]
  | cons q qs ih =>
    intro a
    simp only [List.foldl_cons, List.map_cons]
    rw [show max (a + 1) ((dm.lookup q).getD 0 + 1) = max a ((dm.lookup q).getD 0) + 1 from
      Nat.succ_max_succ a _]
    exact ih _

theorem calc_as_one_plus_max (dm : List (String × Nat)) (ps : List String) (hne : ps ≠ []) :
    ps.foldl (fun maxd p => max maxd ((dm.lookup p).getD 0 + 1)) 0
      = 1 + (ps.map (fun p => (dm.lookup p).getD 0)).foldl max 0 := by
  cases ps with
  | nil => exact absurd rfl hne
  | cons q qs =>
    simp only [List.foldl_cons, List.map_cons]
    rw [show max 0 ((dm.lookup q).getD 0 + 1) = (dm.lookup q).getD 0 + 1 from by omega,
      show max 0 ((dm.lookup q).getD 0) = (dm.lookup q).getD 0 from by omega]
    exact foldl_max_shift dm qs _

/-- C5: after every sequence of addNode / removeNode / addEdge / removeEdge
operations starting from the empty DepGraph, the children relation is
acyclic; a vertex with no parents has depth 0 and a vertex with parents
has depth 1 + the maximum parent depth; the roots list holds exactly the
parentless nodes; every child id refers to a present node; and a self-loop
or cycle-creating addEdge returns false and leaves the graph unchanged. -/
theorem c5_graph_invariants (ops : List GraphOp) :
    AcyclicCh (applyOps ops).children ∧
    (∀ v, parentsOf (applyOps ops) v = [] → DepGraph_getDepth (applyOps ops) v = 0) ∧
    (∀ v, parentsOf (applyOps ops) v ≠ [] →
      DepGraph_getDepth (applyOps ops) v
        = 1 + ((parentsOf (applyOps ops) v).map
            (fun p => DepGraph_getDepth (applyOps ops) p)).foldl max 0) ∧
    (∀ r, r ∈ (applyOps ops).roots
      ↔ (r ∈ (applyOps ops).nodes ∧ parentsOf (applyOps ops) r = [])) ∧
    (∀ p c, c ∈ childrenOf (applyOps ops) p → c ∈ (applyOps ops).nodes) ∧
    (∀ p c, (p = c ∨ Relation.ReflTransGen (childStep (applyOps ops).children) c p) →
      DepGraph_addEdge (applyOps ops) p c = (false, applyOps ops)) := by
  have h := applyOps_WF ops
  refine ⟨h.acyclic, ?_, ?_, h.rootsChar, h.chClosed, ?_⟩
  · intro v hpar
    have hok := h.depthOk v
    unfold depthOkAt at hok
    rw [calc_eq_foldl] at hok
    have hplist : ((applyOps ops).parents.lookup v).getD [] = [] := hpar
    rw [hplist] at hok
    exact hok
  · intro v hpar
    have hok := h.depthOk v
    unfold depthOkAt at hok
    rw [calc_eq_foldl] at hok
    show (((applyOps ops).depth.lookup v).getD 0) = _
    rw [hok]
    exact calc_as_one_plus_max (applyOps ops).depth _ hpar
  · intro p c hcyc
    exact addEdge_reject (applyOps ops) h p c hcyc

/-- Witness for C5 at a concrete operation sequence: with nodes A, B and
the edge A→B, the reverse edge B→A is rejected unchanged, and B's depth
satisfies the parent-maximum equation. -/
theorem c5_graph_invariants_witness :
    DepGraph_addEdge
        (applyOps [GraphOp.addNode "A", GraphOp.addNode "B", GraphOp.addEdge "A" "B"]) "B" "A"
      = (false, applyOps [GraphOp.addNode "A", GraphOp.addNode "B", GraphOp.addEdge "A" "B"]) ∧
    DepGraph_getDepth
        (applyOps [GraphOp.addNode "A", GraphOp.addNode "B", GraphOp.addEdge "A" "B"]) "B"
      = 1 + ((parentsOf
          (applyOps [GraphOp.addNode "A", GraphOp.addNode "B", GraphOp.addEdge "A" "B"]) "B").map
          (fun p => DepGraph_getDepth
            (applyOps [GraphOp.addNode "A", GraphOp.addNode "B", GraphOp.addEdge "A" "B"]) p)).foldl
          max 0 := by
  have h := c5_graph_invariants [GraphOp.addNode "A", GraphOp.addNode "B", GraphOp.addEdge "A" "B"]
  constructor
  · apply h.2.2.2.2.2 "B" "A"
    right
    apply Relation.ReflTransGen.single
    show "B" ∈ ((applyOps [GraphOp.addNode "A", GraphOp.addNode "B",
      GraphOp.addEdge "A" "B"]).children.lookup "A").getD []
    decide
  · apply h.2.2.1 "B"
    decide

/-! ### RaphApp scheduler: dirty marking and the run drain

Shallow embedding of RaphApp._priority, RaphApp.dirty and RaphApp.run
(RaphApp.ts).  JS Maps become association lists in insertion order
(Map.set updates in place, keeping the original key position, which is
exactly `updateAList`); Sets become duplicate-free lists; the node object
field `__dirtyPhasesMask` lives in a per-node-id map `masks`; the node
field `type` is called `ntype`.  Phase events are opaque payloads,
modelled as strings.  A phase's `nodes` filter is modelled in its array
form (a list of admissible node types); the lambda form is outside the
model.  The dependency graph enters `_priority` only through
`getDepth`, so the app model carries the graph's depth table directly.
Scheduling/throttling side effects (invalidate, timers, UPS counters,
event emitter) have no effect on the drained data and are dropped.
Bit masks are exact naturals (`1 << i` is `2 ^ i`). -/

structure RaphNode where
  id : String
  ntype : String
  weight : Int
deriving DecidableEq, Repr

inductive PhaseKind where
  | all
  | each
deriving DecidableEq, Repr

structure RaphPhase where
  name : String
  nodesFilter : Option (List String)
  kind : PhaseKind
deriving DecidableEq, Repr

structure PhaseDirtyQ where
  buckets : List (Int × List RaphNode)
  events : List (String × List String)
  heap : List Int
  inHeap : List Int
deriving DecidableEq, Repr

def PhaseDirtyQ.emptyQ : PhaseDirtyQ :=
  { buckets := [], events := [], heap := [], inHeap := [] }

structure RaphApp where
  phasesArray : List RaphPhase
  phasesMap : List (String × RaphPhase)
  phaseBits : List (String × Nat)
  dirtyQ : List (String × PhaseDirtyQ)
  depthMap : List (String × Nat)
  masks : List (String × Nat)
deriving DecidableEq, Repr

/-- PRIORITY_SCALE = 1 << 20 (RaphApp.ts line 32). -/
def PRIORITY_SCALE : Int := 1048576

/-- _priority (RaphApp.ts lines 814-820): depth * PRIORITY_SCALE - weight. -/
def RaphApp_priority (app : RaphApp) (node : RaphNode) : Int :=
  ((app.depthMap.lookup node.id).getD 0 : Int) * PRIORITY_SCALE - node.weight

/-- definePhases + reinitPhases (RaphApp.ts lines 119-122, 137-152):
array kept as given, name map built by Map.set, bit i = 1 << i for the
i-th phase; the graph depth table is the app's construction input. -/
def RaphApp_init (phases : List RaphPhase) (dm : List (String × Nat)) : RaphApp :=
  { phasesArray := phases,
    phasesMap := phases.foldl (fun m p => updateAList p.name (fun _ => p) m) [],
    phaseBits := (phases.enum).foldl
      (fun m ip => updateAList ip.2.name (fun _ => (2 ^ ip.1 : Nat)) m) [],
    dirtyQ := [],
    depthMap := dm,
    masks := [] }

/-- _getPhaseDirty (RaphApp.ts lines 800-812): missing queues read as the
fresh empty queue (the JS code also registers it; writing back happens at
the dirty call sites below, which is observationally the same). -/
def RaphApp_getPhaseDirty (app : RaphApp) (phase : String) : PhaseDirtyQ :=
  (app.dirtyQ.lookup phase).getD PhaseDirtyQ.emptyQ

/-- mask &= ~bit on exact naturals. -/
def clearBit (m bit : Nat) : Nat := m - Nat.land m bit

/-- mask |= bit. -/
def setBit (m bit : Nat) : Nat := Nat.lor m bit

/-- dirty (RaphApp.ts lines 448-506). Note the early return when the
phase bit is already set on the node's mask: it fires before the event
append, so a deduplicated call records nothing. -/
def RaphApp_dirty (app : RaphApp) (phase : String) (node : RaphNode)
    (event : Option String) : RaphApp :=
  match app.phasesMap.lookup phase with
  | none => app
  | some ph =>
    if !(ph.nodesFilter.all (fun tys => tys.contains node.ntype)) then app
    else
      let bit := (app.phaseBits.lookup phase).getD 0
      let mask := (app.masks.lookup node.id).getD 0
      if bit ≠ 0 ∧ Nat.land mask bit ≠ 0 then app
      else
        let idx := RaphApp_priority app node
        let q := RaphApp_getPhaseDirty app phase
        let q1 := { q with buckets := updateAList idx (fun cur => (cur.getD []) ++ [node]) q.buckets }
        let q2 := if idx ∈ q1.inHeap then q1
          else { q1 with inHeap := q1.inHeap ++ [idx], heap := MinHeap_push q1.heap idx }
        let q3 := match event with
          | none => q2
          | some ev => { q2 with
              events := updateAList node.id (fun cur => (cur.getD []) ++ [ev]) q2.events }
        let masks2 := if bit ≠ 0
          then updateAList node.id (fun cur => setBit (cur.getD 0) bit) app.masks
          else app.masks
        { app with dirtyQ := updateAList phase (fun _ => q3) app.dirtyQ, masks := masks2 }

structure RunCtx where
  phase : String
  node : RaphNode
  events : Option (List String)
deriving DecidableEq, Repr

/-- What run() hands a phase executor: one batched call for `all`
phases, the per-node call sequence for `each` phases. -/
inductive PhaseOut where
  | allCall (ctxs : List RunCtx)
  | eachCalls (ctxs : List RunCtx)
deriving DecidableEq, Repr

/-- The `all` branch of run() (RaphApp.ts lines 570-598): walk the inHeap
set in insertion order, flush each bucket, clear mask bits. -/
def runAllCollect (phName : String) (bit : Nat) (events : List (String × List String)) :
    List Int → List (Int × List RaphNode) → List (String × Nat) → List RunCtx
    → List (Int × List RaphNode) × List (String × Nat) × List RunCtx
  | [], buckets, masks, ctxs => (buckets, masks, ctxs)
  | idx :: rest, buckets, masks, ctxs =>
    match buckets.lookup idx with
    | none => runAllCollect phName bit events rest buckets masks ctxs
    | some arr =>
      if arr = [] then runAllCollect phName bit events rest buckets masks ctxs
      else
        let masks2 := arr.foldl (fun m nd =>
          if bit ≠ 0 then updateAList nd.id (fun cur => clearBit (cur.getD 0) bit) m else m) masks
        let ctxs2 := ctxs ++ arr.map (fun nd =>
          ({ phase := phName, node := nd, events := events.lookup nd.id } : RunCtx))
        runAllCollect phName bit events rest (buckets.filter (fun e => e.1 ≠ idx)) masks2 ctxs2

/-- The `each` branch of run() (RaphApp.ts lines 599-618): pop bucket
indices off the min-heap until it is empty. -/
def runEachLoop (phName : String) (bit : Nat) (events : List (String × List String)) :
    Nat → List Int → List Int → List (Int × List RaphNode) → List (String × Nat)
    → List RunCtx
    → List Int × List (Int × List RaphNode) × List (String × Nat) × List RunCtx
  | 0, _, inH, buckets, masks, ctxs => (inH, buckets, masks, ctxs)
  | fuel+1, heap, inH, buckets, masks, ctxs =>
    match MinHeap_pop heap with
    | (none, _) => (inH, buckets, masks, ctxs)
    | (some idx, heap2) =>
      let inH2 := inH.erase idx
      match buckets.lookup idx with
      | none => runEachLoop phName bit events fuel heap2 inH2 buckets masks ctxs
      | some arr =>
        if arr = [] then runEachLoop phName bit events fuel heap2 inH2 buckets masks ctxs
        else
          let masks2 := arr.foldl (fun m nd =>
            if bit ≠ 0 then updateAList nd.id (fun cur => clearBit (cur.getD 0) bit) m else m) masks
          let ctxs2 := ctxs ++ arr.map (fun nd =>
            ({ phase := phName, node := nd, events := events.lookup nd.id } : RunCtx))
          runEachLoop phName bit events fuel heap2 inH2
            (buckets.filter (fun e => e.1 ≠ idx)) masks2 ctxs2

/-- One phase of run() (RaphApp.ts lines 563-619). -/
def runPhase (app : RaphApp) (ph : RaphPhase) : RaphApp × Option (String × PhaseOut) :=
  match app.dirtyQ.lookup ph.name with
  | none => (app, none)
  | some q =>
    if q.inHeap = [] then (app, none)
    else
      let bit := (app.phaseBits.lookup ph.name).getD 0
      match ph.kind with
      | .all =>
        let r := runAllCollect ph.name bit q.events q.inHeap q.buckets app.masks []
        let q2 : PhaseDirtyQ := { buckets := r.1, events := [], heap := [], inHeap := [] }
        ({ app with dirtyQ := updateAList ph.name (fun _ => q2) app.dirtyQ, masks := r.2.1 },
          some (ph.name, PhaseOut.allCall r.2.2))
      | .each =>
        let r := runEachLoop ph.name bit q.events (q.heap.length + 1)
          q.heap q.inHeap q.buckets app.masks []
        let q2 : PhaseDirtyQ := { buckets := r.2.1, events := [], heap := [], inHeap := r.1 }
        ({ app with dirtyQ := updateAList ph.name (fun _ => q2) app.dirtyQ, masks := r.2.2.1 },
          some (ph.name, PhaseOut.eachCalls r.2.2.2))

/-- run() (RaphApp.ts lines 543-622): phases strictly in declared order;
returns the executor invocations as a trace. -/
def RaphApp_run (app : RaphApp) : RaphApp × List (String × PhaseOut) :=
  app.phasesArray.foldl (fun st ph =>
    let r := runPhase st.1 ph
    (r.1, match r.2 with | none => st.2 | some o => st.2 ++ [o])) (app, [])

/-- C4 counterexample: one `each` phase "upd" (bit 1), node n. The first
dirty records event e1 and sets the bit; the second dirty carrying e2 is
a complete no-op - the early return fires before the event append - so
the state is unchanged and the event list still holds only e1. -/
theorem c4_counterexample :
    RaphApp_dirty
        (RaphApp_dirty
          (RaphApp_init [{ name := "upd", nodesFilter := none, kind := PhaseKind.each }] [])
          "upd" { id := "n", ntype := "t", weight := 0 } (some "e1"))
        "upd" { id := "n", ntype := "t", weight := 0 } (some "e2")
      = RaphApp_dirty
          (RaphApp_init [{ name := "upd", nodesFilter := none, kind := PhaseKind.each }] [])
          "upd" { id := "n", ntype := "t", weight := 0 } (some "e1") ∧
    (((RaphApp_dirty
          (RaphApp_init [{ name := "upd", nodesFilter := none, kind := PhaseKind.each }] [])
          "upd" { id := "n", ntype := "t", weight := 0 } (some "e1")).dirtyQ.lookup
        "upd").getD PhaseDirtyQ.emptyQ).events.lookup "n" = some ["e1"] := by
  decide

/-- C4 (amended): for a resolvable phase whose node filter passes, a
dirty call carrying an event appends it to the node's per-phase event
list exactly when the phase bit is not already set on the node's mask
(or the phase has no bit); when the bit is set the whole call - event
recording included - is skipped and the app is returned unchanged. -/
theorem c4_dirty_event_recording (app : RaphApp) (phase : String) (node : RaphNode)
    (ev : String) (ph : RaphPhase)
    (hph : app.phasesMap.lookup phase = some ph)
    (hfil : ph.nodesFilter.all (fun tys => tys.contains node.ntype) = true) :
    (((app.phaseBits.lookup phase).getD 0 ≠ 0 ∧
        Nat.land ((app.masks.lookup node.id).getD 0) ((app.phaseBits.lookup phase).getD 0) ≠ 0) →
      RaphApp_dirty app phase node (some ev) = app) ∧
    (¬((app.phaseBits.lookup phase).getD 0 ≠ 0 ∧
        Nat.land ((app.masks.lookup node.id).getD 0) ((app.phaseBits.lookup phase).getD 0) ≠ 0) →
      (((RaphApp_dirty app phase node (some ev)).dirtyQ.lookup phase).getD
          PhaseDirtyQ.emptyQ).events.lookup node.id
        = some (((((app.dirtyQ.lookup phase).getD PhaseDirtyQ.emptyQ).events.lookup
            node.id).getD []) ++ [ev])) := by
  have h1 : (!(ph.nodesFilter.all (fun tys => tys.contains node.ntype))) = false := by
    rw [hfil]
    rfl
  constructor
  · intro hcond
    simp only [RaphApp_dirty, hph, h1, Bool.false_eq_true, if_false]
    rw [if_pos hcond]
  · intro hcond
    simp only [RaphApp_dirty, hph, h1, Bool.false_eq_true, if_false]
    rw [if_neg hcond]
    by_cases hmem : RaphApp_priority app node ∈ (RaphApp_getPhaseDirty app phase).inHeap
    · simp only [hmem, if_true, lookup_updateAList_eq, Option.getD_some]
      rfl
    · simp only [hmem, if_false, lookup_updateAList_eq, Option.getD_some]
      rfl

/-- Witness for the amended C4 statement: first dirty on a fresh app has
the bit clear, so the event is appended to the empty list. -/
theorem c4_dirty_event_recording_witness :
    (((RaphApp_dirty
        (RaphApp_init [{ name := "upd", nodesFilter := none, kind := PhaseKind.each }] [])
        "upd" { id := "n", ntype := "t", weight := 0 } (some "e1")).dirtyQ.lookup
        "upd").getD PhaseDirtyQ.emptyQ).events.lookup "n"
      = some ((((((RaphApp_init
          [{ name := "upd", nodesFilter := none, kind := PhaseKind.each }] []).dirtyQ.lookup
          "upd").getD PhaseDirtyQ.emptyQ).events.lookup "n").getD []) ++ ["e1"]) :=
  (c4_dirty_event_recording
    (RaphApp_init [{ name := "upd", nodesFilter := none, kind := PhaseKind.each }] [])
    "upd" { id := "n", ntype := "t", weight := 0 } "e1"
    { name := "upd", nodesFilter := none, kind := PhaseKind.each }
    (by decide) (by decide)).2 (by decide)

/-- The sequence of values obtained by popping the heap to exhaustion. -/
def popSeq : Nat → List Int → List Int
  | 0, _ => []
  | fuel+1, h =>
    match MinHeap_pop h with
    | (none, _) => []
    | (some x, h2) => x :: popSeq fuel h2

theorem popSeq_spec : ∀ (fuel : Nat) (h : List Int), heapInv h → h.length ≤ fuel →
    (popSeq fuel h).Sorted (· ≤ ·) ∧ ((popSeq fuel h : List Int) : Multiset Int) = (h : Multiset Int) := by
  intro fuel
  induction fuel with
  | zero =>
    intro h _ hlen
    have : h = [] := List.eq_nil_of_length_eq_zero (by omega)
    subst this
    exact ⟨List.sorted_nil, rfl⟩
  | succ f ih =>
    intro h hinv hlen
    match hh : h with
    | [] => exact ⟨List.sorted_nil, rfl⟩
    | y :: t =>
      have hne : y :: t ≠ [] := by simp
      obtain ⟨hp1, hp2, hp3, hp4⟩ := MinHeap_pop_spec (y :: t) hinv hne
      have h0 : MinHeap_pop (y :: t) = (some ((y :: t).getD 0 0), (MinHeap_pop (y :: t)).2) := by
        rw [← hp1]
      have hstep : popSeq (f+1) (y :: t)
          = (y :: t).getD 0 0 :: popSeq f (MinHeap_pop (y :: t)).2 := by
        rw [show popSeq (f+1) (y :: t) = (match MinHeap_pop (y :: t) with
          | (none, _) => [] | (some x, h2) => x :: popSeq f h2) from rfl]
        rw [h0]
      have hlen2 : (MinHeap_pop (y :: t)).2.length ≤ f := by
        rw [hp4]
        simp at hlen ⊢
        omega
      obtain ⟨ihs, ihm⟩ := ih (MinHeap_pop (y :: t)).2 hp2 hlen2
      rw [hstep]
      constructor
      · rw [List.sorted_cons]
        refine ⟨?_, ihs⟩
        intro b hb
        have hbm : b ∈ ((MinHeap_pop (y :: t)).2 : Multiset Int) := by
          rw [← ihm]
          exact hb
        have hbm2 : b ∈ ((y :: t : List Int) : Multiset Int) := by
          rw [← hp3]
          exact Multiset.mem_add.mpr (Or.inl hbm)
        exact heapInv_root_min (y :: t) hinv b (by simpa using hbm2)
      · show ((y :: t).getD 0 0) ::ₘ (popSeq f (MinHeap_pop (y :: t)).2 : Multiset Int)
          = ((y :: t : List Int) : Multiset Int)
        rw [ihm, ← hp3, add_comm, Multiset.singleton_add]

theorem runAllCollect_ctxs (phName : String) (bit : Nat)
    (events : List (String × List String)) :
    ∀ (inH : List Int) (buckets : List (Int × List RaphNode))
      (masks : List (String × Nat)) (ctxs : List RunCtx), inH.Nodup →
      (runAllCollect phName bit events inH buckets masks ctxs).2.2
        = ctxs ++ (inH.map (fun idx => ((buckets.lookup idx).getD []).map (fun nd =>
            ({ phase := phName, node := nd, events := events.lookup nd.id } : RunCtx)))).flatten := by
  intro inH
  induction inH with
  | nil =>
    intro buckets masks ctxs _
    simp [runAllCollect]
  | cons idx rest ih =>
    intro buckets masks ctxs hnd
    rcases List.nodup_cons.mp hnd with ⟨hni, hnd2⟩
    have hcongr : ∀ (b2 : List (Int × List RaphNode)),
        (∀ j ∈ rest, b2.lookup j = buckets.lookup j) →
        (rest.map (fun j => ((b2.lookup j).getD []).map (fun nd =>
          ({ phase := phName, node := nd, events := events.lookup nd.id } : RunCtx))))
        = (rest.map (fun j => ((buckets.lookup j).getD []).map (fun nd =>
          ({ phase := phName, node := nd, events := events.lookup nd.id } : RunCtx)))) := by
      intro b2 hb2
      apply List.map_congr_left
      intro j hj
      rw [hb2 j hj]
    rcases hlk : buckets.lookup idx with _ | arr
    · have hstep : runAllCollect phName bit events (idx :: rest) buckets masks ctxs
          = runAllCollect phName bit events rest buckets masks ctxs := by
        simp only [runAllCollect, hlk]
      rw [hstep, ih buckets masks ctxs hnd2]
      simp [hlk]
    · by_cases harr : arr = []
      · have hstep : runAllCollect phName bit events (idx :: rest) buckets masks ctxs
            = runAllCollect phName bit events rest buckets masks ctxs := by
          simp only [runAllCollect, hlk]
          rw [if_pos harr]
        rw [hstep, ih buckets masks ctxs hnd2]
        simp [hlk, harr]
      · have hstep : runAllCollect phName bit events (idx :: rest) buckets masks ctxs
            = runAllCollect phName bit events rest (buckets.filter (fun e => e.1 ≠ idx))
              (arr.foldl (fun m nd =>
                if bit ≠ 0 then updateAList nd.id (fun cur => clearBit (cur.getD 0) bit) m
                else m) masks)
              (ctxs ++ arr.map (fun nd =>
                ({ phase := phName, node := nd, events := events.lookup nd.id } : RunCtx))) := by
          simp only [runAllCollect, hlk]
          rw [if_neg harr]
        rw [hstep, ih _ _ _ hnd2]
        rw [hcongr (buckets.filter (fun e => e.1 ≠ idx))
          (fun j hj => lookup_filter_key_ne buckets idx j (fun he => hni (he ▸ hj)))]
        simp [hlk]

theorem popSeq_succ_pop (f : Nat) (heap heap2 : List Int) (idx : Int)
    (hpop : MinHeap_pop heap = (some idx, heap2)) :
    popSeq (f+1) heap = idx :: popSeq f heap2 := by
  simp only [popSeq]
  rw [hpop]

theorem runEachLoop_succ_pop (phName : String) (bit : Nat)
    (events : List (String × List String)) (f : Nat) (heap heap2 : List Int) (idx : Int)
    (inH : List Int) (buckets : List (Int × List RaphNode)) (masks : List (String × Nat))
    (ctxs : List RunCtx) (hpop : MinHeap_pop heap = (some idx, heap2)) :
    runEachLoop phName bit events (f+1) heap inH buckets masks ctxs
      = match buckets.lookup idx with
        | none => runEachLoop phName bit events f heap2 (inH.erase idx) buckets masks ctxs
        | some arr =>
          if arr = []
          then runEachLoop phName bit events f heap2 (inH.erase idx) buckets masks ctxs
          else runEachLoop phName bit events f heap2 (inH.erase idx)
            (buckets.filter (fun e => e.1 ≠ idx))
            (arr.foldl (fun m nd =>
              if bit ≠ 0 then updateAList nd.id (fun cur => clearBit (cur.getD 0) bit) m
              else m) masks)
            (ctxs ++ arr.map (fun nd =>
              ({ phase := phName, node := nd, events := events.lookup nd.id } : RunCtx))) := by
  simp only [runEachLoop]
  rw [hpop]

theorem runEachLoop_ctxs (phName : String) (bit : Nat)
    (events : List (String × List String)) :
    ∀ (fuel : Nat) (heap inH : List Int) (buckets : List (Int × List RaphNode))
      (masks : List (String × Nat)) (ctxs : List RunCtx),
      heapInv heap → heap.Nodup → heap.length ≤ fuel →
      (runEachLoop phName bit events fuel heap inH buckets masks ctxs).2.2.2
        = ctxs ++ ((popSeq fuel heap).map (fun idx => ((buckets.lookup idx).getD []).map (fun nd =>
            ({ phase := phName, node := nd, events := events.lookup nd.id } : RunCtx)))).flatten := by
  intro fuel
  induction fuel with
  | zero =>
    intro heap inH buckets masks ctxs _ _ hlen
    have : heap = [] := List.eq_nil_of_length_eq_zero (by omega)
    subst this
    simp [runEachLoop, popSeq]
  | succ f ih =>
    intro heap inH buckets masks ctxs hinv hnd hlen
    match hh : heap with
    | [] =>
      simp [runEachLoop, popSeq, MinHeap_pop]
    | y :: t =>
      have hne : y :: t ≠ [] := by simp
      obtain ⟨hp1, hp2, hp3, hp4⟩ := MinHeap_pop_spec (y :: t) hinv hne
      have hroot : (y :: t).getD 0 0 = y := rfl
      rw [hroot] at hp1 hp3
      have h0 : MinHeap_pop (y :: t) = (some y, (MinHeap_pop (y :: t)).2) := by
        rw [← hp1]
      have hndt : (MinHeap_pop (y :: t)).2.Nodup := by
        have hle : (((MinHeap_pop (y :: t)).2 : List Int) : Multiset Int)
            ≤ ((y :: t : List Int) : Multiset Int) := by
          rw [← hp3]
          exact Multiset.le_add_right _ _
        have hh2 : ((y :: t : List Int) : Multiset Int).Nodup := by exact hnd
        exact Multiset.nodup_of_le hle hh2
      have hnotin : y ∉ (MinHeap_pop (y :: t)).2 := by
        intro hmem
        have hcnt := congrArg (Multiset.count y) hp3
        rw [Multiset.count_add] at hcnt
        have hnd2 : ((y :: t : List Int) : Multiset Int).Nodup := by exact hnd
        have hle1 := Multiset.nodup_iff_count_le_one.mp hnd2 y
        have hp0 : 0 < Multiset.count y (((MinHeap_pop (y :: t)).2 : List Int) : Multiset Int) :=
          Multiset.count_pos.mpr (Multiset.mem_coe.mpr hmem)
        have hs1 : Multiset.count y ({y} : Multiset Int) = 1 := by simp
        omega
      have hlen2 : (MinHeap_pop (y :: t)).2.length ≤ f := by
        rw [hp4]
        simp at hlen ⊢
        omega
      have hmemseq : ∀ j ∈ popSeq f (MinHeap_pop (y :: t)).2, j ≠ y := by
        intro j hj hjy
        have hm := (popSeq_spec f (MinHeap_pop (y :: t)).2 hp2 hlen2).2
        subst hjy
        have : j ∈ (((MinHeap_pop (j :: t)).2 : List Int) : Multiset Int) := by
          rw [← hm]
          exact hj
        exact hnotin (Multiset.mem_coe.mp this)
      rw [popSeq_succ_pop f (y :: t) (MinHeap_pop (y :: t)).2 y h0,
        runEachLoop_succ_pop phName bit events f (y :: t) (MinHeap_pop (y :: t)).2 y
          inH buckets masks ctxs h0]
      have hcongr : ∀ (b2 : List (Int × List RaphNode)),
          (∀ j ∈ popSeq f (MinHeap_pop (y :: t)).2, b2.lookup j = buckets.lookup j) →
          ((popSeq f (MinHeap_pop (y :: t)).2).map (fun j => ((b2.lookup j).getD []).map (fun nd =>
            ({ phase := phName, node := nd, events := events.lookup nd.id } : RunCtx))))
          = ((popSeq f (MinHeap_pop (y :: t)).2).map (fun j =>
            ((buckets.lookup j).getD []).map (fun nd =>
            ({ phase := phName, node := nd, events := events.lookup nd.id } : RunCtx)))) := by
        intro b2 hb2
        apply List.map_congr_left
        intro j hj
        rw [hb2 j hj]
      rcases hlk : buckets.lookup y with _ | arr
      · simp only [hlk]
        rw [ih _ _ _ _ _ hp2 hndt hlen2]
        simp [hlk]
      · by_cases harr : arr = []
        · simp only [hlk]
          rw [if_pos harr]
          rw [ih _ _ _ _ _ hp2 hndt hlen2]
          simp [hlk, harr]
        · simp only [hlk]
          rw [if_neg harr]
          rw [ih _ _ _ _ _ hp2 hndt hlen2]
          rw [hcongr (buckets.filter (fun e => e.1 ≠ y))
            (fun j hj => lookup_filter_key_ne buckets y j (hmemseq j hj))]
          simp [hlk]

/-- Queue well-formedness maintained by dirty: heap contents mirror the
inHeap set (which is duplicate-free), the heap satisfies its invariant,
and every bucket is keyed by the priority of the nodes it holds. -/
def QWF (app : RaphApp) : Prop :=
  ∀ name,
    heapInv ((app.dirtyQ.lookup name).getD PhaseDirtyQ.emptyQ).heap ∧
    ((((app.dirtyQ.lookup name).getD PhaseDirtyQ.emptyQ).heap : List Int) : Multiset Int)
      = ((((app.dirtyQ.lookup name).getD PhaseDirtyQ.emptyQ).inHeap : List Int) : Multiset Int) ∧
    ((app.dirtyQ.lookup name).getD PhaseDirtyQ.emptyQ).inHeap.Nodup ∧
    (∀ idx nd,
      nd ∈ ((((app.dirtyQ.lookup name).getD PhaseDirtyQ.emptyQ).buckets.lookup idx).getD [])
      → RaphApp_priority app nd = idx)

theorem init_QWF (phases : List RaphPhase) (dm : List (String × Nat)) :
    QWF (RaphApp_init phases dm) := by
  intro name
  have hl : (RaphApp_init phases dm).dirtyQ.lookup name = none := rfl
  rw [hl]
  refine ⟨?_, rfl, List.nodup_nil, ?_⟩
  · intro i hi _
    simp [PhaseDirtyQ.emptyQ] at hi
  · intro idx nd hnd
    simp [PhaseDirtyQ.emptyQ, List.lookup] at hnd

theorem dirty_shape (app : RaphApp) (phase : String) (node : RaphNode) (ev : Option String) :
    RaphApp_dirty app phase node ev = app ∨
    ∃ X Y, RaphApp_dirty app phase node ev = { app with dirtyQ := X, masks := Y } := by
  unfold RaphApp_dirty
  rcases app.phasesMap.lookup phase with _ | ph
  · exact Or.inl rfl
  · dsimp only
    split <;> (try split) <;> first
      | exact Or.inl rfl
      | exact Or.inr ⟨_, _, rfl⟩

theorem dirty_static (app : RaphApp) (phase : String) (node : RaphNode) (ev : Option String) :
    (RaphApp_dirty app phase node ev).phasesArray = app.phasesArray ∧
    (RaphApp_dirty app phase node ev).phasesMap = app.phasesMap ∧
    (RaphApp_dirty app phase node ev).phaseBits = app.phaseBits ∧
    (RaphApp_dirty app phase node ev).depthMap = app.depthMap := by
  rcases dirty_shape app phase node ev with h | ⟨X, Y, h⟩ <;> rw [h] <;>
    exact ⟨rfl, rfl, rfl, rfl⟩

theorem QWF_update (app : RaphApp) (h : QWF app) (phase : String) (q3 : PhaseDirtyQ)
    (M2 : List (String × Nat))
    (h1 : heapInv q3.heap)
    (h2 : ((q3.heap : List Int) : Multiset Int) = ((q3.inHeap : List Int) : Multiset Int))
    (h3 : q3.inHeap.Nodup)
    (h4 : ∀ idx nd, nd ∈ ((q3.buckets.lookup idx).getD []) → RaphApp_priority app nd = idx) :
    QWF { app with dirtyQ := updateAList phase (fun _ => q3) app.dirtyQ, masks := M2 } := by
  intro name
  by_cases hname : name = phase
  · subst hname
    have hlk : ({ app with dirtyQ := updateAList name (fun _ => q3) app.dirtyQ, masks := M2 } : RaphApp).dirtyQ.lookup name = some q3 := by
      show (updateAList name (fun _ => q3) app.dirtyQ).lookup name = some q3
      rw [lookup_updateAList_eq]
    rw [hlk]
    exact ⟨h1, h2, h3, fun idx nd hnd => h4 idx nd hnd⟩
  · have hlk : ({ app with dirtyQ := updateAList phase (fun _ => q3) app.dirtyQ, masks := M2 } : RaphApp).dirtyQ.lookup name = app.dirtyQ.lookup name := by
      show (updateAList phase (fun _ => q3) app.dirtyQ).lookup name = _
      exact lookup_updateAList_ne app.dirtyQ phase name _ hname
    rw [hlk]
    obtain ⟨a1, a2, a3, a4⟩ := h name
    exact ⟨a1, a2, a3, fun idx nd hnd => a4 idx nd hnd⟩

theorem dirty_QWF (app : RaphApp) (phase : String) (node : RaphNode) (ev : Option String)
    (h : QWF app) : QWF (RaphApp_dirty app phase node ev) := by
  have hq := h phase
  have hq1 : heapInv (RaphApp_getPhaseDirty app phase).heap := hq.1
  have hq2 : (((RaphApp_getPhaseDirty app phase).heap : List Int) : Multiset Int)
      = (((RaphApp_getPhaseDirty app phase).inHeap : List Int) : Multiset Int) := hq.2.1
  have hq3 : (RaphApp_getPhaseDirty app phase).inHeap.Nodup := hq.2.2.1
  have hq4 : ∀ idx nd,
      nd ∈ (((RaphApp_getPhaseDirty app phase).buckets.lookup idx).getD [])
      → RaphApp_priority app nd = idx := hq.2.2.2
  have hbuck : ∀ idx nd, nd ∈ (((updateAList (RaphApp_priority app node)
      (fun cur => (cur.getD []) ++ [node])
      (RaphApp_getPhaseDirty app phase).buckets).lookup idx).getD [])
      → RaphApp_priority app nd = idx := by
    intro idx nd hnd
    by_cases hi : idx = RaphApp_priority app node
    · subst hi
      rw [lookup_updateAList_eq] at hnd
      simp only [Option.getD_some] at hnd
      rcases List.mem_append.mp hnd with hnd | hnd
      · exact hq4 _ nd hnd
      · simp at hnd
        rw [hnd]
    · rw [lookup_updateAList_ne _ _ _ _ hi] at hnd
      exact hq4 idx nd hnd
  unfold RaphApp_dirty
  rcases hl : app.phasesMap.lookup phase with _ | ph
  · simp only [hl]; exact h
  · simp only [hl]
    split
    · exact h
    · split
      · exact h
      · by_cases hmem : RaphApp_priority app node ∈ (RaphApp_getPhaseDirty app phase).inHeap
        · simp only [hmem, if_true]
          cases ev with
          | none =>
            apply QWF_update app h phase
            · exact hq1
            · exact hq2
            · exact hq3
            · exact hbuck
          | some e =>
            apply QWF_update app h phase
            · exact hq1
            · exact hq2
            · exact hq3
            · exact hbuck
        · simp only [hmem, if_false]
          have hpush := MinHeap_push_spec (RaphApp_getPhaseDirty app phase).heap
            (RaphApp_priority app node) hq1
          have hmult : ((MinHeap_push (RaphApp_getPhaseDirty app phase).heap
              (RaphApp_priority app node) : List Int) : Multiset Int)
              = (((RaphApp_getPhaseDirty app phase).inHeap
                  ++ [RaphApp_priority app node] : List Int) : Multiset Int) := by
            rw [hpush.2.1, hq2]
            rfl
          have hnodup : ((RaphApp_getPhaseDirty app phase).inHeap
              ++ [RaphApp_priority app node]).Nodup := by
            simp only [List.nodup_append]
            refine ⟨hq3, by simp, ?_⟩
            intro a ha hax
            simp at hax
            exact hmem (hax ▸ ha)
          cases ev with
          | none =>
            apply QWF_update app h phase
            · exact hpush.1
            · exact hmult
            · exact hnodup
            · exact hbuck
          | some e =>
            apply QWF_update app h phase
            · exact hpush.1
            · exact hmult
            · exact hnodup
            · exact hbuck

/-- What run() is observed to hand the executor of one phase, computed
from the queue alone: nothing for an empty queue; for `all` the buckets
flattened in inHeap (first-dirty) order; for `each` the buckets flattened
in heap-pop (ascending priority) order. -/
def phaseOutSpec (app : RaphApp) (ph : RaphPhase) : Option (String × PhaseOut) :=
  let q := (app.dirtyQ.lookup ph.name).getD PhaseDirtyQ.emptyQ
  if q.inHeap = [] then none
  else some (ph.name,
    match ph.kind with
    | PhaseKind.all => PhaseOut.allCall ((q.inHeap.map (fun idx =>
        ((q.buckets.lookup idx).getD []).map (fun nd =>
          ({ phase := ph.name, node := nd, events := q.events.lookup nd.id } : RunCtx)))).flatten)
    | PhaseKind.each => PhaseOut.eachCalls (((popSeq (q.heap.length + 1) q.heap).map (fun idx =>
        ((q.buckets.lookup idx).getD []).map (fun nd =>
          ({ phase := ph.name, node := nd, events := q.events.lookup nd.id } : RunCtx)))).flatten))

theorem runPhase_spec (app0 app : RaphApp) (ph : RaphPhase)
    (hq : app.dirtyQ.lookup ph.name = app0.dirtyQ.lookup ph.name)
    (hQ : QWF app0) :
    (runPhase app ph).2 = phaseOutSpec app0 ph ∧
    (∀ name2, name2 ≠ ph.name →
      (runPhase app ph).1.dirtyQ.lookup name2 = app.dirtyQ.lookup name2) ∧
    (runPhase app ph).1.phasesArray = app.phasesArray := by
  obtain ⟨hh1, hh2, hh3, _⟩ := hQ ph.name
  unfold runPhase phaseOutSpec
  rcases hlq : app.dirtyQ.lookup ph.name with _ | q
  · rw [← hq, hlq]
    refine ⟨rfl, fun name2 _ => rfl, rfl⟩
  · rw [← hq, hlq]
    rw [← hq, hlq] at hh1 hh2 hh3
    simp only [Option.getD_some] at hh1 hh2 hh3 ⊢
    by_cases hih : q.inHeap = []
    · rw [if_pos hih, if_pos hih]
      refine ⟨rfl, fun name2 _ => rfl, rfl⟩
    · rw [if_neg hih, if_neg hih]
      have hheapnd : q.heap.Nodup := by
        have : ((q.heap : List Int) : Multiset Int).Nodup := by
          rw [hh2]
          exact hh3
        exact this
      cases hk : ph.kind
      · refine ⟨?_, ?_, rfl⟩
        · have := runAllCollect_ctxs ph.name ((app.phaseBits.lookup ph.name).getD 0) q.events
            q.inHeap q.buckets app.masks [] hh3
          rw [this]
          rfl
        · intro name2 hne
          show (updateAList ph.name _ app.dirtyQ).lookup name2 = _
          exact lookup_updateAList_ne app.dirtyQ ph.name name2 _ hne
      · refine ⟨?_, ?_, rfl⟩
        · have := runEachLoop_ctxs ph.name ((app.phaseBits.lookup ph.name).getD 0) q.events
            (q.heap.length + 1) q.heap q.inHeap q.buckets app.masks [] hh1 hheapnd (by omega)
          rw [this]
          rfl
        · intro name2 hne
          show (updateAList ph.name _ app.dirtyQ).lookup name2 = _
          exact lookup_updateAList_ne app.dirtyQ ph.name name2 _ hne

theorem run_trace (app0 : RaphApp) (hQ : QWF app0) :
    ∀ (phs : List RaphPhase) (app : RaphApp) (tr : List (String × PhaseOut)),
      (∀ ph ∈ phs, app.dirtyQ.lookup ph.name = app0.dirtyQ.lookup ph.name) →
      (phs.map RaphPhase.name).Nodup →
      (phs.foldl (fun st ph =>
        let r := runPhase st.1 ph
        (r.1, match r.2 with | none => st.2 | some o => st.2 ++ [o])) (app, tr)).2
      = tr ++ phs.filterMap (phaseOutSpec app0) := by
  intro phs
  induction phs with
  | nil =>
    intro app tr _ _
    simp
  | cons ph rest ih =>
    intro app tr hqs hnd
    simp only [List.foldl_cons, List.filterMap_cons]
    obtain ⟨hout, hothers, _⟩ := runPhase_spec app0 app ph (hqs ph (by simp)) hQ
    have hne : ∀ ph2 ∈ rest, ph2.name ≠ ph.name := by
      intro ph2 h2 he
      simp only [List.map_cons, List.nodup_cons] at hnd
      exact hnd.1 (he ▸ List.mem_map_of_mem RaphPhase.name h2)
    have hqs2 : ∀ ph2 ∈ rest, (runPhase app ph).1.dirtyQ.lookup ph2.name
        = app0.dirtyQ.lookup ph2.name := by
      intro ph2 h2
      rw [hothers ph2.name (hne ph2 h2)]
      exact hqs ph2 (by simp [h2])
    have hnd2 : (rest.map RaphPhase.name).Nodup := by
      simp only [List.map_cons, List.nodup_cons] at hnd
      exact hnd.2
    rcases hspec : phaseOutSpec app0 ph with _ | o
    · rw [hspec] at hout
      rw [show (match (runPhase app ph).2 with
          | none => tr | some o => tr ++ [o]) = tr from by rw [hout]]
      exact ih (runPhase app ph).1 tr hqs2 hnd2
    · rw [hspec] at hout
      rw [show (match (runPhase app ph).2 with
          | none => tr | some o2 => tr ++ [o2]) = tr ++ [o] from by rw [hout]]
      rw [ih (runPhase app ph).1 (tr ++ [o]) hqs2 hnd2]
      simp

def applyDirtyCalls (phases : List RaphPhase) (dm : List (String × Nat))
    (calls : List (String × RaphNode × Option String)) : RaphApp :=
  calls.foldl (fun a c => RaphApp_dirty a c.1 c.2.1 c.2.2) (RaphApp_init phases dm)

theorem applyDirtyCalls_QWF (phases : List RaphPhase) (dm : List (String × Nat))
    (calls : List (String × RaphNode × Option String)) :
    QWF (applyDirtyCalls phases dm calls) := by
  suffices hgen : ∀ app, QWF app →
      QWF (calls.foldl (fun a c => RaphApp_dirty a c.1 c.2.1 c.2.2) app) by
    exact hgen _ (init_QWF phases dm)
  induction calls with
  | nil => intro app h; exact h
  | cons c rest ih =>
    intro app h
    simp only [List.foldl_cons]
    exact ih _ (dirty_QWF app c.1 c.2.1 c.2.2 h)

theorem applyDirtyCalls_phases (phases : List RaphPhase) (dm : List (String × Nat))
    (calls : List (String × RaphNode × Option String)) :
    (applyDirtyCalls phases dm calls).phasesArray = phases := by
  suffices hgen : ∀ app,
      (calls.foldl (fun a c => RaphApp_dirty a c.1 c.2.1 c.2.2) app).phasesArray
        = app.phasesArray by
    exact hgen (RaphApp_init phases dm)
  induction calls with
  | nil => intro app; rfl
  | cons c rest ih =>
    intro app
    simp only [List.foldl_cons]
    rw [ih (RaphApp_dirty app c.1 c.2.1 c.2.2)]
    exact (dirty_static app c.1 c.2.1 c.2.2).1

theorem pairwise_flatten_sorted (idxs : List Int) (f : Int → List RunCtx)
    (prio : RunCtx → Int) (hs : idxs.Sorted (· ≤ ·))
    (hf : ∀ i, ∀ c ∈ f i, prio c = i) :
    ((idxs.map f).flatten).Pairwise (fun a b => prio a ≤ prio b) := by
  induction idxs with
  | nil => simp
  | cons i rest ih =>
    simp only [List.map_cons, List.flatten_cons]
    rw [List.pairwise_append]
    rw [List.sorted_cons] at hs
    refine ⟨?_, ih hs.2, ?_⟩
    · apply List.pairwise_of_forall_mem_list
      intro a ha b hb
      rw [hf i a ha, hf i b hb]
    · intro a ha b hb
      rw [hf i a ha]
      obtain ⟨l2, hl2, hb2⟩ := List.mem_flatten.mp hb
      obtain ⟨j, hj, rfl⟩ := List.mem_map.mp hl2
      rw [hf j b hb2]
      exact hs.1 j hj

/-- C3 counterexample: one `all` phase; node a (depth 1, priority index
2^20) is marked dirty before node b (depth 0, index 0). The batch passed
to the `all` executor lists a before b - the inHeap insertion order - even
though b's priority index is strictly smaller, contradicting the claimed
ascending-priority order for `all` executors. -/
theorem c3_counterexample :
    (RaphApp_run (RaphApp_dirty (RaphApp_dirty
        (RaphApp_init [{ name := "P", nodesFilter := none, kind := PhaseKind.all }]
          [("a", 1), ("b", 0)])
        "P" { id := "a", ntype := "t", weight := 0 } none)
        "P" { id := "b", ntype := "t", weight := 0 } none)).2
      = [("P", PhaseOut.allCall
          [{ phase := "P", node := { id := "a", ntype := "t", weight := 0 }, events := none },
           { phase := "P", node := { id := "b", ntype := "t", weight := 0 }, events := none }])] ∧
    RaphApp_priority (RaphApp_dirty (RaphApp_dirty
        (RaphApp_init [{ name := "P", nodesFilter := none, kind := PhaseKind.all }]
          [("a", 1), ("b", 0)])
        "P" { id := "a", ntype := "t", weight := 0 } none)
        "P" { id := "b", ntype := "t", weight := 0 } none)
      { id := "b", ntype := "t", weight := 0 }
      < RaphApp_priority (RaphApp_dirty (RaphApp_dirty
        (RaphApp_init [{ name := "P", nodesFilter := none, kind := PhaseKind.all }]
          [("a", 1), ("b", 0)])
        "P" { id := "a", ntype := "t", weight := 0 } none)
        "P" { id := "b", ntype := "t", weight := 0 } none)
      { id := "a", ntype := "t", weight := 0 } := by
  decide

/-- C3 (amended): for any phase list with distinct names and any sequence
of dirty calls from the fresh app, run() drains phases strictly in
declared order, handing each nonempty phase exactly the output described
by phaseOutSpec: `each` executors see the buckets in ascending heap-pop
priority order (so their call sequence is sorted by priority index),
while `all` executors see the buckets in first-dirty (inHeap insertion)
order, not sorted. -/
theorem c3_run_ordering (phases : List RaphPhase) (dm : List (String × Nat))
    (calls : List (String × RaphNode × Option String))
    (hnd : (phases.map RaphPhase.name).Nodup) :
    (RaphApp_run (applyDirtyCalls phases dm calls)).2
      = phases.filterMap (phaseOutSpec (applyDirtyCalls phases dm calls)) ∧
    (∀ name ctxs,
      (name, PhaseOut.eachCalls ctxs) ∈ (RaphApp_run (applyDirtyCalls phases dm calls)).2 →
      List.Pairwise (fun c1 c2 =>
        RaphApp_priority (applyDirtyCalls phases dm calls) c1.node
          ≤ RaphApp_priority (applyDirtyCalls phases dm calls) c2.node) ctxs) := by
  have hQ := applyDirtyCalls_QWF phases dm calls
  have h1 : (RaphApp_run (applyDirtyCalls phases dm calls)).2
      = phases.filterMap (phaseOutSpec (applyDirtyCalls phases dm calls)) := by
    unfold RaphApp_run
    rw [applyDirtyCalls_phases phases dm calls]
    exact run_trace (applyDirtyCalls phases dm calls) hQ phases
      (applyDirtyCalls phases dm calls) [] (fun ph _ => rfl) hnd
  refine ⟨h1, ?_⟩
  intro name ctxs hmem
  rw [h1] at hmem
  obtain ⟨ph, hphm, heq⟩ := List.mem_filterMap.mp hmem
  simp only [phaseOutSpec] at heq
  by_cases hih : (((applyDirtyCalls phases dm calls).dirtyQ.lookup ph.name).getD
      PhaseDirtyQ.emptyQ).inHeap = []
  · rw [if_pos hih] at heq
    cases heq
  · rw [if_neg hih] at heq
    obtain ⟨hq1, hq2, hq3, hq4⟩ := hQ ph.name
    cases hk : ph.kind
    · rw [hk] at heq
      simp at heq
    · rw [hk] at heq
      simp only [Option.some.injEq, Prod.mk.injEq] at heq
      obtain ⟨hname, heq2⟩ := heq
      injection heq2 with heq3
      rw [← heq3]
      apply pairwise_flatten_sorted _ _
        (fun c => RaphApp_priority (applyDirtyCalls phases dm calls) c.node)
      · exact (popSeq_spec _ _ hq1 (by omega)).1
      · intro i c hc
        obtain ⟨nd, hnd2, rfl⟩ := List.mem_map.mp hc
        exact hq4 i nd hnd2

/-- Witness for the amended C3 statement at a concrete app: one `each`
phase, two nodes dirtied against depth order. -/
theorem c3_run_ordering_witness :
    (RaphApp_run (applyDirtyCalls
        [{ name := "E", nodesFilter := none, kind := PhaseKind.each }] [("a", 1), ("b", 0)]
        [("E", { id := "a", ntype := "t", weight := 0 }, none),
         ("E", { id := "b", ntype := "t", weight := 0 }, none)])).2
      = [{ name := "E", nodesFilter := none, kind := PhaseKind.each }].filterMap
          (phaseOutSpec (applyDirtyCalls
            [{ name := "E", nodesFilter := none, kind := PhaseKind.each }] [("a", 1), ("b", 0)]
            [("E", { id := "a", ntype := "t", weight := 0 }, none),
             ("E", { id := "b", ntype := "t", weight := 0 }, none)])) ∧
    (∀ name ctxs,
      (name, PhaseOut.eachCalls ctxs) ∈ (RaphApp_run (applyDirtyCalls
        [{ name := "E", nodesFilter := none, kind := PhaseKind.each }] [("a", 1), ("b", 0)]
        [("E", { id := "a", ntype := "t", weight := 0 }, none),
         ("E", { id := "b", ntype := "t", weight := 0 }, none)])).2 →
      List.Pairwise (fun c1 c2 =>
        RaphApp_priority (applyDirtyCalls
          [{ name := "E", nodesFilter := none, kind := PhaseKind.each }] [("a", 1), ("b", 0)]
          [("E", { id := "a", ntype := "t", weight := 0 }, none),
           ("E", { id := "b", ntype := "t", weight := 0 }, none)]) c1.node
          ≤ RaphApp_priority (applyDirtyCalls
          [{ name := "E", nodesFilter := none, kind := PhaseKind.each }] [("a", 1), ("b", 0)]
          [("E", { id := "a", ntype := "t", weight := 0 }, none),
           ("E", { id := "b", ntype := "t", weight := 0 }, none)]) c2.node) ctxs) :=
  c3_run_ordering
    [{ name := "E", nodesFilter := none, kind := PhaseKind.each }] [("a", 1), ("b", 0)]
    [("E", { id := "a", ntype := "t", weight := 0 }, none),
     ("E", { id := "b", ntype := "t", weight := 0 }, none)]
    (by decide)

/-! ## DefaultDataAdapter (src/domain/entities/DataAdapter.ts)

The adapter's get / set / delete / merge walk parsed DataPath segments over
a JSON-like document, and share the persistent index state `_indexes` /
`_indexDirty` (WeakMaps keyed by array object identity) that survives
across operations: every operation below takes and returns an `IdxSt`. JS
in-place mutations become functional rebuilds of the root (observationally
equivalent on tree-shaped documents); array object identity is modelled by
the syntactic access path (see the IdxSt header below). The adapter is an
ES module, so strict-mode TypeErrors on property assignment to primitives
are modelled as errors of set. Elided values (never errors): string-keyed
properties attached to array objects are dropped by the write-backs.
Outside the model, excluded by hypothesis where quantified: `$`-prefixed
param values (resolved through a nested get call on a shorter path), and
the non-default 'splice' arrayDelete mode (the default is 'unset'). -/

/-- JSON-like JS runtime values handled by DefaultDataAdapter. `undefined`
models JS `undefined`, `null` models JS `null`; numbers are restricted to
integers. -/
inductive JVal where
  | undefined
  | null
  | num (n : Int)
  | str (s : String)
  | bool (b : Bool)
  | arr (elems : List JVal)
  | obj (fields : List (String × JVal))

mutual
/-- Structural equality of document values; on the primitive values the
adapter compares with `===` it coincides with JS strict equality. -/
def JVal.beq : JVal → JVal → Bool
  | .undefined, .undefined => true
  | .null, .null => true
  | .num a, .num b => a == b
  | .str a, .str b => a == b
  | .bool a, .bool b => a == b
  | .arr a, .arr b => JVal.beqList a b
  | .obj a, .obj b => JVal.beqFields a b
  | _, _ => false

def JVal.beqList : List JVal → List JVal → Bool
  | [], [] => true
  | a :: as, b :: bs => JVal.beq a b && JVal.beqList as bs
  | _, _ => false

def JVal.beqFields : List (String × JVal) → List (String × JVal) → Bool
  | [], [] => true
  | (k1, v1) :: as, (k2, v2) :: bs => k1 == k2 && JVal.beq v1 v2 && JVal.beqFields as bs
  | _, _ => false
end

instance : BEq JVal := ⟨JVal.beq⟩

/-- JS `x == null` (true for both null and undefined). -/
def nullish : JVal → Bool
  | .undefined => true
  | .null => true
  | _ => false

theorem nullish_null : nullish JVal.null = true := rfl

/-- DataAdapter._isPlainObject: an object that is neither null nor an array. -/
def isPlainObject : JVal → Bool
  | .obj _ => true
  | _ => false

/-- typeof v is string, number or boolean: the values the index stores, and
the non-nullish values property assignment throws a strict-mode TypeError
on. -/
def primComparable : JVal → Bool
  | .num _ => true
  | .str _ => true
  | .bool _ => true
  | _ => false

/-- JS property read `v[k]` on a non-null value: a field of a plain object,
`undefined` otherwise (string-keyed array properties are not representable,
see the section header). -/
def jGet : JVal → String → JVal
  | .obj fs, k => ((fs.lookup k).getD .undefined)
  | _, _ => .undefined

/-- JS `k && k.startsWith('$')`: non-empty and first character '$'. -/
def strHeadIsDollar (s : String) : Bool := s.toList.head? = some '$'

/-- JS k.slice(1). -/
def strTail (s : String) : String := (s.toList.drop 1).asString

/-- A parsed param value as the JS value it is compared against with `===`. -/
def pvalToJVal : PVal → JVal
  | .str s => .str s
  | .num n => .num (n : Int)

/-- DataAdapter._linearFindIndex: index of the FIRST plain-object element
whose `pkey` field is `===` to the value. -/
def linearFindIndex (pkey : String) (pvalJ : JVal) : List JVal → Option Nat
  | [] => none
  | el :: rest =>
    if isPlainObject el && jGet el pkey == pvalJ then some 0
    else (linearFindIndex pkey pvalJ rest).map (· + 1)

/-- The LAST index whose plain-object element carries the value under pkey:
what a freshly built index bucket maps the value to (the build loops run
bucket.set(v, i) for ascending i, so later indices win). -/
def lastFindIndex (pkey : String) (pvalJ : JVal) : List JVal → Option Nat
  | [] => none
  | el :: rest =>
    match lastFindIndex pkey pvalJ rest with
    | some j => some (j + 1)
    | none => if isPlainObject el && jGet el pkey == pvalJ then some 0 else none

/-! ### The persistent index state

`_indexes : WeakMap<any[], Map<string, Map<any, number>>>` and
`_indexDirty : WeakMap<any[], boolean>` survive across operations; array
object identity is modelled by the syntactic path prefix under which the
walk reaches the array (documents or operation sequences that reach one
array object under two different spellings are outside the model). A
`Bucket` models the inner `Map<any, number>` (value to last-seen index), a
`ByKey` the per-array `Map<string, Bucket>`; Map.set is updateAList. -/

def Bucket := List (JVal × Nat)

def ByKey := List (String × Bucket)

structure IdxSt where
  indexes : List (List Seg × ByKey)
  dirtyArrs : List (List Seg × Bool)

def emptyIdx : IdxSt := ⟨[], []⟩

/-- Store a (re)built or mutated bucket under (array, pkey), as the program
does by mutating the Map objects in place. -/
def setBucket (σ : IdxSt) (pfx : List Seg) (pkey : String) (b : Bucket) : IdxSt :=
  ⟨updateAList pfx
      (fun obk => updateAList pkey (fun _ => b) (obk.getD ([] : ByKey))) σ.indexes,
    σ.dirtyArrs⟩

/-- One eager build pass for a single key: for ascending i, a plain-object
element whose pkey field is a non-null primitive runs bucket.set(v, i). -/
def buildBucketGo (pkey : String) : Nat → List JVal → Bucket → Bucket
  | _, [], b => b
  | i, el :: rest, b =>
    buildBucketGo pkey (i + 1) rest
      (if isPlainObject el && primComparable (jGet el pkey) then
        updateAList (jGet el pkey) (fun _ => i) b
      else b)

def buildBucket (pkey : String) (es : List JVal) : Bucket :=
  buildBucketGo pkey 0 es []

/-- The keys the eager-all-keys rebuild enumerates: every field key of every
plain-object element (per key, the entries written are exactly those of
buildBucket for that key). -/
def eagerKeys (es : List JVal) : List String :=
  es.foldl
    (fun acc el =>
      match el with
      | .obj fs => fs.foldl (fun acc2 kv => addUnique acc2 kv.1) acc
      | _ => acc) []

def rebuildByKey (es : List JVal) : ByKey :=
  (eagerKeys es).map (fun k => (k, buildBucket k es))

/-- DataAdapter._ensureIndex (DataAdapter.ts lines 511-559) with the default
eager-all-keys strategy: rebuild the whole ByKey if absent or dirty, then
backfill the requested pkey bucket if still missing. Returns the bucket and
the updated state. -/
def ensureIndexSt (σ : IdxSt) (pfx : List Seg) (es : List JVal) (pkey : String) :
    Bucket × IdxSt :=
  let rebuilt :=
    ((σ.indexes.lookup pfx).isNone || (σ.dirtyArrs.lookup pfx).getD false)
  let byKey1 :=
    if rebuilt then rebuildByKey es else ((σ.indexes.lookup pfx).getD ([] : ByKey))
  let σ1 : IdxSt :=
    if rebuilt then
      ⟨updateAList pfx (fun _ => byKey1) σ.indexes,
        updateAList pfx (fun _ => false) σ.dirtyArrs⟩
    else σ
  match byKey1.lookup pkey with
  | some b => (b, σ1)
  | none => (buildBucket pkey es, setBucket σ1 pfx pkey (buildBucket pkey es))

/-- DataAdapter._findIndexByParam (DataAdapter.ts lines 485-508): with
indexing off, the first-match linear scan and no state change; with indexing
on, ensure the bucket, return its entry on a hit, otherwise scan linearly
and backfill the bucket on a found miss. The `$`-prefixed pval indirection
(resolved through a nested get call in the source) is outside the model;
theorems restrict paths to literal param values. -/
def findIndexByParamSt (ie : Bool) (σ : IdxSt) (pfx : List Seg) (es : List JVal)
    (pkey : String) (pval : PVal) : Option Nat × IdxSt :=
  if !ie then (linearFindIndex pkey (pvalToJVal pval) es, σ)
  else
    match ensureIndexSt σ pfx es pkey with
    | (b, σ1) =>
      match b.lookup (pvalToJVal pval) with
      | some i => (some i, σ1)
      | none =>
        match linearFindIndex pkey (pvalToJVal pval) es with
        | some i =>
          (some i, setBucket σ1 pfx pkey
            (updateAList (pvalToJVal pval) (fun _ => i) b))
        | none => (none, σ1)

/-- Elements a and b never carry the same primitive value under the same
key: for every field (k, v) of a with primitive v, b's k field differs. -/
def noSharedKeyVal (a b : JVal) : Bool :=
  match a with
  | .obj fs => fs.all (fun kv => !primComparable kv.2 || !(jGet b kv.1 == kv.2))
  | _ => true

/-- No two elements of the array (in order) share a key/primitive-value
pair; under this condition first match and last match coincide. -/
def pairwiseNoShared : List JVal → Bool
  | [] => true
  | el :: rest => rest.all (noSharedKeyVal el) && pairwiseNoShared rest

/-- Every array a get walk resolves a param segment against along this path
is pairwiseNoShared: the duplicate-freedom half of the amended
index-transparency hypothesis, phrased over the linear (index-free)
traversal. -/
def paramsUniqueOnPath (vars : List (String × JVal)) : JVal → List Seg → Bool
  | _, [] => true
  | cur, s :: rest =>
    if nullish cur then true
    else
      match s with
      | .key k =>
        if strHeadIsDollar k && (vars.lookup (strTail k)).isSome then
          paramsUniqueOnPath vars ((vars.lookup (strTail k)).getD .undefined) rest
        else paramsUniqueOnPath vars (jGet cur k) rest
      | .idx i =>
        paramsUniqueOnPath vars
          (match cur with | .arr es => es.getD i .undefined | _ => .undefined) rest
      | .param pkey pval =>
        match cur with
        | .arr es =>
          pairwiseNoShared es &&
            (match linearFindIndex pkey (pvalToJVal pval) es with
             | none => true
             | some i => paramsUniqueOnPath vars (es.getD i .undefined) rest)
        | _ => true
      | .wc _ => true

/-- The per-consult freshness condition of the amended C7 claim: the index
entry that an indexed read would consult for (array, pkey, pval) agrees
with what a fresh rebuild of that bucket would contain. It holds trivially
when the array has no cached ByKey, when the array is marked dirty (both
force a rebuild) or when the pkey bucket is missing (backfilled fresh). -/
def entryFreshB (σ : IdxSt) (pfx : List Seg) (es : List JVal) (pkey : String)
    (pval : PVal) : Bool :=
  match σ.indexes.lookup pfx with
  | none => true
  | some bk =>
    if (σ.dirtyArrs.lookup pfx).getD false then true
    else
      match bk.lookup pkey with
      | none => true
      | some b =>
        b.lookup (pvalToJVal pval) == lastFindIndex pkey (pvalToJVal pval) es

/-- The full hypothesis of the amended C7 claim, checked along the read
path: at every param segment the consulted index entry is fresh
(entryFreshB) and the array is duplicate-free (pairwiseNoShared), with the
index state advanced exactly as the indexed walk advances it. -/
def getReadOk (vars : List (String × JVal)) : IdxSt → List Seg → JVal → List Seg → Bool
  | _, _, _, [] => true
  | σ, pfx, cur, s :: rest =>
    if nullish cur then true
    else
      match s with
      | .key k =>
        if strHeadIsDollar k && (vars.lookup (strTail k)).isSome then
          getReadOk vars σ (pfx ++ [s]) ((vars.lookup (strTail k)).getD .undefined) rest
        else getReadOk vars σ (pfx ++ [s]) (jGet cur k) rest
      | .idx i =>
        getReadOk vars σ (pfx ++ [s])
          (match cur with | .arr es => es.getD i .undefined | _ => .undefined) rest
      | .param pkey pval =>
        match cur with
        | .arr es =>
          pairwiseNoShared es && entryFreshB σ pfx es pkey pval &&
            (match linearFindIndex pkey (pvalToJVal pval) es with
             | none => true
             | some i =>
               getReadOk vars (findIndexByParamSt true σ pfx es pkey pval).2
                 (pfx ++ [s]) (es.getD i .undefined) rest)
        | _ => true
      | .wc _ => true

theorem lookup_updateAList_ne2 {α β : Type} [BEq α] [LawfulBEq α]
    (m : List (α × β)) (k q : α) (f : Option β → β) (h : q ≠ k) :
    (updateAList k f m).lookup q = m.lookup q := by
  induction m with
  | nil =>
    have hb : (q == k) = false := by simpa using h
    simp [updateAList, List.lookup, hb]
  | cons kv rest ih =>
    rcases kv with ⟨k3, v⟩
    by_cases hk : (k == k3) = true
    · have hkk : k = k3 := eq_of_beq hk
      have hq : (q == k) = false := by simpa using h
      have hq3 : (q == k3) = false := hkk ▸ hq
      simp [updateAList, List.lookup, hk, hq3]
    · have hkb : (k == k3) = false := by simpa using hk
      by_cases hq3 : (q == k3) = true
      · simp [updateAList, List.lookup, hkb, hq3]
      · have hq3b : (q == k3) = false := by simpa using hq3
        simp [updateAList, List.lookup, hkb, hq3b, ih]

theorem isSome_lookup_updateAList {α β : Type} [BEq α] [LawfulBEq α]
    (m : List (α × β)) (k q : α) (f : Option β → β)
    (h : ((updateAList k f m).lookup q).isSome = true) :
    (m.lookup q).isSome = true ∨ q = k := by
  by_cases hq : q = k
  · exact Or.inr hq
  · rw [lookup_updateAList_ne2 m k q f hq] at h
    exact Or.inl h

/-- _findIndexByParam touches the index state only at the consulted array. -/
theorem findIndexByParamSt_keys (ie : Bool) (σ : IdxSt) (pfx : List Seg)
    (es : List JVal) (pkey : String) (pval : PVal) (q : List Seg)
    (h : (((findIndexByParamSt ie σ pfx es pkey pval).2).indexes.lookup q).isSome = true) :
    (σ.indexes.lookup q).isSome = true ∨ q = pfx := by
  cases ie with
  | false =>
    simp only [findIndexByParamSt, Bool.not_false, if_true] at h
    exact Or.inl h
  | true =>
    simp only [findIndexByParamSt, ensureIndexSt, setBucket, Bool.not_true,
      Bool.false_eq_true, if_false] at h
    by_cases hreb : ((σ.indexes.lookup pfx).isNone || (σ.dirtyArrs.lookup pfx).getD false) = true
    · simp only [hreb, if_true] at h
      cases hbk : (rebuildByKey es).lookup pkey with
      | some b =>
        simp only [hbk] at h
        cases hbl : b.lookup (pvalToJVal pval) with
        | some i =>
          simp only [hbl] at h
          exact isSome_lookup_updateAList _ _ _ _ h
        | none =>
          simp only [hbl] at h
          cases hlin : linearFindIndex pkey (pvalToJVal pval) es with
          | some i =>
            simp only [hlin] at h
            rcases isSome_lookup_updateAList _ _ _ _ h with h2 | h2
            · exact isSome_lookup_updateAList _ _ _ _ h2
            · exact Or.inr h2
          | none =>
            simp only [hlin] at h
            exact isSome_lookup_updateAList _ _ _ _ h
      | none =>
        simp only [hbk] at h
        cases hbl : (buildBucket pkey es).lookup (pvalToJVal pval) with
        | some i =>
          simp only [hbl] at h
          rcases isSome_lookup_updateAList _ _ _ _ h with h2 | h2
          · exact isSome_lookup_updateAList _ _ _ _ h2
          · exact Or.inr h2
        | none =>
          simp only [hbl] at h
          cases hlin : linearFindIndex pkey (pvalToJVal pval) es with
          | some i =>
            simp only [hlin] at h
            rcases isSome_lookup_updateAList _ _ _ _ h with h2 | h2
            · rcases isSome_lookup_updateAList _ _ _ _ h2 with h3 | h3
              · exact isSome_lookup_updateAList _ _ _ _ h3
              · exact Or.inr h3
            · exact Or.inr h2
          | none =>
            simp only [hlin] at h
            rcases isSome_lookup_updateAList _ _ _ _ h with h2 | h2
            · exact isSome_lookup_updateAList _ _ _ _ h2
            · exact Or.inr h2
    · simp only [hreb, Bool.false_eq_true, if_false] at h
      cases hbk : ((σ.indexes.lookup pfx).getD ([] : ByKey)).lookup pkey with
      | some b =>
        simp only [hbk] at h
        cases hbl : b.lookup (pvalToJVal pval) with
        | some i => simp only [hbl] at h; exact Or.inl h
        | none =>
          simp only [hbl] at h
          cases hlin : linearFindIndex pkey (pvalToJVal pval) es with
          | some i =>
            simp only [hlin] at h
            exact isSome_lookup_updateAList _ _ _ _ h
          | none => simp only [hlin] at h; exact Or.inl h
      | none =>
        simp only [hbk] at h
        cases hbl : (buildBucket pkey es).lookup (pvalToJVal pval) with
        | some i =>
          simp only [hbl] at h
          exact isSome_lookup_updateAList _ _ _ _ h
        | none =>
          simp only [hbl] at h
          cases hlin : linearFindIndex pkey (pvalToJVal pval) es with
          | some i =>
            simp only [hlin] at h
            rcases isSome_lookup_updateAList _ _ _ _ h with h2 | h2
            · exact isSome_lookup_updateAList _ _ _ _ h2
            · exact Or.inr h2
          | none =>
            simp only [hlin] at h
            exact isSome_lookup_updateAList _ _ _ _ h

/-- In a state whose cached indexes all belong to arrays above the current
prefix (in particular the freshly constructed or freshly cleared adapter),
duplicate-freedom of the read path alone implies the full read condition:
every bucket the read consults is built fresh during the read itself. -/
theorem getReadOk_of_unindexed (vars : List (String × JVal)) :
    ∀ (segs : List Seg) (σ : IdxSt) (pfx : List Seg) (cur : JVal),
      (∀ q, (σ.indexes.lookup q).isSome = true → q.length < pfx.length) →
      paramsUniqueOnPath vars cur segs = true →
      getReadOk vars σ pfx cur segs = true := by
  intro segs
  induction segs with
  | nil => intro σ pfx cur _ _; rfl
  | cons s rest ih =>
    intro σ pfx cur hinv hu
    by_cases hn : nullish cur = true
    · simp [getReadOk, hn]
    · have hstep : ∀ (s2 : Seg) (q : List Seg),
          (σ.indexes.lookup q).isSome = true → q.length < (pfx ++ [s2]).length := by
        intro s2 q hq
        have := hinv q hq
        simp [List.length_append]
        omega
      cases s with
      | key k =>
        simp only [paramsUniqueOnPath, hn, Bool.false_eq_true, if_false] at hu
        by_cases hd : (strHeadIsDollar k && (vars.lookup (strTail k)).isSome) = true
        · rw [if_pos hd] at hu
          simp only [getReadOk, hn, Bool.false_eq_true, if_false, hd, if_true]
          exact ih σ _ _ (hstep _) hu
        · rw [if_neg hd] at hu
          simp only [getReadOk, hn, Bool.false_eq_true, if_false, hd,
            Bool.false_eq_true, if_false]
          exact ih σ _ _ (hstep _) hu
      | idx i =>
        simp only [paramsUniqueOnPath, hn, Bool.false_eq_true, if_false] at hu
        simp only [getReadOk, hn, Bool.false_eq_true, if_false]
        exact ih σ _ _ (hstep _) hu
      | param pkey pval =>
        cases cur with
        | arr es =>
          simp only [paramsUniqueOnPath, nullish, Bool.false_eq_true, if_false,
            Bool.and_eq_true] at hu
          obtain ⟨hnd, hcont⟩ := hu
          have hnone : σ.indexes.lookup pfx = none := by
            cases hq : σ.indexes.lookup pfx with
            | none => rfl
            | some bk =>
              have := hinv pfx (by simp [hq])
              omega
          have hfresh : entryFreshB σ pfx es pkey pval = true := by
            simp [entryFreshB, hnone]
          simp only [getReadOk, nullish, Bool.false_eq_true, if_false,
            Bool.and_eq_true]
          refine ⟨⟨hnd, hfresh⟩, ?_⟩
          cases hlin : linearFindIndex pkey (pvalToJVal pval) es with
          | none => rfl
          | some i =>
            rw [hlin] at hcont
            refine ih _ _ _ ?_ hcont
            intro q hq
            rcases findIndexByParamSt_keys true σ pfx es pkey pval q hq with h2 | h2
            · have := hinv q h2
              simp [List.length_append]
              omega
            · subst h2
              simp [List.length_append]
        | undefined => simp [nullish] at hn
        | null => simp [nullish] at hn
        | num n => simp [getReadOk, nullish]
        | str t => simp [getReadOk, nullish]
        | bool b => simp [getReadOk, nullish]
        | obj fs => simp [getReadOk, nullish]
      | wc b => simp [getReadOk, hn]

/-- The freshly constructed (or freshly cleared) adapter satisfies the read
condition for every duplicate-free path. -/
theorem getReadOk_emptyIdx (vars : List (String × JVal)) (root : JVal)
    (segs : List Seg) (hu : paramsUniqueOnPath vars root segs = true) :
    getReadOk vars emptyIdx [] root segs = true := by
  refine getReadOk_of_unindexed vars segs emptyIdx [] root ?_ hu
  intro q hq
  simp [emptyIdx, List.lookup] at hq


/-! ### Claim theorems C7 and C8 -/

